import Mathlib

/-!
# Red-black tree store of `src/mqtt/Tree.c`

A shallow embedding of the multi-index red-black tree of `Tree.c` and proofs about it.

## Representation

`Tree.c` works on heap nodes linked by `parent`, `child[LEFT]` and `child[RIGHT]` pointers.
The embedding keeps the linked shape as a value:

* a subtree is a `Node` (`Node.null` is the `NULL` child);
* a non-null `Node*` into an index is a `Loc`: the subtree hanging at the pointee (`focus`)
  together with the chain of its ancestors (`path`, nearest first).  Each ancestor is a
  `Frame`: the parent's own fields, the slot `dir` of the parent that leads to the pointee and
  the parent's other child.  `ptr->parent` is one step up the path, `ptr->child[d]` one step
  down, the root of the index is what is obtained by closing the whole path (`Loc.root`);
* a nullable `Node*` is an `Option (Loc α)` (`Ptr`), `none` being `NULL`;
* a `Loc` whose focus is `Node.null` stands for a position that holds no node: the
  `(curparent, left)` pair at which `TreeAddByIndex` links a new node, and the zeroed stack
  node `temp` of `TreeRemoveNodeIndex`, which has a parent but is linked from nowhere.

Directions are booleans: `LEFT = false`, `RIGHT = true`, and `!d` is the C `!direction`.

Records are the values of a type `α`; a record is the thing pointed to and is never `NULL`
(line 402 of `Tree.c`: "curnode->content == NULL must equal curnode == NULL").

`Tree.h` is not among the sources: the fields used by `Tree.c` are declared here as they are
used there, `count`, `size` and the node size hint being mathematical integers.
-/

namespace PahoTree

/-! ## Data model -/

/-- A subtree: either the `NULL` child or a node with its `red` bit, its `content` record,
its `size` hint and its `child[LEFT]`, `child[RIGHT]` subtrees. -/
inductive Node (α : Type) where
  | null : Node α
  | node (red : Bool) (content : α) (size : Int) (left right : Node α) : Node α
deriving DecidableEq

/-- One ancestor on the way from a node to the root: the parent's fields, the slot `dir` of the
parent in which the node sits (`false` is `LEFT`) and the parent's other child `sib`. -/
structure Frame (α : Type) where
  dir : Bool
  red : Bool
  content : α
  size : Int
  sib : Node α
deriving DecidableEq

/-- A node pointer into an index: the subtree at the pointee and its ancestors, nearest first. -/
structure Loc (α : Type) where
  focus : Node α
  path : List (Frame α)
deriving DecidableEq

/-- A nullable node pointer; `none` is `NULL`. -/
abbrev Ptr (α : Type) := Option (Loc α)

/-- One index of a store (`aTree->index[i]`): its root and its comparator.  The comparator is
called as `compare stored query mode`. -/
structure Index (α : Type) where
  root : Node α
  compare : α → α → Int → Int

/-- Modelled from the spec: `Tree.h`, which declares `Tree`, is not among the sources.  The store
has the fields `Tree.c` uses: the indices `index[0 .. indexes-1]` (here a list, `indexes` being
its length), the aggregate `count` and `size`, and the two flag bits. -/
structure Tree (α : Type) where
  index : List (Index α)
  count : Int
  size : Int
  heap_tracking : Bool
  allow_duplicates : Bool

/-- How a call ends: it returns a value, it terminates the process with `exit(code)`, or it has
no defined behaviour (a `NULL` dereference, an index outside `index[0 .. indexes-1]`). -/
inductive Outcome (β : Type) where
  | done (value : β) : Outcome β
  | exited (code : Int) : Outcome β
  | undefined : Outcome β

variable {α : Type}

/-- The node with colour `red`, record `content`, size `size`, whose `child[d]` is `x` and whose
`child[!d]` is `y`. -/
def build (red : Bool) (content : α) (size : Int) (d : Bool) (x y : Node α) : Node α :=
  if d then .node red content size y x else .node red content size x y

/-- The parent node that a frame describes, with `n` put back into its slot. -/
def Frame.plug (f : Frame α) (n : Node α) : Node α :=
  build f.red f.content f.size f.dir n f.sib

/-- Closes a path over a subtree: the root of the index the location lies in. -/
def zip : Node α → List (Frame α) → Node α
  | n, [] => n
  | n, f :: fs => zip (f.plug n) fs

/-- The root of the index a location lies in (`aTree->index[index].root`). -/
def Loc.root (l : Loc α) : Node α := zip l.focus l.path

/-- The pointer `curnode->parent` (`none` when the parent is `NULL`). -/
def Loc.up (l : Loc α) : Ptr α :=
  match l.path with
  | [] => none
  | f :: fs => some ⟨f.plug l.focus, fs⟩

/-- The position of `curnode->child[d]`; `none` when `curnode` is not a node. -/
def Loc.down (l : Loc α) (d : Bool) : Option (Loc α) :=
  match l.focus with
  | .null => none
  | .node r c s lt rt =>
    if d then some ⟨rt, ⟨true, r, c, s, lt⟩ :: l.path⟩
    else some ⟨lt, ⟨false, r, c, s, rt⟩ :: l.path⟩

/-- The assignment `n->red = v`; `none` when `n` is `NULL`. -/
def Node.setRed : Node α → Bool → Option (Node α)
  | .null, _ => none
  | .node _ c s lt rt, v => some (.node v c s lt rt)

/-- The test `n == NULL`. -/
def Node.isNull : Node α → Bool
  | .null => true
  | .node _ _ _ _ _ => false

/-- The pointer to the root of an index: `NULL` for an empty index. -/
def rootPtr : Node α → Ptr α
  | .null => none
  | .node r c s lt rt => some ⟨.node r c s lt rt, []⟩

/-! ## `Tree.c`, lines 52-110: creation and colour tests -/

/-- `TreeInitialize` (lines 52-73): a zeroed store with heap tracking on and one index. -/
def TreeInitialize (compare : α → α → Int → Int) : Tree α :=
  { index := [⟨.null, compare⟩], count := 0, size := 0,
    heap_tracking := true, allow_duplicates := false }

/-- `TreeAddIndex` (lines 76-80): registers one more index, empty, with its comparator. -/
def TreeAddIndex (aTree : Tree α) (compare : α → α → Int → Int) : Tree α :=
  { aTree with index := aTree.index ++ [⟨.null, compare⟩] }

/-- `isRed` (lines 101-104): `(aNode != NULL) && (aNode->red)`. -/
def isRed : Node α → Bool
  | .null => false
  | .node r _ _ _ _ => r

/-- `isBlack` (lines 107-110): `(aNode == NULL) || (aNode->red == 0)`. -/
def isBlack : Node α → Bool
  | .null => true
  | .node r _ _ _ _ => !r

/-! ## `Tree.c`, lines 114-143: the depth of the primary index -/

/-- `TreeWalk` (lines 114-131): `depth` itself at `NULL`; at a node, the larger of the results
for the two children at `depth+1`, where `max(left, right)` expands to
`(left > right) ? left : right`. -/
def TreeWalk : Node α → Int → Int
  | .null, depth => depth
  | .node _ _ _ lt rt, depth =>
    let left := TreeWalk lt (depth + 1)
    let right := TreeWalk rt (depth + 1)
    if left > right then left else right

/-- `TreeMaxDepth` (lines 134-143): `TreeWalk(aTree->index[0].root, 0)`.  The function only
reads the store. -/
def TreeMaxDepth (aTree : Tree α) : Outcome Int :=
  match aTree.index[0]? with
  | none => .undefined
  | some ix => .done (TreeWalk ix.root 0)

/-! ## `Tree.c`, lines 146-200: rotation and the fix-up after an insertion -/

/-- `TreeRotate` (lines 146-162).  `other = curnode->child[!direction]` takes the place of
`curnode`, which becomes `other->child[direction]` and adopts the former
`other->child[direction]` as its `child[!direction]`.  The result is the pointer `curnode`
after the call; `none` when `curnode` or `other` is `NULL`. -/
def TreeRotate (curnode : Loc α) (direction : Bool) : Option (Loc α) :=
  match curnode.focus with
  | .null => none
  | .node r c s lt rt =>
    match (if direction then lt else rt) with
    | .null => none
    | .node r' c' s' lt' rt' =>
      let inner := if direction then rt' else lt'
      let outer := if direction then lt' else rt'
      some ⟨build r c s direction (if direction then rt else lt) inner,
            ⟨direction, r', c', s', outer⟩ :: curnode.path⟩

/-- `TreeBAASub` (lines 165-187).  `TreeBalanceAfterAdd` calls it with `which` the side of the
grandparent opposite to the parent, so that `uncle` is the parent's sibling; the embedding
covers these calls (`none` otherwise, and when there is no grandparent). -/
def TreeBAASub (curnode : Loc α) (which : Bool) : Option (Loc α) :=
  match curnode.path with
  | p :: g :: rest =>
    if g.dir = which then none
    else
      -- uncle = curnode->parent->parent->child[which]
      match g.sib with
      | .node true uc us ul ur =>
        -- curnode->parent->red = uncle->red = 0; curnode = curnode->parent->parent;
        -- curnode->red = 1
        some ⟨({ g with red := true, sib := .node false uc us ul ur } : Frame α).plug
                (({ p with red := false } : Frame α).plug curnode.focus), rest⟩
      | _ =>
        -- if (curnode == curnode->parent->child[which]) { curnode = parent; rotate }
        (if p.dir = which then TreeRotate ⟨p.plug curnode.focus, g :: rest⟩ (!which)
         else some curnode).bind fun cur =>
        match cur.path with
        | p' :: g' :: rest' =>
          -- curnode->parent->red = 0; curnode->parent->parent->red = 1;
          -- TreeRotate(aTree, curnode->parent->parent, which, index)
          (TreeRotate ⟨({ g' with red := true } : Frame α).plug
                        (({ p' with red := false } : Frame α).plug cur.focus), rest'⟩
            which).bind fun gp =>
          -- curnode is the child[!which] of the node that took the grandparent's place
          gp.up.bind fun par => par.down (!which)
        | _ => none
  | _ => none

/-- The loop of `TreeBalanceAfterAdd` (lines 192-198), with a bound on the iterations.
`curnode` is never `NULL` here: it is the node `newel` of `TreeAddByIndex` or a node returned
by `TreeBAASub`. -/
def TreeBalanceAfterAdd.loop : Nat → Loc α → Option (Loc α)
  | fuel, curnode =>
    match curnode.path with
    | p :: g :: _ =>
      -- curnode && isRed(curnode->parent) && curnode->parent->parent
      if p.red then
        match fuel with
        | 0 => none
        | fuel + 1 =>
          -- if (curnode->parent == curnode->parent->parent->child[LEFT])
          (if g.dir = false then TreeBAASub curnode true
           else TreeBAASub curnode false).bind (TreeBalanceAfterAdd.loop fuel)
      else some curnode
    | _ => some curnode

/-- `TreeBalanceAfterAdd` (lines 190-200): the loop, then `root->red = 0`.  The result is the
new root of the index.  The loop moves `curnode` two levels up or ends after a rotation, so
the bound given to it is never reached (`TreeBalanceAfterAdd_loop_total`). -/
def TreeBalanceAfterAdd (curnode : Loc α) : Option (Node α) :=
  (TreeBalanceAfterAdd.loop (curnode.path.length + 1) curnode).bind fun cur =>
    cur.root.setRed false

/-! ## `Tree.c`, lines 209-278: insertion -/

/-- The search loop of `TreeAddByIndex` (lines 218-229), from `curnode` with the ancestors
already passed.  It stops at the node whose record compares zero with `content`, or at the
empty position `(curparent, left)` below the last node visited. -/
def TreeAddByIndex.search (compare : α → α → Int → Int) (content : α) :
    Node α → List (Frame α) → Loc α
  | .null, path => ⟨.null, path⟩
  | .node r c s lt rt, path =>
    -- result = compare(curnode->content, content, 1); left = (result > 0)
    if compare c content 1 = 0 then ⟨.node r c s lt rt, path⟩
    else if compare c content 1 > 0 then
      TreeAddByIndex.search compare content rt (⟨true, r, c, s, lt⟩ :: path)
    else TreeAddByIndex.search compare content lt (⟨false, r, c, s, rt⟩ :: path)

/-- The indices after the assignment `index[i].root = root`. -/
def setRootAt (root : Node α) : Nat → List (Index α) → List (Index α)
  | _, [] => []
  | 0, ix :: rest => { ix with root := root } :: rest
  | i + 1, ix :: rest => ix :: setRootAt root i rest

/-- The store after the assignment `aTree->index[index].root = root`. -/
def Tree.setRoot (aTree : Tree α) (index : Nat) (root : Node α) : Tree α :=
  { aTree with index := setRootAt root index aTree.index }

/-- `TreeAddByIndex` (lines 209-266).  The result is the returned record pointer (`none` is
`NULL`) and the store after the call. -/
def TreeAddByIndex (aTree : Tree α) (content : α) (size : Int) (index : Nat) :
    Outcome (Option α × Tree α) :=
  match aTree.index[index]? with
  | none => .undefined
  | some ix =>
    match TreeAddByIndex.search ix.compare content ix.root [] with
    | ⟨.node r c s lt rt, path⟩ =>
      -- result == 0: the record of the node found is replaced
      if aTree.allow_duplicates then .exited (-99)
      else
        let aTree1 := if index = 0 then { aTree with size := aTree.size + (size - s) } else aTree
        -- newel->content = content; newel->size = size; TreeBalanceAfterAdd(aTree, newel, index)
        match TreeBalanceAfterAdd ⟨.node r content size lt rt, path⟩ with
        | none => .undefined
        | some root => .done (some c, aTree1.setRoot index root)
    | ⟨.null, path⟩ =>
      -- a zeroed node, red, linked below curparent (or as the root)
      let aTree1 :=
        if index = 0 then { aTree with count := aTree.count + 1, size := aTree.size + size }
        else aTree
      match TreeBalanceAfterAdd ⟨.node true content size .null .null, path⟩ with
      | none => .undefined
      | some root => .done (none, aTree1.setRoot index root)

/-- The loop of `TreeAdd` (lines 274-275) from index `i`, with `n` indices still to do. -/
def TreeAdd.loop (content : α) (size : Int) :
    Nat → Nat → Option α → Tree α → Outcome (Option α × Tree α)
  | 0, _, rc, aTree => .done (rc, aTree)
  | n + 1, i, _, aTree =>
    match TreeAddByIndex aTree content size i with
    | .done (rc, aTree1) => TreeAdd.loop content size n (i + 1) rc aTree1
    | .exited code => .exited code
    | .undefined => .undefined

/-- `TreeAdd` (lines 269-278): adds the record to every index; the value returned is the one
of the last index. -/
def TreeAdd (aTree : Tree α) (content : α) (size : Int) : Outcome (Option α × Tree α) :=
  TreeAdd.loop content size aTree.index.length 0 none aTree

/-! ## `Tree.c`, lines 283-358: lookup and traversal -/

/-- The loop of `TreeFindIndex1` (lines 288-295) from `curnode`. -/
def TreeFindIndex1.search (compare : α → α → Int → Int) (key : α) (value : Int) :
    Node α → List (Frame α) → Ptr α
  | .null, _ => none
  | .node r c s lt rt, path =>
    if compare c key value = 0 then some ⟨.node r c s lt rt, path⟩
    else if compare c key value > 0 then
      TreeFindIndex1.search compare key value rt (⟨true, r, c, s, lt⟩ :: path)
    else TreeFindIndex1.search compare key value lt (⟨false, r, c, s, rt⟩ :: path)

/-- `TreeFindIndex1` (lines 283-297). -/
def TreeFindIndex1 (aTree : Tree α) (key : α) (index : Nat) (value : Int) : Outcome (Ptr α) :=
  match aTree.index[index]? with
  | none => .undefined
  | some ix => .done (TreeFindIndex1.search ix.compare key value ix.root [])

/-- `TreeFindIndex` (lines 300-303). -/
def TreeFindIndex (aTree : Tree α) (key : α) (index : Nat) : Outcome (Ptr α) :=
  TreeFindIndex1 aTree key index 0

/-- `TreeFindContentIndex` (lines 306-309). -/
def TreeFindContentIndex (aTree : Tree α) (key : α) (index : Nat) : Outcome (Ptr α) :=
  TreeFindIndex1 aTree key index 1

/-- `TreeFind` (lines 312-315). -/
def TreeFind (aTree : Tree α) (key : α) : Outcome (Ptr α) :=
  TreeFindIndex aTree key 0

/-- The loop of `TreeMinimum` (lines 321-322): down the `child[LEFT]` links. -/
def TreeMinimum.descend : Node α → List (Frame α) → Loc α
  | .node r c s (.node r' c' s' lt' rt') rt, path =>
    TreeMinimum.descend (.node r' c' s' lt' rt') (⟨false, r, c, s, rt⟩ :: path)
  | n, path => ⟨n, path⟩

/-- `TreeMinimum` (lines 318-324). -/
def TreeMinimum : Ptr α → Ptr α
  | none => none
  | some curnode => some (TreeMinimum.descend curnode.focus curnode.path)

/-- The loop of `TreeSuccessor` (lines 333-339): up the parents while the node is a
`child[RIGHT]`; the result is the parent reached (`NULL` past the root). -/
def TreeSuccessor.climb : Node α → List (Frame α) → Ptr α
  | _, [] => none
  | n, f :: fs => if f.dir then TreeSuccessor.climb (f.plug n) fs else some ⟨f.plug n, fs⟩

/-- `TreeSuccessor` (lines 327-342), for a pointer to a node of the index. -/
def TreeSuccessor (curnode : Loc α) : Ptr α :=
  match curnode.focus with
  | .null => none
  | .node r c s lt .null => TreeSuccessor.climb (.node r c s lt .null) curnode.path
  | .node r c s lt (.node r' c' s' lt' rt') =>
    TreeMinimum (some ⟨.node r' c' s' lt' rt', ⟨true, r, c, s, lt⟩ :: curnode.path⟩)

/-- `TreeNextElementIndex` (lines 345-352).  A non-null `curnode` is a pointer into
`aTree->index[index]`. -/
def TreeNextElementIndex (aTree : Tree α) (curnode : Ptr α) (index : Nat) : Outcome (Ptr α) :=
  match curnode with
  | none =>
    match aTree.index[index]? with
    | none => .undefined
    | some ix => .done (TreeMinimum (rootPtr ix.root))
  | some cur => .done (TreeSuccessor cur)

/-- `TreeNextElement` (lines 355-358). -/
def TreeNextElement (aTree : Tree α) (curnode : Ptr α) : Outcome (Ptr α) :=
  TreeNextElementIndex aTree curnode 0

/-! ## `Tree.c`, lines 361-409: the fix-up after a removal -/

/-- Lines 372-393 of `TreeBARSub`: the cases on `sibling = curnode->parent->child[which]`
once it is not red any more, `curnode` sitting on the side `!which` of its parent. -/
def TreeBARSub.cases (cur : Loc α) (which : Bool) : Option (Loc α) :=
  match cur.path with
  | [] => none
  | q :: rest =>
    match q.sib with
    -- if (!sibling) curnode = curnode->parent
    | .null => some ⟨q.plug cur.focus, rest⟩
    | .node sr sc ss sl srt =>
      let near := if which then sl else srt
      let far := if which then srt else sl
      -- isBlack(sibling->child[!which]) && isBlack(sibling->child[which])
      if isBlack near && isBlack far then
        -- sibling->red = 1; curnode = curnode->parent
        some ⟨({ q with sib := .node true sc ss sl srt } : Frame α).plug cur.focus, rest⟩
      else
        -- the pointer sibling, below the parent, curnode being its other child
        let parentOf : Frame α := ⟨which, q.red, q.content, q.size, cur.focus⟩
        (if isBlack far then
           -- sibling->child[!which]->red = 0; sibling->red = 1;
           -- TreeRotate(aTree, sibling, which, index); sibling = parent->child[which]
           (near.setRed false).bind fun near1 =>
           (TreeRotate ⟨build true sc ss which far near1, parentOf :: rest⟩ which).bind
             fun (old : Loc α) => old.up
         else some ⟨.node sr sc ss sl srt, parentOf :: rest⟩).bind fun (sibling : Loc α) =>
        match sibling.focus, sibling.path with
        | .node _ c s lt rt, par :: rest1 =>
          -- sibling->red = parent->red; parent->red = 0; sibling->child[which]->red = 0;
          -- TreeRotate(aTree, curnode->parent, !which, index); curnode = root
          ((if which then rt else lt).setRed false).bind fun far1 =>
          (TreeRotate ⟨({ par with red := false } : Frame α).plug
              (build par.red c s which far1 (if which then lt else rt)), rest1⟩
            (!which)).map fun (l : Loc α) => (⟨l.root, []⟩ : Loc α)
        | _, _ => none

/-- `TreeBARSub` (lines 361-395).  `TreeBalanceAfterRemove` calls it with `which` the side of
the parent opposite to `curnode`, so that `sibling` is the other child of the parent, or, for
the unlinked node `temp` whose parent has no `child[LEFT]`, with `which = RIGHT`, where
`sibling` is `NULL` whichever side `temp` stands for.  The embedding covers these calls
(`none` otherwise, and when there is no parent or a `NULL` is dereferenced). -/
def TreeBARSub (curnode : Loc α) (which : Bool) : Option (Loc α) :=
  match curnode.path with
  | [] => none
  | p :: rest =>
    if which = p.dir then
      match curnode.focus with
      -- sibling = curnode->parent->child[which] is NULL: curnode = curnode->parent
      | .null => some ⟨p.plug .null, rest⟩
      | .node _ _ _ _ _ => none
    else
      -- if (isRed(sibling)) { sibling->red = 0; curnode->parent->red = 1;
      --   TreeRotate(aTree, curnode->parent, !which, index); sibling = parent->child[which] }
      (match p.sib with
       | .node true sc ss sl sr =>
         -- curnode is the child[!which] of its parent, before and after the rotation
         (TreeRotate ⟨({ p with red := true, sib := .node false sc ss sl sr } : Frame α).plug
                        curnode.focus, rest⟩ (!which)).bind fun (par : Loc α) =>
           par.down (!which)
       | _ => some curnode).bind fun (cur : Loc α) => TreeBARSub.cases cur which

/-- The loop of `TreeBalanceAfterRemove` (lines 400-407), with a bound on the iterations.
`curnode` is a node of the index or the unlinked node `temp` (empty focus), whose `content`
is `NULL`: for it line 403 compares `NULL` with `curnode->parent->child[LEFT]`. -/
def TreeBalanceAfterRemove.loop : Nat → Loc α → Option (Loc α)
  | fuel, curnode =>
    match curnode.path with
    | [] => some curnode
    | p :: _ =>
      -- curnode != root && isBlack(curnode)
      if isBlack curnode.focus then
        match fuel with
        | 0 => none
        | fuel + 1 =>
          -- ((curnode->content) ? curnode : NULL) == curnode->parent->child[LEFT]
          let isLeft : Bool :=
            match curnode.focus with
            | .null => !p.dir || p.sib.isNull
            | .node _ _ _ _ _ => !p.dir
          (if isLeft then TreeBARSub curnode true
           else TreeBARSub curnode false).bind (TreeBalanceAfterRemove.loop fuel)
      else some curnode

/-- `TreeBalanceAfterRemove` (lines 398-409): the loop, then `curnode->red = 0`.  The result is
the new root of the index.  Every iteration moves `curnode` one level up, ends at the root or
leaves a red `curnode`, so the bound given to the loop is never reached
(`TreeBalanceAfterRemove_loop_total`). -/
def TreeBalanceAfterRemove (curnode : Loc α) : Option (Node α) :=
  (TreeBalanceAfterRemove.loop (curnode.path.length + 1) curnode).map fun cur =>
    match cur.focus with
    | .null => cur.root
    | .node _ c s lt rt => zip (.node false c s lt rt) cur.path

/-! ## `Tree.c`, lines 417-529: removal -/

/-- The assignment of `content` and `size` to the ancestor `k` levels above the parent. -/
def setAncestor (content : α) (size : Int) : Nat → List (Frame α) → List (Frame α)
  | _, [] => []
  | 0, f :: fs => { f with content := content, size := size } :: fs
  | k + 1, f :: fs => f :: setAncestor content size k fs

/-- Lines 419-426 of `TreeRemoveNodeIndex`: the node `redundant` to unlink, which is
`curnode`, or `TreeSuccessor(curnode)` when `curnode` has two children. -/
def TreeRemoveNodeIndex.redundant (curnode : Loc α) : Ptr α :=
  match curnode.focus with
  | .node _ _ _ (.node _ _ _ _ _) (.node _ _ _ _ _) => TreeSuccessor curnode
  | _ => some curnode

/-- Lines 428-463 of `TreeRemoveNodeIndex`: `redundant` (which is `curnode` or lies below it)
is replaced by its child `curchild`, its record moves into `curnode`, and the tree is
rebalanced if `redundant` was black.  The result is the new root of the index. -/
def TreeRemoveNodeIndex.splice (curnode redundant : Loc α) : Option (Node α) :=
  match redundant.focus with
  | .null => none
  | .node rr rc rs rlt rrt =>
    -- curchild = redundant->child[(redundant->child[LEFT] != NULL) ? LEFT : RIGHT]
    let curchild := match rlt with
      | .null => rrt
      | .node _ _ _ _ _ => rlt
    -- if (redundant != curnode) { curnode->content = ...; curnode->size = ... }
    let path :=
      if redundant.path.length = curnode.path.length then redundant.path
      else setAncestor rc rs (redundant.path.length - curnode.path.length - 1) redundant.path
    if isBlack (.node rr rc rs rlt rrt) then
      match curchild, path with
      -- curchild == NULL and redundant->parent == NULL: nothing to balance
      | .null, [] => some .null
      -- curchild == NULL: TreeBalanceAfterRemove(aTree, &temp, index)
      | .null, f :: fs => TreeBalanceAfterRemove ⟨.null, f :: fs⟩
      | .node cr cc cs cl crt, _ => TreeBalanceAfterRemove ⟨.node cr cc cs cl crt, path⟩
    else some (zip curchild path)

/-- The tree part of `TreeRemoveNodeIndex` (lines 419-463): the record of `curnode` on entry,
its size hint, and the new root of the index. -/
def TreeRemoveNodeIndex.unlink (curnode : Loc α) : Option (α × Int × Node α) :=
  match curnode.focus with
  | .null => none
  | .node _ c s _ _ =>
    (TreeRemoveNodeIndex.redundant curnode).bind fun (redundant : Loc α) =>
      (TreeRemoveNodeIndex.splice curnode redundant).map fun root => (c, s, root)

/-- `TreeRemoveNodeIndex` (lines 417-476), for a pointer `curnode` to a node of
`aTree->index[index]`.  The result is the record returned and the store after the call. -/
def TreeRemoveNodeIndex (aTree : Tree α) (curnode : Loc α) (index : Nat) :
    Outcome (α × Tree α) :=
  if index < aTree.index.length then
    match TreeRemoveNodeIndex.unlink curnode with
    | none => .undefined
    | some (content, size, root) =>
      let aTree1 := aTree.setRoot index root
      .done (content,
        if index = 0 then { aTree1 with size := aTree1.size - size, count := aTree1.count - 1 }
        else aTree1)
  else .undefined

/-- `TreeRemoveIndex` (lines 484-492). -/
def TreeRemoveIndex (aTree : Tree α) (content : α) (index : Nat) :
    Outcome (Option α × Tree α) :=
  match TreeFindContentIndex aTree content index with
  | .done none => .done (none, aTree)
  | .done (some curnode) =>
    (match TreeRemoveNodeIndex aTree curnode index with
     | .done (c, aTree1) => .done (some c, aTree1)
     | .exited code => .exited code
     | .undefined => .undefined)
  | .exited code => .exited code
  | .undefined => .undefined

/-- The loop of `TreeRemove` (lines 500-501) from index `i`, with `n` indices still to do. -/
def TreeRemove.loop (content : α) :
    Nat → Nat → Option α → Tree α → Outcome (Option α × Tree α)
  | 0, _, rc, aTree => .done (rc, aTree)
  | n + 1, i, _, aTree =>
    match TreeRemoveIndex aTree content i with
    | .done (rc, aTree1) => TreeRemove.loop content n (i + 1) rc aTree1
    | .exited code => .exited code
    | .undefined => .undefined

/-- `TreeRemove` (lines 495-504): removes the record from every index; the value returned is
the one of the last index. -/
def TreeRemove (aTree : Tree α) (content : α) : Outcome (Option α × Tree α) :=
  TreeRemove.loop content aTree.index.length 0 none aTree

/-- The loop of `TreeRemoveKeyIndex` (lines 517-521) from index `i`, with `n` indices still to
do.  `content` is `none` once an index did not hold the record: a later index would then be
searched for `NULL`, which the comparators of the embedding do not take. -/
def TreeRemoveKeyIndex.loop (index : Nat) :
    Nat → Nat → Option α → Tree α → Outcome (Option α × Tree α)
  | 0, _, content, aTree => .done (content, aTree)
  | n + 1, i, content, aTree =>
    if i = index then TreeRemoveKeyIndex.loop index n (i + 1) content aTree
    else
      match content with
      | none => .undefined
      | some c =>
        match TreeRemoveIndex aTree c i with
        | .done (content1, aTree1) => TreeRemoveKeyIndex.loop index n (i + 1) content1 aTree1
        | .exited code => .exited code
        | .undefined => .undefined

/-- `TreeRemoveKeyIndex` (lines 507-523). -/
def TreeRemoveKeyIndex (aTree : Tree α) (key : α) (index : Nat) :
    Outcome (Option α × Tree α) :=
  match TreeFindIndex aTree key index with
  | .done none => .done (none, aTree)
  | .done (some curnode) =>
    (match TreeRemoveNodeIndex aTree curnode index with
     | .done (content, aTree1) =>
       TreeRemoveKeyIndex.loop index aTree1.index.length 0 (some content) aTree1
     | .exited code => .exited code
     | .undefined => .undefined)
  | .exited code => .exited code
  | .undefined => .undefined

/-- `TreeRemoveKey` (lines 526-529). -/
def TreeRemoveKey (aTree : Tree α) (key : α) : Outcome (Option α × Tree α) :=
  TreeRemoveKeyIndex aTree key 0

/-! ## `Tree.c`, lines 532-551: the comparators -/

/-- A record of an integer store: the address handed to `TreeAdd` and the `int` stored there. -/
structure IntRec where
  addr : Nat
  val : Int
deriving DecidableEq

/-- `TreeIntCompare` (lines 532-539): `(i > j) ? -1 : (i == j) ? 0 : 1` on the pointed-to
integers. -/
def TreeIntCompare (a b : IntRec) (_content : Int) : Int :=
  if a.val > b.val then -1 else if a.val = b.val then 0 else 1

/-- `TreePtrCompare` (lines 542-545): `(a > b) ? -1 : (a == b) ? 0 : 1` on the pointers
themselves, here the addresses of the records. -/
def TreePtrCompare (a b : IntRec) (_content : Int) : Int :=
  if a.addr > b.addr then -1 else if a.addr = b.addr then 0 else 1

/-- The C library's `strcmp` on two character arrays given as their bytes: the difference of
the first two bytes that differ, and 0 if none differs before a zero byte; the end of the list
stands for the terminating zero.  (C fixes only the sign of the result.) -/
def strcmp : List Nat → List Nat → Int
  | [], [] => 0
  | [], b :: _ => -(b : Int)
  | a :: _, [] => (a : Int)
  | a :: as, b :: bs =>
    if a = b then (if a = 0 then 0 else strcmp as bs) else (a : Int) - (b : Int)

/-- `TreeStringCompare` (lines 548-551): `strcmp((char*)a, (char*)b)`. -/
def TreeStringCompare (a b : List Nat) (_content : Int) : Int :=
  strcmp a b

/-! ## The properties the claims are about -/

/-- The records of a subtree with their size hints, in in-order (left subtree, node, right
subtree). -/
def inorder : Node α → List (α × Int)
  | .null => []
  | .node _ c s lt rt => inorder lt ++ (c, s) :: inorder rt

/-- The number of nodes of a subtree. -/
def nodeCount : Node α → Nat
  | .null => 0
  | .node _ _ _ lt rt => nodeCount lt + 1 + nodeCount rt

/-- The sum of the size hints stored in the nodes of a subtree. -/
def sizeSum : Node α → Int
  | .null => 0
  | .node _ _ s lt rt => sizeSum lt + s + sizeSum rt

/-- For every path from the root of the subtree down to an empty leaf, the number of black
nodes on it. -/
def blackCounts : Node α → List Nat
  | .null => [0]
  | .node r _ _ lt rt => (blackCounts lt ++ blackCounts rt).map fun k => if r then k else k + 1

/-- The root is black (an empty tree has no red root). -/
def RootBlack (n : Node α) : Prop := isRed n = false

/-- No red node has a red child. -/
def NoRedRed : Node α → Prop
  | .null => True
  | .node r _ _ lt rt =>
    (r = true → isRed lt = false ∧ isRed rt = false) ∧ NoRedRed lt ∧ NoRedRed rt

/-- Every path from the root to an empty leaf has the same number of black nodes. -/
def EqualBlackCount (n : Node α) : Prop :=
  ∀ a ∈ blackCounts n, ∀ b ∈ blackCounts n, a = b

/-- The three red-black invariants of an index. -/
structure RedBlack (n : Node α) : Prop where
  rootBlack : RootBlack n
  noRedRed : NoRedRed n
  equalBlackCount : EqualBlackCount n

/-- The number of black nodes on the left-most path of a subtree. -/
def bheight : Node α → Nat
  | .null => 0
  | .node r _ _ lt _ => bheight lt + if r then 0 else 1

/-- At every node the two subtrees have the same left-most black count. -/
def Balanced : Node α → Prop
  | .null => True
  | .node _ _ _ lt rt => bheight lt = bheight rt ∧ Balanced lt ∧ Balanced rt

/-- A path is fit to receive a subtree of black height `h`: every sibling on it is balanced,
free of red-red pairs and of the height that its level asks for, and every red ancestor has a
black sibling child and a black parent. -/
def CtxOK : List (Frame α) → Nat → Prop
  | [], _ => True
  | f :: fs, h =>
    bheight f.sib = h ∧ Balanced f.sib ∧ NoRedRed f.sib ∧
    (f.red = true → isRed f.sib = false ∧ ∃ g rest, fs = g :: rest ∧ g.red = false) ∧
    CtxOK fs (h + if f.red then 0 else 1)

/-- A location in a tree in order: the subtree at it is balanced and free of red-red pairs,
its path is fit for its black height, and if its root is red its parent is black. -/
def LocOK (l : Loc α) : Prop :=
  CtxOK l.path (bheight l.focus) ∧ Balanced l.focus ∧ NoRedRed l.focus ∧
    (isRed l.focus = true → ∃ g rest, l.path = g :: rest ∧ g.red = false)

/-- The subtree with its root made black (`NULL` stays `NULL`). -/
def blacken : Node α → Node α
  | .null => .null
  | .node _ c s lt rt => .node false c s lt rt

/-- The records (with their size hints) that precede the subtree at the end of a path in the
in-order of the whole tree. -/
def pathBefore : List (Frame α) → List (α × Int)
  | [] => []
  | f :: fs => pathBefore fs ++ if f.dir then inorder f.sib ++ [(f.content, f.size)] else []

/-- The records (with their size hints) that follow the subtree at the end of a path in the
in-order of the whole tree. -/
def pathAfter : List (Frame α) → List (α × Int)
  | [] => []
  | f :: fs => (if f.dir then [] else (f.content, f.size) :: inorder f.sib) ++ pathAfter fs

/-- The comparisons of the search of `TreeAddByIndex` from `n` are all non-zero: the search
runs off the tree. -/
def FreshOnPath (compare : α → α → Int → Int) (content : α) : Node α → Prop
  | .null => True
  | .node _ c _ lt rt =>
    compare c content 1 ≠ 0 ∧
      if compare c content 1 > 0 then FreshOnPath compare content rt
      else FreshOnPath compare content lt

/-- The height of a subtree, counted in nodes: 0 for the empty tree, else one more than the
larger of the heights of the two subtrees. -/
def height : Node α → Nat
  | .null => 0
  | .node _ _ _ lt rt => 1 + max (height lt) (height rt)

/-- The loop of `TreeFindIndex1` (lines 288-295) from `curnode`, keeping the ancestors passed:
the place where the loop stops, which is the node whose record compares zero with `key`, or
the empty position below the last node visited.  The path of the place lists the nodes
visited. -/
def TreeFindIndex1.descent (compare : α → α → Int → Int) (key : α) (value : Int) :
    Node α → List (Frame α) → Loc α
  | .null, path => ⟨.null, path⟩
  | .node r c s lt rt, path =>
    if compare c key value = 0 then ⟨.node r c s lt rt, path⟩
    else if compare c key value > 0 then
      TreeFindIndex1.descent compare key value rt (⟨true, r, c, s, lt⟩ :: path)
    else TreeFindIndex1.descent compare key value lt (⟨false, r, c, s, rt⟩ :: path)

/-! ## Ordering -/

/-- The comparator, called in the given mode, is a total order of the keys: reversing the
arguments reverses the sign, and "not after" is transitive.  With `TreeIntCompare` a positive
result of `compare stored query` means that `stored` is the smaller one. -/
structure TotalOrder (compare : α → α → Int → Int) (mode : Int) : Prop where
  antisymm : ∀ a b, 0 < compare a b mode ↔ compare b a mode < 0
  trans : ∀ a b c, 0 ≤ compare a b mode → 0 ≤ compare b c mode → 0 ≤ compare a c mode

/-- The in-order sequence of the subtree is non-decreasing under the comparator: no record
comes after a record that the comparator places after it. -/
def Ordered (compare : α → α → Int → Int) (mode : Int) (n : Node α) : Prop :=
  (inorder n).Pairwise fun x y => 0 ≤ compare x.1 y.1 mode

/-- The in-order sequence of the subtree is strictly increasing under the comparator: it is
non-decreasing and no two records compare equal. -/
def StrictlyOrdered (compare : α → α → Int → Int) (mode : Int) (n : Node α) : Prop :=
  (inorder n).Pairwise fun x y => 0 < compare x.1 y.1 mode

/-- A store with the single index 0 under `compare`, duplicates disallowed, whose index has the
in-order sequence `l` and whose `count` and `size` are the length of `l` and the sum of its
size hints. -/
def StoreOK (aTree : Tree α) (compare : α → α → Int → Int) (l : List (α × Int)) : Prop :=
  ∃ root, aTree.index = [⟨root, compare⟩] ∧ aTree.allow_duplicates = false ∧
    inorder root = l ∧ aTree.count = l.length ∧ aTree.size = (l.map Prod.snd).sum

/-! ## Sequences of calls -/

/-- A call on a store: `TreeAdd`, `TreeRemove` or `TreeRemoveKey`. -/
inductive Op (α : Type) where
  | add (content : α) (size : Int) : Op α
  | remove (content : α) : Op α
  | removeKey (key : α) : Op α

/-- The outcome of one call. -/
def applyOp (aTree : Tree α) : Op α → Outcome (Option α × Tree α)
  | .add content size => TreeAdd aTree content size
  | .remove content => TreeRemove aTree content
  | .removeKey key => TreeRemoveKey aTree key

/-- How one call changes the in-order sequence of a store with one index: `TreeAdd` puts the
entry `(content, size)` in, at a new place or instead of the entry of a record that compares
zero with `content`; `TreeRemove` and `TreeRemoveKey` leave the sequence as it is or take out
the entry of a record that compares zero with the key (in identity mode, respectively in key
mode). -/
def OpRel (compare : α → α → Int → Int) : Op α → List (α × Int) → List (α × Int) → Prop
  | .add content size, l, l1 =>
    ∃ a b, l1 = a ++ (content, size) :: b ∧
      (l = a ++ b ∨ ∃ c0 s0, compare c0 content 1 = 0 ∧ l = a ++ (c0, s0) :: b) ∧
      (TotalOrder compare 1 → l.Pairwise (fun x y => 0 < compare x.1 y.1 1) →
        (∀ x ∈ a, 0 < compare x.1 content 1) ∧ (∀ y ∈ b, 0 < compare content y.1 1))
  | .remove key, l, l1 =>
    l1 = l ∨ ∃ c0 s0 a b, compare c0 key 1 = 0 ∧ l = a ++ (c0, s0) :: b ∧ l1 = a ++ b
  | .removeKey key, l, l1 =>
    l1 = l ∨ ∃ c0 s0 a b, compare c0 key 0 = 0 ∧ l = a ++ (c0, s0) :: b ∧ l1 = a ++ b

/-- The store after a sequence of calls; `none` if one of them does not return. -/
def runOps (aTree : Tree α) : List (Op α) → Option (Tree α)
  | [] => some aTree
  | op :: rest =>
    match applyOp aTree op with
    | .done (_, aTree1) => runOps aTree1 rest
    | _ => none

/-- Removes the records of a list, in turn, with `TreeRemove`: the values returned and the
store left; `none` if a call does not return. -/
def removeAll (aTree : Tree α) : List α → Option (List (Option α) × Tree α)
  | [] => some ([], aTree)
  | c :: rest =>
    match TreeRemove aTree c with
    | .done (rc, aTree1) =>
      (removeAll aTree1 rest).map fun (rcs, aTree2) => (rc :: rcs, aTree2)
    | _ => none

/-- Every `TreeAdd` of the sequence of calls, run from `aTree`, adds a fresh key: it returns
`NULL`, no record being replaced. -/
def freshRun (aTree : Tree α) : List (Op α) → Bool
  | [] => true
  | op :: rest =>
    match applyOp aTree op with
    | .done (rc, aTree1) =>
      (match op with
        | .add _ _ => rc.isNone
        | _ => true) && freshRun aTree1 rest
    | _ => true

/-! ## Walking an index -/

/-- The pointers to the nodes of the subtree `n` hanging at `path`, in in-order. -/
def nodeLocs : Node α → List (Frame α) → List (Loc α)
  | .null, _ => []
  | .node r c s lt rt, path =>
    nodeLocs lt (⟨false, r, c, s, rt⟩ :: path) ++
      ⟨.node r c s lt rt, path⟩ :: nodeLocs rt (⟨true, r, c, s, lt⟩ :: path)

/-- Every pointer of the list has the next one as its `TreeSuccessor`, and the last one has
`last`. -/
def Linked : List (Loc α) → Ptr α → Prop
  | [], _ => True
  | [x], last => TreeSuccessor x = last
  | x :: y :: rest, last => TreeSuccessor x = some y ∧ Linked (y :: rest) last

/-- The record of the node a pointer points to (`curnode->content`). -/
def Loc.content? (l : Loc α) : Option α :=
  match l.focus with
  | .null => none
  | .node _ c _ _ _ => some c

/-- The result of the `k`-th call in a walk of `index[index]` that starts from a null cursor
and hands every result to the next call of `TreeNextElementIndex` (`k = 0`: the null cursor
itself). -/
def nextCalls (aTree : Tree α) (index : Nat) : Nat → Outcome (Ptr α)
  | 0 => .done none
  | k + 1 =>
    match nextCalls aTree index k with
    | .done cur => TreeNextElementIndex aTree cur index
    | .exited code => .exited code
    | .undefined => .undefined

/-! ## Example stores -/

/-- The record whose integer is `v`, stored at address `v`. -/
def rec (v : Nat) : IntRec := ⟨v, v⟩

/-- The index obtained by adding 1, 2, 3, 4, 5, 6 (each of size 4) to an empty integer
store. -/
def sixTree : Node IntRec :=
  .node false (rec 2) 4 (.node false (rec 1) 4 .null .null)
    (.node true (rec 4) 4 (.node false (rec 3) 4 .null .null)
      (.node false (rec 5) 4 .null (.node true (rec 6) 4 .null .null)))

/-- The store obtained by adding 1, 2, 3, 4, 5, 6 (each of size 4) to an empty integer
store. -/
def sixStore : Tree IntRec :=
  { index := [⟨sixTree, TreeIntCompare⟩], count := 6, size := 24,
    heap_tracking := true, allow_duplicates := false }

/-- Adds the records of a list, in turn, with `TreeAdd`; `none` if a call does not return. -/
def addAll (aTree : Tree α) : List (α × Int) → Option (Tree α)
  | [] => some aTree
  | (c, s) :: rest =>
    match TreeAdd aTree c s with
    | .done (_, aTree1) => addAll aTree1 rest
    | _ => none

/-- A record with two keys: an integer `id` and a string `name`, given by its bytes. -/
structure IdName where
  id : Int
  name : List Nat
deriving DecidableEq

/-- A comparator by `id`, with the sign convention of `TreeIntCompare`. -/
def idCompare (a b : IdName) (_content : Int) : Int :=
  if a.id > b.id then -1 else if a.id = b.id then 0 else 1

/-- A comparator by `name`, with the sign convention of `TreeIntCompare`: positive when the
name of `a` comes before the name of `b`. -/
def nameCompare (a b : IdName) (_content : Int) : Int :=
  strcmp b.name a.name

/-- The empty store with two indices: index 0 by `id` and index 1 by `name`. -/
def idNameStore : Tree IdName :=
  TreeAddIndex (TreeInitialize idCompare) nameCompare

/-- A comparator that depends on its mode: in key mode it compares the integers, as
`TreeIntCompare`, in content mode the addresses of the records, as `TreePtrCompare`. -/
def modeCompare (a b : IntRec) (content : Int) : Int :=
  if content = 0 then TreeIntCompare a b content else TreePtrCompare a b content

/-! ## The parent links

The embedding above keeps the shape of an index as a value, in which the parent of a node is
the node above it.  To follow the `parent` fields that `Tree.c` writes, the functions of
`Tree.c` that change links are embedded a second time, on nodes that also carry their address
and the value stored in their `parent` field (an address, `none` for `NULL`).  A child pointer
is still the subtree itself, so an assignment to `child[d]` is a change of shape as before; a
`parent` field changes only where `Tree.c` assigns to it.  Moving to `curnode->parent` is a step
up the path, which is where the field points as long as the links are consistent. -/

/-- A subtree whose nodes carry their address and the value of their `parent` field. -/
inductive Lk.Node (α : Type) where
  | null : Lk.Node α
  | node (addr : Nat) (parent : Option Nat) (red : Bool) (content : α) (size : Int)
      (left right : Lk.Node α) : Lk.Node α
deriving DecidableEq

/-- One ancestor of a location, with its address and the value of its `parent` field. -/
structure Lk.Frame (α : Type) where
  dir : Bool
  addr : Nat
  parent : Option Nat
  red : Bool
  content : α
  size : Int
  sib : Lk.Node α
deriving DecidableEq

/-- A pointer into an index, or an empty position of it. -/
structure Lk.Loc (α : Type) where
  focus : Lk.Node α
  path : List (Lk.Frame α)
deriving DecidableEq

/-- The node at `addr` with the given fields, whose `child[d]` is `x` and whose `child[!d]` is
`y`. -/
def Lk.build (addr : Nat) (parent : Option Nat) (red : Bool) (content : α) (size : Int)
    (d : Bool) (x y : Lk.Node α) : Lk.Node α :=
  if d then .node addr parent red content size y x else .node addr parent red content size x y

/-- The parent node that a frame describes, with `n` put back into its slot. -/
def Lk.Frame.plug (f : Lk.Frame α) (n : Lk.Node α) : Lk.Node α :=
  Lk.build f.addr f.parent f.red f.content f.size f.dir n f.sib

/-- Closes a path over a subtree: the root of the index the location lies in. -/
def Lk.zip : Lk.Node α → List (Lk.Frame α) → Lk.Node α
  | n, [] => n
  | n, f :: fs => Lk.zip (f.plug n) fs

/-- The root of the index a location lies in. -/
def Lk.Loc.root (l : Lk.Loc α) : Lk.Node α := Lk.zip l.focus l.path

/-- The pointer `curnode->parent`. -/
def Lk.Loc.up (l : Lk.Loc α) : Option (Lk.Loc α) :=
  match l.path with
  | [] => none
  | f :: fs => some ⟨f.plug l.focus, fs⟩

/-- The position of `curnode->child[d]`; `none` when `curnode` is not a node. -/
def Lk.Loc.down (l : Lk.Loc α) (d : Bool) : Option (Lk.Loc α) :=
  match l.focus with
  | .null => none
  | .node a p r c s lt rt =>
    if d then some ⟨rt, ⟨true, a, p, r, c, s, lt⟩ :: l.path⟩
    else some ⟨lt, ⟨false, a, p, r, c, s, rt⟩ :: l.path⟩

/-- The assignment `n->red = v`; `none` when `n` is `NULL`. -/
def Lk.Node.setRed : Lk.Node α → Bool → Option (Lk.Node α)
  | .null, _ => none
  | .node a p _ c s lt rt, v => some (.node a p v c s lt rt)

/-- The guarded assignment `if (n != NULL) n->parent = v`. -/
def Lk.Node.setParent : Lk.Node α → Option Nat → Lk.Node α
  | .null, _ => .null
  | .node a _ r c s lt rt, v => .node a v r c s lt rt

/-- The test `n == NULL`. -/
def Lk.Node.isNull : Lk.Node α → Bool
  | .null => true
  | .node _ _ _ _ _ _ _ => false

/-- The value of a pointer to the subtree: the address of its root node, `none` for `NULL`. -/
def Lk.Node.addr? : Lk.Node α → Option Nat
  | .null => none
  | .node a _ _ _ _ _ _ => some a

/-- The value of the pointer to the nearest ancestor (`curparent`, or `curnode->parent` read
through consistent links): `none` at the root. -/
def Lk.parentOf : List (Lk.Frame α) → Option Nat
  | [] => none
  | f :: _ => some f.addr

/-- `isRed` (lines 101-104). -/
def Lk.isRed : Lk.Node α → Bool
  | .null => false
  | .node _ _ r _ _ _ _ => r

/-- `isBlack` (lines 107-110). -/
def Lk.isBlack : Lk.Node α → Bool
  | .null => true
  | .node _ _ r _ _ _ _ => !r

/-- `TreeRotate` (lines 146-162), with its three assignments to `parent` fields: of
`other->child[direction]` if it is not `NULL` (line 152), of `other` (line 153, the value
read from `curnode->parent`) and of `curnode` (line 161).  The result is the pointer
`curnode` after the call; `none` when `curnode` or `other` is `NULL`. -/
def Lk.TreeRotate (curnode : Lk.Loc α) (direction : Bool) : Option (Lk.Loc α) :=
  match curnode.focus with
  | .null => none
  | .node a p r c s lt rt =>
    match (if direction then lt else rt) with
    | .null => none
    | .node a' _ r' c' s' lt' rt' =>
      let inner := (if direction then rt' else lt').setParent (some a)
      let outer := if direction then lt' else rt'
      some ⟨Lk.build a (some a') r c s direction (if direction then rt else lt) inner,
            ⟨direction, a', p, r', c', s', outer⟩ :: curnode.path⟩

/-- `TreeBAASub` (lines 165-187), called as `TreeBalanceAfterAdd` calls it. -/
def Lk.TreeBAASub (curnode : Lk.Loc α) (which : Bool) : Option (Lk.Loc α) :=
  match curnode.path with
  | p :: g :: rest =>
    if g.dir = which then none
    else
      match g.sib with
      | .node ua up true uc us ul ur =>
        some ⟨({ g with red := true, sib := .node ua up false uc us ul ur } : Lk.Frame α).plug
                (({ p with red := false } : Lk.Frame α).plug curnode.focus), rest⟩
      | _ =>
        (if p.dir = which then Lk.TreeRotate ⟨p.plug curnode.focus, g :: rest⟩ (!which)
         else some curnode).bind fun cur =>
        match cur.path with
        | p' :: g' :: rest' =>
          (Lk.TreeRotate ⟨({ g' with red := true } : Lk.Frame α).plug
                        (({ p' with red := false } : Lk.Frame α).plug cur.focus), rest'⟩
            which).bind fun gp =>
          gp.up.bind fun par => par.down (!which)
        | _ => none
  | _ => none

/-- The loop of `TreeBalanceAfterAdd` (lines 192-198), with a bound on the iterations. -/
def Lk.TreeBalanceAfterAdd.loop : Nat → Lk.Loc α → Option (Lk.Loc α)
  | fuel, curnode =>
    match curnode.path with
    | p :: g :: _ =>
      if p.red then
        match fuel with
        | 0 => none
        | fuel + 1 =>
          (if g.dir = false then Lk.TreeBAASub curnode true
           else Lk.TreeBAASub curnode false).bind (Lk.TreeBalanceAfterAdd.loop fuel)
      else some curnode
    | _ => some curnode

/-- `TreeBalanceAfterAdd` (lines 190-200): the loop, then `root->red = 0`.  The result is the
new root of the index. -/
def Lk.TreeBalanceAfterAdd (curnode : Lk.Loc α) : Option (Lk.Node α) :=
  (Lk.TreeBalanceAfterAdd.loop (curnode.path.length + 1) curnode).bind fun cur =>
    cur.root.setRed false

/-- The search loop of `TreeAddByIndex` (lines 218-229). -/
def Lk.TreeAddByIndex.search (compare : α → α → Int → Int) (content : α) :
    Lk.Node α → List (Lk.Frame α) → Lk.Loc α
  | .null, path => ⟨.null, path⟩
  | .node a p r c s lt rt, path =>
    if compare c content 1 = 0 then ⟨.node a p r c s lt rt, path⟩
    else if compare c content 1 > 0 then
      Lk.TreeAddByIndex.search compare content rt (⟨true, a, p, r, c, s, lt⟩ :: path)
    else Lk.TreeAddByIndex.search compare content lt (⟨false, a, p, r, c, s, rt⟩ :: path)

/-- `TreeAddByIndex` (lines 209-266) on the index with root `root` and comparator `compare`,
`malloc` returning the address `newel`: the record returned and the new root.  The new node
gets `newel->parent = curparent` (line 254).  The bookkeeping of `count` and `size`, which
touches no link, is left to the first embedding. -/
def Lk.TreeAddByIndex (compare : α → α → Int → Int) (allow_duplicates : Bool)
    (root : Lk.Node α) (content : α) (size : Int) (newel : Nat) :
    Outcome (Option α × Lk.Node α) :=
  match Lk.TreeAddByIndex.search compare content root [] with
  | ⟨.node a p r c _ lt rt, path⟩ =>
    if allow_duplicates then .exited (-99)
    else
      match Lk.TreeBalanceAfterAdd ⟨.node a p r content size lt rt, path⟩ with
      | none => .undefined
      | some root1 => .done (some c, root1)
  | ⟨.null, path⟩ =>
    match Lk.TreeBalanceAfterAdd
        ⟨.node newel (Lk.parentOf path) true content size .null .null, path⟩ with
    | none => .undefined
    | some root1 => .done (none, root1)

/-- The loop of `TreeMinimum` (lines 321-322). -/
def Lk.TreeMinimum.descend : Lk.Node α → List (Lk.Frame α) → Lk.Loc α
  | .node a p r c s (.node a' p' r' c' s' lt' rt') rt, path =>
    Lk.TreeMinimum.descend (.node a' p' r' c' s' lt' rt') (⟨false, a, p, r, c, s, rt⟩ :: path)
  | n, path => ⟨n, path⟩

/-- The loop of `TreeSuccessor` (lines 333-339). -/
def Lk.TreeSuccessor.climb : Lk.Node α → List (Lk.Frame α) → Option (Lk.Loc α)
  | _, [] => none
  | n, f :: fs => if f.dir then Lk.TreeSuccessor.climb (f.plug n) fs else some ⟨f.plug n, fs⟩

/-- `TreeSuccessor` (lines 327-342), for a pointer to a node of the index. -/
def Lk.TreeSuccessor (curnode : Lk.Loc α) : Option (Lk.Loc α) :=
  match curnode.focus with
  | .null => none
  | .node a p r c s lt .null => Lk.TreeSuccessor.climb (.node a p r c s lt .null) curnode.path
  | .node a p r c s lt (.node a' p' r' c' s' lt' rt') =>
    some (Lk.TreeMinimum.descend (.node a' p' r' c' s' lt' rt')
      (⟨true, a, p, r, c, s, lt⟩ :: curnode.path))

/-- Lines 372-393 of `TreeBARSub`: the cases on `sibling` once it is not red any more. -/
def Lk.TreeBARSub.cases (cur : Lk.Loc α) (which : Bool) : Option (Lk.Loc α) :=
  match cur.path with
  | [] => none
  | q :: rest =>
    match q.sib with
    | .null => some ⟨q.plug cur.focus, rest⟩
    | .node sa sp sr sc ss sl srt =>
      let near := if which then sl else srt
      let far := if which then srt else sl
      if Lk.isBlack near && Lk.isBlack far then
        some ⟨({ q with sib := .node sa sp true sc ss sl srt } : Lk.Frame α).plug cur.focus, rest⟩
      else
        let parentOf : Lk.Frame α := ⟨which, q.addr, q.parent, q.red, q.content, q.size, cur.focus⟩
        (if Lk.isBlack far then
           (near.setRed false).bind fun near1 =>
           (Lk.TreeRotate ⟨Lk.build sa sp true sc ss which far near1, parentOf :: rest⟩ which).bind
             fun (old : Lk.Loc α) => old.up
         else some ⟨.node sa sp sr sc ss sl srt, parentOf :: rest⟩).bind
          fun (sibling : Lk.Loc α) =>
        match sibling.focus, sibling.path with
        | .node a p _ c s lt rt, par :: rest1 =>
          ((if which then rt else lt).setRed false).bind fun far1 =>
          (Lk.TreeRotate ⟨({ par with red := false } : Lk.Frame α).plug
              (Lk.build a p par.red c s which far1 (if which then lt else rt)), rest1⟩
            (!which)).map fun (l : Lk.Loc α) => (⟨l.root, []⟩ : Lk.Loc α)
        | _, _ => none

/-- `TreeBARSub` (lines 361-395), called as `TreeBalanceAfterRemove` calls it. -/
def Lk.TreeBARSub (curnode : Lk.Loc α) (which : Bool) : Option (Lk.Loc α) :=
  match curnode.path with
  | [] => none
  | p :: rest =>
    if which = p.dir then
      match curnode.focus with
      | .null => some ⟨p.plug .null, rest⟩
      | .node _ _ _ _ _ _ _ => none
    else
      (match p.sib with
       | .node sa sp true sc ss sl sr =>
         (Lk.TreeRotate ⟨({ p with red := true, sib := .node sa sp false sc ss sl sr } :
             Lk.Frame α).plug curnode.focus, rest⟩ (!which)).bind fun (par : Lk.Loc α) =>
           par.down (!which)
       | _ => some curnode).bind fun (cur : Lk.Loc α) => Lk.TreeBARSub.cases cur which

/-- The loop of `TreeBalanceAfterRemove` (lines 400-407), with a bound on the iterations.  The
unlinked node `temp` is a location with an empty focus: its `parent` field is the step up the
path, and no field of the index holds its address. -/
def Lk.TreeBalanceAfterRemove.loop : Nat → Lk.Loc α → Option (Lk.Loc α)
  | fuel, curnode =>
    match curnode.path with
    | [] => some curnode
    | p :: _ =>
      if Lk.isBlack curnode.focus then
        match fuel with
        | 0 => none
        | fuel + 1 =>
          let isLeft : Bool :=
            match curnode.focus with
            | .null => !p.dir || p.sib.isNull
            | .node _ _ _ _ _ _ _ => !p.dir
          (if isLeft then Lk.TreeBARSub curnode true
           else Lk.TreeBARSub curnode false).bind (Lk.TreeBalanceAfterRemove.loop fuel)
      else some curnode

/-- `TreeBalanceAfterRemove` (lines 398-409): the loop, then `curnode->red = 0`.  The result
is the new root of the index. -/
def Lk.TreeBalanceAfterRemove (curnode : Lk.Loc α) : Option (Lk.Node α) :=
  (Lk.TreeBalanceAfterRemove.loop (curnode.path.length + 1) curnode).map fun cur =>
    match cur.focus with
    | .null => cur.root
    | .node a p _ c s lt rt => Lk.zip (.node a p false c s lt rt) cur.path

/-- The assignment of `content` and `size` to the ancestor `k` levels above the parent. -/
def Lk.setAncestor (content : α) (size : Int) : Nat → List (Lk.Frame α) → List (Lk.Frame α)
  | _, [] => []
  | 0, f :: fs => { f with content := content, size := size } :: fs
  | k + 1, f :: fs => f :: Lk.setAncestor content size k fs

/-- Lines 419-426 of `TreeRemoveNodeIndex`: the node `redundant` to unlink. -/
def Lk.TreeRemoveNodeIndex.redundant (curnode : Lk.Loc α) : Option (Lk.Loc α) :=
  match curnode.focus with
  | .node _ _ _ _ _ (.node _ _ _ _ _ _ _) (.node _ _ _ _ _ _ _) => Lk.TreeSuccessor curnode
  | _ => some curnode

/-- Lines 428-463 of `TreeRemoveNodeIndex`: `redundant` is replaced by its child `curchild`,
which gets `curchild->parent = redundant->parent` if it is not `NULL` (lines 429-430); the
record of `redundant` moves into `curnode`, and the tree is rebalanced if `redundant` was
black.  The result is the new root of the index. -/
def Lk.TreeRemoveNodeIndex.splice (curnode redundant : Lk.Loc α) : Option (Lk.Node α) :=
  match redundant.focus with
  | .null => none
  | .node ra rp rr rc rs rlt rrt =>
    let curchild := (match rlt with
      | .null => rrt
      | .node _ _ _ _ _ _ _ => rlt).setParent rp
    let path :=
      if redundant.path.length = curnode.path.length then redundant.path
      else Lk.setAncestor rc rs (redundant.path.length - curnode.path.length - 1) redundant.path
    if Lk.isBlack (.node ra rp rr rc rs rlt rrt) then
      match curchild, path with
      | .null, [] => some .null
      | .null, f :: fs => Lk.TreeBalanceAfterRemove ⟨.null, f :: fs⟩
      | .node ca cp cr cc cs cl crt, _ =>
        Lk.TreeBalanceAfterRemove ⟨.node ca cp cr cc cs cl crt, path⟩
    else some (Lk.zip curchild path)

/-- `TreeRemoveNodeIndex` (lines 417-476) on the links of the index, for a pointer `curnode`
to a node of it: the record returned, the address of the node `redundant` that is freed, and
the new root.  The bookkeeping of `count` and `size` is left to the first embedding. -/
def Lk.TreeRemoveNodeIndex (curnode : Lk.Loc α) : Option (α × Nat × Lk.Node α) :=
  match curnode.focus with
  | .null => none
  | .node _ _ _ c _ _ _ =>
    (Lk.TreeRemoveNodeIndex.redundant curnode).bind fun (redundant : Lk.Loc α) =>
      match redundant.focus with
      | .null => none
      | .node ra _ _ _ _ _ _ =>
        (Lk.TreeRemoveNodeIndex.splice curnode redundant).map fun root => (c, ra, root)

/-! ## Consistency of the parent links -/

/-- The `parent` field of the root of the subtree, if there is one, holds `par`. -/
def Lk.Node.parentIs : Lk.Node α → Option Nat → Prop
  | .null, _ => True
  | .node _ p _ _ _ _ _, par => p = par

/-- Every child `c` of every node `p` of the subtree, if not `NULL`, has
`c->parent == p`. -/
def Lk.Below : Lk.Node α → Prop
  | .null => True
  | .node a _ _ _ _ lt rt =>
    lt.parentIs (some a) ∧ rt.parentIs (some a) ∧ Lk.Below lt ∧ Lk.Below rt

/-- The parent links of an index are consistent: the root has a `NULL` parent and every child
`c` of every node `p`, if not `NULL`, has `c->parent == p`. -/
def Lk.WellLinked (root : Lk.Node α) : Prop :=
  root.parentIs none ∧ Lk.Below root

/-- The addresses of the nodes of a subtree, in in-order. -/
def Lk.addrs : Lk.Node α → List Nat
  | .null => []
  | .node a _ _ _ _ lt rt => Lk.addrs lt ++ a :: Lk.addrs rt

/-- The addresses that the nodes of a subtree hold in their `parent` and `child` fields. -/
def Lk.refs : Lk.Node α → List Nat
  | .null => []
  | .node _ p _ _ _ lt rt =>
    p.toList ++ lt.addr?.toList ++ rt.addr?.toList ++ Lk.refs lt ++ Lk.refs rt

/-- The links along a path are consistent: every ancestor's `parent` field holds the address of
the ancestor above it (`NULL` for the root), and the links of its other child are
consistent. -/
def Lk.CtxLinked : List (Lk.Frame α) → Prop
  | [] => True
  | f :: fs =>
    f.parent = Lk.parentOf fs ∧ f.sib.parentIs (some f.addr) ∧ Lk.Below f.sib ∧
      Lk.CtxLinked fs

/-- The addresses that come before the subtree of a location in the in-order sequence of
addresses of its tree. -/
def Lk.before : List (Lk.Frame α) → List Nat
  | [] => []
  | f :: fs => Lk.before fs ++ (if f.dir then Lk.addrs f.sib ++ [f.addr] else [])

/-- The addresses that come after the subtree of a location in the in-order sequence of
addresses of its tree. -/
def Lk.after : List (Lk.Frame α) → List Nat
  | [] => []
  | f :: fs => (if f.dir then [] else f.addr :: Lk.addrs f.sib) ++ Lk.after fs

/-- A tree of three nodes at the addresses 10, 20 and 30, with consistent links. -/
def Lk.three : Lk.Node IntRec :=
  .node 20 none false (rec 2) 4 (.node 10 (some 20) true (rec 1) 4 .null .null)
    (.node 30 (some 20) true (rec 3) 4 .null .null)

/-! # Theorems -/

/-! ## Unfolding lemmas -/

@[simp] theorem isRed_null : isRed (Node.null : Node α) = false := rfl

@[simp] theorem isRed_node (r : Bool) (c : α) (s : Int) (lt rt : Node α) :
    isRed (.node r c s lt rt) = r := rfl

@[simp] theorem isBlack_null : isBlack (Node.null : Node α) = true := rfl

@[simp] theorem isBlack_node (r : Bool) (c : α) (s : Int) (lt rt : Node α) :
    isBlack (.node r c s lt rt) = !r := rfl

theorem isBlack_eq_not_isRed (n : Node α) : isBlack n = !isRed n := by
  cases n <;> rfl

@[simp] theorem isNull_null : (Node.null : Node α).isNull = true := rfl

@[simp] theorem isNull_node (r : Bool) (c : α) (s : Int) (lt rt : Node α) :
    (Node.node r c s lt rt).isNull = false := rfl

@[simp] theorem setRed_null (v : Bool) : (Node.null : Node α).setRed v = none := rfl

@[simp] theorem setRed_node (r v : Bool) (c : α) (s : Int) (lt rt : Node α) :
    (Node.node r c s lt rt).setRed v = some (.node v c s lt rt) := rfl

@[simp] theorem build_false (r : Bool) (c : α) (s : Int) (x y : Node α) :
    build r c s false x y = .node r c s x y := rfl

@[simp] theorem build_true (r : Bool) (c : α) (s : Int) (x y : Node α) :
    build r c s true x y = .node r c s y x := rfl

@[simp] theorem plug_false (r : Bool) (c : α) (s : Int) (sib n : Node α) :
    (Frame.mk false r c s sib).plug n = .node r c s n sib := rfl

@[simp] theorem plug_true (r : Bool) (c : α) (s : Int) (sib n : Node α) :
    (Frame.mk true r c s sib).plug n = .node r c s sib n := rfl

@[simp] theorem zip_nil (n : Node α) : zip n [] = n := rfl

@[simp] theorem zip_cons (n : Node α) (f : Frame α) (fs : List (Frame α)) :
    zip n (f :: fs) = zip (f.plug n) fs := rfl

@[simp] theorem root_mk (n : Node α) (path : List (Frame α)) :
    (Loc.mk n path).root = zip n path := rfl

@[simp] theorem up_nil (n : Node α) : (Loc.mk n []).up = none := rfl

@[simp] theorem up_cons (n : Node α) (f : Frame α) (fs : List (Frame α)) :
    (Loc.mk n (f :: fs)).up = some ⟨f.plug n, fs⟩ := rfl

@[simp] theorem down_null (path : List (Frame α)) (d : Bool) :
    (Loc.mk Node.null path).down d = none := rfl

@[simp] theorem down_false (r : Bool) (c : α) (s : Int) (lt rt : Node α)
    (path : List (Frame α)) :
    (Loc.mk (.node r c s lt rt) path).down false = some ⟨lt, ⟨false, r, c, s, rt⟩ :: path⟩ := rfl

@[simp] theorem down_true (r : Bool) (c : α) (s : Int) (lt rt : Node α)
    (path : List (Frame α)) :
    (Loc.mk (.node r c s lt rt) path).down true = some ⟨rt, ⟨true, r, c, s, lt⟩ :: path⟩ := rfl

@[simp] theorem bheight_null : bheight (Node.null : Node α) = 0 := rfl

@[simp] theorem bheight_node (r : Bool) (c : α) (s : Int) (lt rt : Node α) :
    bheight (.node r c s lt rt) = bheight lt + if r then 0 else 1 := rfl

@[simp] theorem balanced_null : Balanced (Node.null : Node α) := trivial

@[simp] theorem balanced_node (r : Bool) (c : α) (s : Int) (lt rt : Node α) :
    Balanced (.node r c s lt rt) ↔ bheight lt = bheight rt ∧ Balanced lt ∧ Balanced rt :=
  Iff.rfl

@[simp] theorem noRedRed_null : NoRedRed (Node.null : Node α) := trivial

@[simp] theorem noRedRed_node (r : Bool) (c : α) (s : Int) (lt rt : Node α) :
    NoRedRed (.node r c s lt rt) ↔
      (r = true → isRed lt = false ∧ isRed rt = false) ∧ NoRedRed lt ∧ NoRedRed rt :=
  Iff.rfl

@[simp] theorem ctxOK_nil (h : Nat) : CtxOK ([] : List (Frame α)) h := trivial

@[simp] theorem ctxOK_cons (f : Frame α) (fs : List (Frame α)) (h : Nat) :
    CtxOK (f :: fs) h ↔
      bheight f.sib = h ∧ Balanced f.sib ∧ NoRedRed f.sib ∧
      (f.red = true → isRed f.sib = false ∧ ∃ g rest, fs = g :: rest ∧ g.red = false) ∧
      CtxOK fs (h + if f.red then 0 else 1) :=
  Iff.rfl

@[simp] theorem rotate_null (path : List (Frame α)) (d : Bool) :
    TreeRotate (Loc.mk Node.null path) d = none := rfl

@[simp] theorem rotate_left (r r' : Bool) (c c' : α) (s s' : Int) (lt lt' rt' : Node α)
    (path : List (Frame α)) :
    TreeRotate ⟨.node r c s lt (.node r' c' s' lt' rt'), path⟩ false =
      some ⟨.node r c s lt lt', ⟨false, r', c', s', rt'⟩ :: path⟩ := rfl

@[simp] theorem rotate_right (r r' : Bool) (c c' : α) (s s' : Int) (rt lt' rt' : Node α)
    (path : List (Frame α)) :
    TreeRotate ⟨.node r c s (.node r' c' s' lt' rt') rt, path⟩ true =
      some ⟨.node r c s rt' rt, ⟨true, r', c', s', lt'⟩ :: path⟩ := rfl

@[simp] theorem rotate_left_null (r : Bool) (c : α) (s : Int) (lt : Node α)
    (path : List (Frame α)) :
    TreeRotate ⟨.node r c s lt .null, path⟩ false = none := rfl

@[simp] theorem rotate_right_null (r : Bool) (c : α) (s : Int) (rt : Node α)
    (path : List (Frame α)) :
    TreeRotate ⟨.node r c s .null rt, path⟩ true = none := rfl

/-! ## Black counts -/

theorem bheight_mem_blackCounts (n : Node α) : bheight n ∈ blackCounts n := by
  induction n with
  | null => simp [blackCounts]
  | node r c s lt rt ihl _ =>
    simp only [blackCounts, bheight_node, List.mem_map, List.mem_append]
    exact ⟨bheight lt, Or.inl ihl, by cases r <;> simp⟩

theorem blackCounts_of_balanced (n : Node α) (h : Balanced n) :
    ∀ a ∈ blackCounts n, a = bheight n := by
  induction n with
  | null => simp [blackCounts]
  | node r c s lt rt ihl ihr =>
    obtain ⟨hb, hl, hr⟩ := h
    intro a ha
    simp only [blackCounts, List.mem_map, List.mem_append] at ha
    obtain ⟨k, hk, rfl⟩ := ha
    have hk' : k = bheight lt := by
      rcases hk with hk | hk
      · exact ihl hl k hk
      · rw [hb]; exact ihr hr k hk
    subst hk'
    cases r <;> simp

theorem balanced_of_equalBlackCount (n : Node α) (h : EqualBlackCount n) : Balanced n := by
  induction n with
  | null => trivial
  | node r c s lt rt ihl ihr =>
    have key : ∀ a ∈ blackCounts lt ++ blackCounts rt, ∀ b ∈ blackCounts lt ++ blackCounts rt,
        a = b := by
      intro a ha b hb
      have h1 := h (if r then a else a + 1)
        (by simp only [blackCounts, List.mem_map]; exact ⟨a, ha, rfl⟩)
        (if r then b else b + 1)
        (by simp only [blackCounts, List.mem_map]; exact ⟨b, hb, rfl⟩)
      cases r <;> simp at h1 <;> exact h1
    refine ⟨?_, ihl ?_, ihr ?_⟩
    · exact key _ (List.mem_append.2 (Or.inl (bheight_mem_blackCounts lt)))
        _ (List.mem_append.2 (Or.inr (bheight_mem_blackCounts rt)))
    · intro a ha b hb
      exact key a (List.mem_append.2 (Or.inl ha)) b (List.mem_append.2 (Or.inl hb))
    · intro a ha b hb
      exact key a (List.mem_append.2 (Or.inr ha)) b (List.mem_append.2 (Or.inr hb))

theorem equalBlackCount_iff_balanced (n : Node α) : EqualBlackCount n ↔ Balanced n := by
  constructor
  · exact balanced_of_equalBlackCount n
  · intro h a ha b hb
    rw [blackCounts_of_balanced n h a ha, blackCounts_of_balanced n h b hb]

/-! ## Closing a path -/

theorem zip_append (n : Node α) (p q : List (Frame α)) : zip n (p ++ q) = zip (zip n p) q := by
  induction p generalizing n with
  | nil => rfl
  | cons f fs ih => exact ih (f.plug n)

theorem isRed_plug (f : Frame α) (n : Node α) : isRed (f.plug n) = f.red := by
  obtain ⟨d, r, c, s, sib⟩ := f
  cases d <;> rfl

theorem zip_isNull (n : Node α) (path : List (Frame α)) (h : n.isNull = false) :
    (zip n path).isNull = false := by
  induction path generalizing n with
  | nil => exact h
  | cons f fs ih =>
    apply ih
    obtain ⟨d, r, c, s, sib⟩ := f
    cases d <;> rfl

theorem zip_cons_isNull (n : Node α) (f : Frame α) (path : List (Frame α)) :
    (zip n (f :: path)).isNull = false := by
  show (zip (f.plug n) path).isNull = false
  apply zip_isNull
  obtain ⟨d, r, c, s, sib⟩ := f
  cases d <;> rfl

theorem bheight_plug (f : Frame α) (n : Node α) (h : bheight f.sib = bheight n) :
    bheight (f.plug n) = bheight n + if f.red then 0 else 1 := by
  obtain ⟨d, r, c, s, sib⟩ := f
  cases d <;> simp_all

/-- Closing a fit path over a balanced subtree without red-red pairs, whose red root (if any)
has a black parent, gives a tree with a black root, balanced and without red-red pairs. -/
theorem zip_ok (path : List (Frame α)) : ∀ (n : Node α), CtxOK path (bheight n) → Balanced n →
    NoRedRed n → (isRed n = true → ∃ g rest, path = g :: rest ∧ g.red = false) →
    isRed (zip n path) = false ∧ NoRedRed (zip n path) ∧ Balanced (zip n path) := by
  induction path with
  | nil =>
    intro n _ hb hn hr
    refine ⟨?_, hn, hb⟩
    show isRed n = false
    cases hred : isRed n
    · rfl
    · obtain ⟨g, rest, h, _⟩ := hr hred
      cases h
  | cons f fs ih =>
    intro n hc hb hn hr
    obtain ⟨h1, h2, h3, h4, h5⟩ := hc
    have hnred : f.red = true → isRed n = false := by
      intro hf
      cases hred : isRed n
      · rfl
      · obtain ⟨g, rest, h, hg⟩ := hr hred
        cases h
        rw [hf] at hg
        cases hg
    apply ih (f.plug n)
    · rw [bheight_plug f n h1]; exact h5
    · obtain ⟨d, r, c, s, sib⟩ := f
      cases d <;> simp_all
    · obtain ⟨d, r, c, s, sib⟩ := f
      cases d <;> simp_all
    · rw [isRed_plug]
      intro hf
      exact (h4 hf).2

/-- Blackening the root of a non-empty tree whose subtrees are in order gives a red-black
tree. -/
theorem redBlack_setRed (n : Node α) (hnull : n.isNull = false) (hb : Balanced n)
    (hn : NoRedRed n ∨ ∃ c s lt rt, n = .node true c s lt rt ∧ NoRedRed lt ∧ NoRedRed rt) :
    ∃ root, n.setRed false = some root ∧ RedBlack root := by
  cases n with
  | null => cases hnull
  | node r c s lt rt =>
    refine ⟨_, rfl, rfl, ?_, (equalBlackCount_iff_balanced _).2 hb⟩
    rcases hn with hn | ⟨c', s', lt', rt', h, hl, hr⟩
    · exact ⟨by simp, hn.2.1, hn.2.2⟩
    · cases h
      exact ⟨by simp, hl, hr⟩

/-! ## The fix-up after an insertion keeps the red-black invariants -/

/-- What the loop of `TreeBalanceAfterAdd` maintains at `curnode`: a red node over a subtree in
order, on a path fit for its black height. -/
theorem TreeBAASub_inv (cur : Loc α) (p g : Frame α) (rest : List (Frame α))
    (hpath : cur.path = p :: g :: rest) (hp : p.red = true)
    (hred : isRed cur.focus = true) (hn : NoRedRed cur.focus) (hb : Balanced cur.focus)
    (hc : CtxOK cur.path (bheight cur.focus)) :
    ∃ cur', TreeBAASub cur (!g.dir) = some cur' ∧ cur'.path.length < cur.path.length ∧
      isRed cur'.focus = true ∧ NoRedRed cur'.focus ∧ Balanced cur'.focus ∧
      CtxOK cur'.path (bheight cur'.focus) := by
  obtain ⟨focus, path⟩ := cur
  obtain ⟨pd, pr, pc, ps, psib⟩ := p
  obtain ⟨gd, gr, gc, gs, gsib⟩ := g
  simp only at hpath hp
  subst hpath hp
  cases focus with
  | null => cases hred
  | node r c s lt rt =>
    simp only [isRed_node] at hred
    subst hred
    simp only [ctxOK_cons, true_implies] at hc
    obtain ⟨h1, h2, h3, ⟨h4, g', rest', hg', hgr⟩, h5, h6, h7, h8, h9⟩ := hc
    cases hg'
    simp only at hgr
    subst hgr
    simp only [noRedRed_node, true_implies] at hn
    obtain ⟨⟨hn1, hn2⟩, hn3, hn4⟩ := hn
    simp only [balanced_node] at hb
    obtain ⟨hb1, hb2, hb3⟩ := hb
    simp only [bheight_node, Bool.false_eq_true, ↓reduceIte, Nat.add_zero] at h1 h5 h9
    match gsib with
    | .node true uc us ul ur =>
      simp only [bheight_node, balanced_node, noRedRed_node, ↓reduceIte, Nat.add_zero,
        true_implies] at h5 h6 h7
      obtain ⟨h61, h62, h63⟩ := h6
      obtain ⟨⟨h71, h72⟩, h73, h74⟩ := h7
      cases gd <;> cases pd <;> simp [TreeBAASub] <;> and_intros <;>
        first
        | assumption
        | omega
        | (convert h9 using 1; omega)
    | .node false uc us ul ur =>
      simp only [bheight_node, balanced_node, noRedRed_node, Bool.false_eq_true, ↓reduceIte,
        false_implies, true_and] at h5 h6 h7
      obtain ⟨h61, h62, h63⟩ := h6
      obtain ⟨h73, h74⟩ := h7
      cases gd <;> cases pd <;> simp [TreeBAASub] <;> and_intros <;>
        first
        | assumption
        | omega
        | (convert h9 using 1; omega)
    | .null =>
      simp only [bheight_null] at h5
      cases gd <;> cases pd <;> simp [TreeBAASub] <;> and_intros <;>
        first
        | assumption
        | omega
        | (convert h9 using 1; omega)

/-- When the loop of `TreeBalanceAfterAdd` stops at a red `curnode` whose parent is black (or
which is the root), blackening the root leaves a red-black tree. -/
theorem add_exit_ok (cur : Loc α) (hstop : ∀ p rest, cur.path = p :: rest → p.red = false)
    (hred : isRed cur.focus = true) (hn : NoRedRed cur.focus) (hb : Balanced cur.focus)
    (hc : CtxOK cur.path (bheight cur.focus)) :
    ∃ root, cur.root.setRed false = some root ∧ RedBlack root := by
  obtain ⟨focus, path⟩ := cur
  cases path with
  | nil =>
    cases focus with
    | null => cases hred
    | node r c s lt rt =>
      simp only [isRed_node] at hred
      subst hred
      apply redBlack_setRed (.node true c s lt rt) rfl hb
      exact Or.inr ⟨c, s, lt, rt, rfl, hn.2.1, hn.2.2⟩
  | cons p rest =>
    have hp := hstop p rest rfl
    obtain ⟨h1, h2, h3⟩ := zip_ok (p :: rest) focus hc hb hn (fun _ => ⟨p, rest, rfl, hp⟩)
    exact redBlack_setRed _ (zip_cons_isNull focus p rest) h3 (Or.inl h2)

theorem TreeBalanceAfterAdd_loop_inv : ∀ (fuel : Nat) (cur : Loc α), cur.path.length < fuel →
    isRed cur.focus = true → NoRedRed cur.focus → Balanced cur.focus →
    CtxOK cur.path (bheight cur.focus) →
    ∃ cur', TreeBalanceAfterAdd.loop fuel cur = some cur' ∧
      ∃ root, cur'.root.setRed false = some root ∧ RedBlack root := by
  intro fuel
  induction fuel with
  | zero => intro cur h; omega
  | succ fuel ih =>
    intro cur hlen hred hn hb hc
    unfold TreeBalanceAfterAdd.loop
    match hpath : cur.path with
    | [] =>
      refine ⟨cur, rfl, add_exit_ok cur ?_ hred hn hb hc⟩
      intro p rest h; rw [hpath] at h; cases h
    | [p] =>
      refine ⟨cur, rfl, add_exit_ok cur ?_ hred hn hb hc⟩
      intro p' rest h
      rw [hpath] at h; cases h
      rw [hpath] at hc
      have := hc.2.2.2.1
      cases hp : p.red
      · rfl
      · obtain ⟨_, g, rest, h, _⟩ := this hp
        cases h
    | p :: g :: rest =>
      cases hp : p.red
      · simp only [hp, Bool.false_eq_true, ↓reduceIte]
        refine ⟨cur, rfl, add_exit_ok cur ?_ hred hn hb hc⟩
        intro p' rest h
        rw [hpath] at h; cases h
        exact hp
      · simp only [hp, ↓reduceIte]
        obtain ⟨cur', h1, h2, h3, h4, h5, h6⟩ := TreeBAASub_inv cur p g rest hpath hp hred hn hb hc
        have hsub : (if g.dir = false then TreeBAASub cur true else TreeBAASub cur false) =
            some cur' := by
          rw [← h1]
          cases g.dir <;> rfl
        rw [hsub]
        exact ih cur' (by omega) h3 h4 h5 h6

/-- The fix-up after linking a red node over a subtree in order, on a fit path, returns and
leaves a red-black tree. -/
theorem TreeBalanceAfterAdd_inv (cur : Loc α) (hred : isRed cur.focus = true)
    (hn : NoRedRed cur.focus) (hb : Balanced cur.focus)
    (hc : CtxOK cur.path (bheight cur.focus)) :
    ∃ root, TreeBalanceAfterAdd cur = some root ∧ RedBlack root := by
  obtain ⟨cur', h1, root, h2, h3⟩ :=
    TreeBalanceAfterAdd_loop_inv (cur.path.length + 1) cur (by omega) hred hn hb hc
  exact ⟨root, by simp [TreeBalanceAfterAdd, h1, h2], h3⟩

/-! ## The search of `TreeAddByIndex` -/

/-- Going down from a location in a red-black tree keeps the path fit. -/
theorem search_inv (compare : α → α → Int → Int) (content : α) :
    ∀ (n : Node α) (path : List (Frame α)), CtxOK path (bheight n) → Balanced n → NoRedRed n →
      (isRed n = true → ∃ g rest, path = g :: rest ∧ g.red = false) →
      CtxOK (TreeAddByIndex.search compare content n path).path
        (bheight (TreeAddByIndex.search compare content n path).focus) ∧
      Balanced (TreeAddByIndex.search compare content n path).focus ∧
      NoRedRed (TreeAddByIndex.search compare content n path).focus ∧
      zip (TreeAddByIndex.search compare content n path).focus
        (TreeAddByIndex.search compare content n path).path = zip n path := by
  intro n
  induction n with
  | null => intro path hc hb hn _; exact ⟨hc, hb, hn, rfl⟩
  | node r c s lt rt ihl ihr =>
    intro path hc hb hn hr
    simp only [TreeAddByIndex.search]
    simp only [balanced_node] at hb
    simp only [noRedRed_node] at hn
    simp only [bheight_node] at hc
    simp only [isRed_node] at hr
    split
    · exact ⟨hc, by simpa using hb, by simpa using hn, rfl⟩
    · split
      · have := ihr (⟨true, r, c, s, lt⟩ :: path) (by
          simp only [ctxOK_cons]
          refine ⟨hb.1, hb.2.1, hn.2.1, ?_, ?_⟩
          · intro h; exact ⟨(hn.1 h).1, hr h⟩
          · rw [← hb.1]; exact hc) hb.2.2 hn.2.2 (by
          intro h
          refine ⟨_, _, rfl, ?_⟩
          cases r
          · rfl
          · rw [(hn.1 rfl).2] at h; cases h)
        simpa using this
      · have := ihl (⟨false, r, c, s, rt⟩ :: path) (by
          simp only [ctxOK_cons]
          refine ⟨hb.1.symm, hb.2.2, hn.2.2, ?_, hc⟩
          intro h; exact ⟨(hn.1 h).2, hr h⟩) hb.2.1 hn.2.1 (by
          intro h
          refine ⟨_, _, rfl, ?_⟩
          cases r
          · rfl
          · rw [(hn.1 rfl).1] at h; cases h)
        simpa using this

theorem search_fresh (compare : α → α → Int → Int) (content : α) :
    ∀ (n : Node α) (path : List (Frame α)), FreshOnPath compare content n →
      (TreeAddByIndex.search compare content n path).focus = .null := by
  intro n
  induction n with
  | null => intro path _; rfl
  | node r c s lt rt ihl ihr =>
    intro path h
    obtain ⟨h1, h2⟩ := h
    simp only [TreeAddByIndex.search, h1, ↓reduceIte]
    split
    · rename_i h3; rw [if_pos h3] at h2; exact ihr _ h2
    · rename_i h3; rw [if_neg h3] at h2; exact ihl _ h2

/-! ## Writing a root into an index -/

theorem setRootAt_getElem? (root : Node α) : ∀ (i : Nat) (l : List (Index α)) (ix : Index α),
    l[i]? = some ix → (setRootAt root i l)[i]? = some { ix with root := root } := by
  intro i
  induction i with
  | zero =>
    intro l ix h
    cases l with
    | nil => cases h
    | cons a l => simp at h; subst h; simp [setRootAt]
  | succ i ih =>
    intro l ix h
    cases l with
    | nil => cases h
    | cons a l => simp at h; simpa [setRootAt] using ih l ix h

theorem setRootAt_getElem?_ne (root : Node α) : ∀ (i j : Nat) (l : List (Index α)),
    i ≠ j → (setRootAt root i l)[j]? = l[j]? := by
  intro i
  induction i with
  | zero =>
    intro j l h
    cases l with
    | nil => rfl
    | cons a l =>
      cases j with
      | zero => exact absurd rfl h
      | succ j => rfl
  | succ i ih =>
    intro j l h
    cases l with
    | nil => rfl
    | cons a l =>
      cases j with
      | zero => simp [setRootAt]
      | succ j => simpa [setRootAt] using ih j l (by omega)

theorem setRootAt_length (root : Node α) : ∀ (i : Nat) (l : List (Index α)),
    (setRootAt root i l).length = l.length := by
  intro i
  induction i with
  | zero => intro l; cases l <;> rfl
  | succ i ih => intro l; cases l <;> simp [setRootAt, ih]

/-! ## C1 -/

/-- C1.  Fresh insertion keeps the tree balanced: when `index[index]` satisfies the three
red-black invariants and the record compares non-zero with every node on its search path,
`TreeAddByIndex` returns (with `NULL`, nothing being replaced) and leaves `index[index]`
satisfying the three invariants: root black, no red node with a red child, the same number of
black nodes on every path from the root to an empty leaf. -/
theorem C1_fresh_insertion_keeps_red_black (aTree : Tree α) (content : α) (size : Int)
    (index : Nat) (ix : Index α) (hix : aTree.index[index]? = some ix)
    (hrb : RedBlack ix.root) (hfresh : FreshOnPath ix.compare content ix.root) :
    ∃ aTree1 ix1, TreeAddByIndex aTree content size index = .done (none, aTree1) ∧
      aTree1.index[index]? = some ix1 ∧ ix1.compare = ix.compare ∧ RedBlack ix1.root := by
  have hb : Balanced ix.root := (equalBlackCount_iff_balanced _).1 hrb.equalBlackCount
  have hs := search_inv ix.compare content ix.root [] trivial hb hrb.noRedRed
    (fun h => by rw [hrb.rootBlack] at h; cases h)
  have hf := search_fresh ix.compare content ix.root [] hfresh
  generalize hloc : TreeAddByIndex.search ix.compare content ix.root [] = loc at hs hf
  obtain ⟨focus, path⟩ := loc
  simp only at hf
  subst hf
  obtain ⟨root, h1, h2⟩ := TreeBalanceAfterAdd_inv ⟨.node true content size .null .null, path⟩
    rfl (by simp) (by simp) (by simpa using hs.1)
  refine ⟨(if index = 0 then { aTree with count := aTree.count + 1, size := aTree.size + size }
      else aTree).setRoot index root, { ix with root := root }, ?_,
    setRootAt_getElem? root index _ ix ?_, rfl, h2⟩
  · simp only [TreeAddByIndex, hix, hloc, h1]
  · split <;> exact hix

theorem C1_fresh_insertion_keeps_red_black_witness :
    RedBlack (Node.node false (⟨1, 10⟩ : IntRec) 4 .null .null) ∧
    FreshOnPath TreeIntCompare (⟨2, 20⟩ : IntRec) (Node.node false (⟨1, 10⟩ : IntRec) 4 .null .null) ∧
    ∃ aTree1 ix1,
      TreeAddByIndex (⟨[⟨.node false ⟨1, 10⟩ 4 .null .null, TreeIntCompare⟩], 1, 4, true, false⟩ :
        Tree IntRec) ⟨2, 20⟩ 4 0 = .done (none, aTree1) ∧
      aTree1.index[0]? = some ix1 ∧ ix1.compare = TreeIntCompare ∧ RedBlack ix1.root :=
  ⟨⟨rfl, by simp, by simp [EqualBlackCount, blackCounts]⟩, by simp [FreshOnPath, TreeIntCompare],
   C1_fresh_insertion_keeps_red_black
     ⟨[⟨.node false ⟨1, 10⟩ 4 .null .null, TreeIntCompare⟩], 1, 4, true, false⟩ ⟨2, 20⟩ 4 0
     ⟨.node false ⟨1, 10⟩ 4 .null .null, TreeIntCompare⟩ (by rfl) ⟨rfl, by simp, by simp [EqualBlackCount, blackCounts]⟩
     (by simp [FreshOnPath, TreeIntCompare])⟩

/-! ## The fix-up after a removal keeps the red-black invariants -/

@[simp] theorem blacken_null : blacken (Node.null : Node α) = .null := rfl

@[simp] theorem blacken_node (r : Bool) (c : α) (s : Int) (lt rt : Node α) :
    blacken (.node r c s lt rt) = .node false c s lt rt := rfl

theorem noRedRed_blacken (n : Node α) (h : NoRedRed n) : NoRedRed (blacken n) := by
  cases n with
  | null => trivial
  | node r c s lt rt => exact ⟨by simp, h.2.1, h.2.2⟩

theorem balanced_blacken (n : Node α) (h : Balanced n) : Balanced (blacken n) := by
  cases n with
  | null => trivial
  | node r c s lt rt => exact h

theorem isRed_blacken (n : Node α) : isRed (blacken n) = false := by
  cases n <;> rfl

theorem TreeBARSub_black (focus : Node α) (q : Frame α) (rest : List (Frame α))
    (hs : isRed q.sib = false) :
    TreeBARSub ⟨focus, q :: rest⟩ (!q.dir) = TreeBARSub.cases ⟨focus, q :: rest⟩ (!q.dir) := by
  obtain ⟨d, r, c, s, sib⟩ := q
  cases sib with
  | null => cases d <;> simp [TreeBARSub]
  | node sr sc ss sl srt =>
    simp only [isRed_node] at hs
    subst hs
    cases d <;> simp [TreeBARSub]

theorem TreeBARSub_red (focus : Node α) (d r : Bool) (c : α) (s : Int) (sc : α) (ss : Int)
    (sl srt : Node α) (rest : List (Frame α)) :
    TreeBARSub ⟨focus, ⟨d, r, c, s, .node true sc ss sl srt⟩ :: rest⟩ (!d) =
      TreeBARSub.cases ⟨focus, ⟨d, true, c, s, if d then srt else sl⟩ ::
        ⟨d, false, sc, ss, if d then sl else srt⟩ :: rest⟩ (!d) := by
  cases d <;> simp [TreeBARSub]

/-- The cases of `TreeBARSub` on a black sibling, in a red-black tree: either `curnode` moves
to its parent, whose subtree is in order and one black node short, or a subtree `x` in order
and of the full height takes the parent's place and `curnode` becomes the root. -/
theorem TreeBARSub_cases_inv (focus : Node α) (q : Frame α) (rest : List (Frame α))
    (hn : NoRedRed focus) (hb : Balanced focus)
    (hs1 : bheight q.sib = bheight focus + 1) (hs2 : Balanced q.sib) (hs3 : NoRedRed q.sib)
    (hs4 : isRed q.sib = false) :
    ∃ cur', TreeBARSub.cases ⟨focus, q :: rest⟩ (!q.dir) = some cur' ∧
      ((cur'.path = rest ∧ isRed cur'.focus = q.red ∧ NoRedRed (blacken cur'.focus) ∧
          Balanced cur'.focus ∧
          bheight cur'.focus = bheight focus + if q.red then 0 else 1) ∨
       ∃ x, cur' = ⟨zip x rest, []⟩ ∧ NoRedRed x ∧ Balanced x ∧ isRed x = q.red ∧
          bheight x = bheight focus + 1 + if q.red then 0 else 1) := by
  obtain ⟨d, r, c, s, sib⟩ := q
  simp only at hs1 hs2 hs3 hs4 ⊢
  cases sib with
  | null => simp at hs1
  | node sr sc ss sl srt =>
    simp only [isRed_node] at hs4
    subst hs4
    simp only [bheight_node, Bool.false_eq_true, ↓reduceIte, balanced_node, noRedRed_node,
      false_implies, true_and] at hs1 hs2 hs3
    obtain ⟨hs21, hs22, hs23⟩ := hs2
    obtain ⟨hs31, hs32⟩ := hs3
    generalize hres : TreeBARSub.cases ⟨focus, ⟨d, r, c, s, .node false sc ss sl srt⟩ :: rest⟩
      (!d) = res
    rcases sl with _ | ⟨_ | _, lc, ls, ll, lr⟩ <;> rcases srt with _ | ⟨_ | _, rc, rs, rl, rr⟩ <;>
      cases d <;> simp [TreeBARSub.cases] at hres <;> subst hres <;>
      refine ⟨_, rfl, ?_⟩
    all_goals
      first
      | (refine Or.inl ⟨rfl, ?_⟩
         simp at *
         all_goals (and_intros <;> first | assumption | omega | simp_all))
      | (refine Or.inr ⟨_, rfl, ?_⟩
         simp at *
         all_goals (and_intros <;> first | assumption | omega | simp_all))

/-- One call of `TreeBARSub` from the loop of `TreeBalanceAfterRemove`, in a red-black tree
that is one black node short below `curnode`: the call returns, `curnode` moves up or becomes
red or the root, and the tree stays in order around it. -/
theorem TreeBARSub_inv (focus : Node α) (p : Frame α) (rest : List (Frame α))
    (hn : NoRedRed focus) (hb : Balanced focus)
    (hc : CtxOK (p :: rest) (bheight focus + 1)) :
    ∃ cur', TreeBARSub ⟨focus, p :: rest⟩ (!p.dir) = some cur' ∧
      (cur'.path.length < (p :: rest).length ∨ isRed cur'.focus = true) ∧
      NoRedRed (blacken cur'.focus) ∧ Balanced cur'.focus ∧
      CtxOK cur'.path (bheight cur'.focus + 1) := by
  obtain ⟨h1, h2, h3, h4, h5⟩ := hc
  cases hsr : isRed p.sib with
  | false =>
    rw [TreeBARSub_black focus p rest hsr]
    obtain ⟨cur', hres, hcase⟩ := TreeBARSub_cases_inv focus p rest hn hb h1 h2 h3 hsr
    refine ⟨cur', hres, ?_⟩
    rcases hcase with ⟨hp, _, hnn, hbb, hh⟩ | ⟨x, rfl, hx1, hx2, hx3, hx4⟩
    · refine ⟨Or.inl (by rw [hp]; simp), hnn, hbb, ?_⟩
      rw [hp, hh]
      convert h5 using 1
      omega
    · have hz := zip_ok rest x (by rw [hx4]; exact h5) hx2 hx1 (by
        intro hx; rw [hx3] at hx; exact (h4 hx).2)
      exact ⟨Or.inl (by simp), noRedRed_blacken _ hz.2.1, hz.2.2, trivial⟩
  | true =>
    obtain ⟨d, r, c, s, sib⟩ := p
    simp only at h1 h2 h3 h4 h5 hsr ⊢
    cases sib with
    | null => cases hsr
    | node sr sc ss sl srt =>
      simp only [isRed_node] at hsr
      subst hsr
      have hr : r = false := by
        cases r
        · rfl
        · exact absurd (h4 rfl).1 (by simp)
      subst hr
      rw [TreeBARSub_red]
      simp only [bheight_node, ↓reduceIte, Nat.add_zero, balanced_node, noRedRed_node,
        true_implies, Bool.false_eq_true] at h1 h2 h3 h5
      obtain ⟨h21, h22, h23⟩ := h2
      obtain ⟨⟨h31, h32⟩, h33, h34⟩ := h3
      obtain ⟨cur', hres, hcase⟩ := TreeBARSub_cases_inv focus
        ⟨d, true, c, s, if d then srt else sl⟩ (⟨d, false, sc, ss, if d then sl else srt⟩ :: rest)
        hn hb (by cases d <;> simp <;> omega) (by cases d <;> simpa) (by cases d <;> simpa)
        (by cases d <;> simpa)
      refine ⟨cur', hres, ?_⟩
      have hfar : CtxOK (⟨d, false, sc, ss, if d then sl else srt⟩ :: rest)
          (bheight focus + 1) := by
        simp only [ctxOK_cons, Bool.false_eq_true, false_implies, ↓reduceIte, true_and]
        refine ⟨by cases d <;> simp <;> omega, by cases d <;> simpa, by cases d <;> simpa, ?_⟩
        convert h5 using 1
      rcases hcase with ⟨hp, hred, hnn, hbb, hh⟩ | ⟨x, rfl, hx1, hx2, hx3, hx4⟩
      · refine ⟨Or.inr hred, hnn, hbb, ?_⟩
        rw [hp, hh]
        simpa using hfar
      · have hz := zip_ok (⟨d, false, sc, ss, if d then sl else srt⟩ :: rest) x
          (by rw [hx4]; simpa using hfar) hx2 hx1 (fun _ => ⟨_, _, rfl, rfl⟩)
        exact ⟨Or.inl (by simp), noRedRed_blacken _ hz.2.1, hz.2.2, trivial⟩

theorem noRedRed_of_blacken (n : Node α) (hr : isRed n = false) (h : NoRedRed (blacken n)) :
    NoRedRed n := by
  cases n with
  | null => trivial
  | node r c s lt rt =>
    simp only [isRed_node] at hr
    subst hr
    exact h

theorem bheight_blacken_red (n : Node α) (hr : isRed n = true) :
    bheight (blacken n) = bheight n + 1 := by
  cases n with
  | null => cases hr
  | node r c s lt rt =>
    simp only [isRed_node] at hr
    subst hr
    simp

theorem redBlack_of_parts (n : Node α) (h1 : isRed n = false) (h2 : NoRedRed n)
    (h3 : Balanced n) : RedBlack n :=
  ⟨h1, h2, (equalBlackCount_iff_balanced n).2 h3⟩

/-- Where the loop of `TreeBalanceAfterRemove` stops, blackening `curnode` leaves a red-black
tree. -/
theorem remove_exit_ok (cur : Loc α) (hstop : cur.path = [] ∨ isRed cur.focus = true)
    (hn : NoRedRed (blacken cur.focus)) (hb : Balanced cur.focus)
    (hc : CtxOK cur.path (bheight cur.focus + 1)) :
    RedBlack (zip (blacken cur.focus) cur.path) := by
  obtain ⟨focus, path⟩ := cur
  simp only at hstop hn hb hc ⊢
  cases path with
  | nil => exact redBlack_of_parts _ (isRed_blacken focus) hn (balanced_blacken focus hb)
  | cons p rest =>
    rcases hstop with h | h
    · cases h
    · obtain ⟨h1, h2, h3⟩ := zip_ok (p :: rest) (blacken focus)
        (by rw [bheight_blacken_red focus h]; exact hc) (balanced_blacken focus hb) hn
        (by rw [isRed_blacken]; intro h; cases h)
      exact redBlack_of_parts _ h1 h2 h3

theorem TreeBalanceAfterRemove_loop_inv : ∀ (fuel : Nat) (cur : Loc α),
    (cur.path.length < fuel ∨ isRed cur.focus = true) →
    NoRedRed (blacken cur.focus) → Balanced cur.focus →
    CtxOK cur.path (bheight cur.focus + 1) →
    ∃ cur', TreeBalanceAfterRemove.loop fuel cur = some cur' ∧
      RedBlack (zip (blacken cur'.focus) cur'.path) := by
  intro fuel
  induction fuel with
  | zero =>
    intro cur hfuel hn hb hc
    have hred : isRed cur.focus = true := by
      rcases hfuel with h | h
      · omega
      · exact h
    unfold TreeBalanceAfterRemove.loop
    match hpath : cur.path with
    | [] => exact ⟨cur, rfl, remove_exit_ok cur (Or.inr hred) hn hb hc⟩
    | p :: rest =>
      simp only [isBlack_eq_not_isRed, hred, Bool.not_true, Bool.false_eq_true, ↓reduceIte]
      exact ⟨cur, rfl, remove_exit_ok cur (Or.inr hred) hn hb hc⟩
  | succ fuel ih =>
    intro cur hfuel hn hb hc
    unfold TreeBalanceAfterRemove.loop
    match hpath : cur.path with
    | [] => exact ⟨cur, rfl, remove_exit_ok cur (Or.inl hpath) hn hb hc⟩
    | p :: rest =>
      cases hred : isRed cur.focus with
      | true =>
        simp only [isBlack_eq_not_isRed, hred, Bool.not_true, Bool.false_eq_true, ↓reduceIte]
        exact ⟨cur, rfl, remove_exit_ok cur (Or.inr hred) hn hb hc⟩
      | false =>
        simp only [isBlack_eq_not_isRed, hred, Bool.not_false, ↓reduceIte]
        obtain ⟨focus, path⟩ := cur
        simp only at hpath hfuel hn hb hc hred ⊢
        subst hpath
        have hsib : p.sib.isNull = false := by
          have := hc.1
          cases hp : p.sib with
          | null => rw [hp] at this; simp at this
          | node _ _ _ _ _ => rfl
        obtain ⟨cur', h1, h2, h3, h4, h5⟩ :=
          TreeBARSub_inv focus p rest (noRedRed_of_blacken focus hred hn) hb hc
        have key : ∀ x : Option (Loc α), x = some cur' →
            ∃ cur'', x.bind (TreeBalanceAfterRemove.loop fuel) = some cur'' ∧
              RedBlack (zip (blacken cur''.focus) cur''.path) := by
          intro x hx
          subst hx
          show ∃ cur'', TreeBalanceAfterRemove.loop fuel cur' = some cur'' ∧ _
          apply ih cur' _ h3 h4 h5
          rcases h2 with h | h
          · left
            rcases hfuel with h' | h'
            · simp only [List.length_cons] at h h'; omega
            · rw [hred] at h'; cases h'
          · exact Or.inr h
        apply key
        rw [← h1]
        cases focus <;> cases hd : p.dir <;> simp [hsib]

/-- The fix-up after unlinking a black node returns and leaves a red-black tree, when the tree
is in order around `curnode` and one black node short below it. -/
theorem TreeBalanceAfterRemove_inv (cur : Loc α)
    (hn : NoRedRed (blacken cur.focus)) (hb : Balanced cur.focus)
    (hc : CtxOK cur.path (bheight cur.focus + 1)) :
    ∃ root, TreeBalanceAfterRemove cur = some root ∧ RedBlack root := by
  obtain ⟨cur', h1, h2⟩ :=
    TreeBalanceAfterRemove_loop_inv (cur.path.length + 1) cur (Or.inl (by omega)) hn hb hc
  refine ⟨zip (blacken cur'.focus) cur'.path, ?_, h2⟩
  simp only [TreeBalanceAfterRemove, h1, Option.map_some']
  obtain ⟨focus, path⟩ := cur'
  cases focus <;> rfl

/-! ## Locations in a red-black tree -/

/-- Every location of a tree with a black root, balanced and free of red-red pairs, is in
order. -/
theorem zip_inv (path : List (Frame α)) : ∀ (n : Node α), isRed (zip n path) = false →
    NoRedRed (zip n path) → Balanced (zip n path) → LocOK ⟨n, path⟩ := by
  induction path with
  | nil =>
    intro n h1 h2 h3
    exact ⟨trivial, h3, h2, fun h => by simp only [zip_nil] at h1; rw [h1] at h; cases h⟩
  | cons f fs ih =>
    intro n h1 h2 h3
    obtain ⟨k1, k2, k3, k4⟩ := ih (f.plug n) h1 h2 h3
    simp only at k1 k2 k3 k4
    rw [isRed_plug] at k4
    obtain ⟨d, r, c, s, sib⟩ := f
    cases d
    · simp only [plug_false, balanced_node, noRedRed_node, bheight_node] at k1 k2 k3
      refine ⟨⟨k2.1.symm, k2.2.2, k3.2.2, fun h => ⟨(k3.1 h).2, k4 h⟩, k1⟩, k2.2.1, k3.2.1, ?_⟩
      intro h
      refine ⟨_, _, rfl, ?_⟩
      cases r
      · rfl
      · rw [(k3.1 rfl).1] at h; cases h
    · simp only [plug_true, balanced_node, noRedRed_node, bheight_node] at k1 k2 k3
      refine ⟨⟨k2.1, k2.2.1, k3.2.1, fun h => ⟨(k3.1 h).1, k4 h⟩, ?_⟩, k2.2.2, k3.2.2, ?_⟩
      · simp only; rw [← k2.1]; exact k1
      · intro h
        refine ⟨_, _, rfl, ?_⟩
        cases r
        · rfl
        · rw [(k3.1 rfl).2] at h; cases h

theorem locOK_of_redBlack (l : Loc α) (h : RedBlack l.root) : LocOK l :=
  zip_inv l.path l.focus h.rootBlack h.noRedRed ((equalBlackCount_iff_balanced _).1 h.equalBlackCount)

theorem locOK_down_left (r : Bool) (c : α) (s : Int) (lt rt : Node α) (path : List (Frame α))
    (h : LocOK ⟨.node r c s lt rt, path⟩) : LocOK ⟨lt, ⟨false, r, c, s, rt⟩ :: path⟩ := by
  obtain ⟨h1, h2, h3, h4⟩ := h
  simp only [bheight_node, balanced_node, noRedRed_node, isRed_node] at h1 h2 h3 h4
  refine ⟨⟨h2.1.symm, h2.2.2, h3.2.2, fun h => ⟨(h3.1 h).2, h4 h⟩, h1⟩, h2.2.1, h3.2.1, ?_⟩
  intro h
  refine ⟨_, _, rfl, ?_⟩
  cases r
  · rfl
  · rw [(h3.1 rfl).1] at h; cases h

theorem locOK_down_right (r : Bool) (c : α) (s : Int) (lt rt : Node α) (path : List (Frame α))
    (h : LocOK ⟨.node r c s lt rt, path⟩) : LocOK ⟨rt, ⟨true, r, c, s, lt⟩ :: path⟩ := by
  obtain ⟨h1, h2, h3, h4⟩ := h
  simp only [bheight_node, balanced_node, noRedRed_node, isRed_node] at h1 h2 h3 h4
  refine ⟨⟨h2.1, h2.2.1, h3.2.1, fun h => ⟨(h3.1 h).1, h4 h⟩, ?_⟩, h2.2.2, h3.2.2, ?_⟩
  · simp only; rw [← h2.1]; exact h1
  · intro h
    refine ⟨_, _, rfl, ?_⟩
    cases r
    · rfl
    · rw [(h3.1 rfl).2] at h; cases h

/-! ## `TreeMinimum` -/

/-- Going down the `child[LEFT]` links from a node ends at a node without left child, below
frames that were all entered on the left, in the same tree. -/
theorem descend_spec : ∀ (n : Node α) (path : List (Frame α)), n.isNull = false →
    ∃ rr rc rs rrt inner, TreeMinimum.descend n path = ⟨.node rr rc rs .null rrt, inner ++ path⟩ ∧
      zip (.node rr rc rs .null rrt) inner = n ∧ (∀ f ∈ inner, f.dir = false) := by
  intro n
  induction n with
  | null => intro path h; cases h
  | node r c s lt rt ihl _ =>
    intro path _
    cases lt with
    | null => exact ⟨r, c, s, rt, [], rfl, rfl, by simp⟩
    | node r' c' s' lt' rt' =>
      obtain ⟨rr, rc, rs, rrt, inner, h1, h2, h3⟩ := ihl (⟨false, r, c, s, rt⟩ :: path) rfl
      refine ⟨rr, rc, rs, rrt, inner ++ [⟨false, r, c, s, rt⟩], ?_, ?_, ?_⟩
      · simp only [TreeMinimum.descend, h1, List.append_assoc, List.singleton_append]
      · rw [zip_append, h2]; rfl
      · intro f hf
        rcases List.mem_append.1 hf with h | h
        · exact h3 f h
        · simp only [List.mem_singleton] at h; subst h; rfl

theorem descend_locOK : ∀ (n : Node α) (path : List (Frame α)), LocOK ⟨n, path⟩ →
    LocOK (TreeMinimum.descend n path) := by
  intro n
  induction n with
  | null => intro path h; exact h
  | node r c s lt rt ihl _ =>
    intro path h
    cases lt with
    | null => exact h
    | node r' c' s' lt' rt' =>
      simp only [TreeMinimum.descend]
      exact ihl _ (locOK_down_left r c s _ rt path h)

/-! ## `setAncestor` -/

theorem setAncestor_length (c : α) (s : Int) : ∀ (k : Nat) (path : List (Frame α)),
    (setAncestor c s k path).length = path.length := by
  intro k
  induction k with
  | zero => intro path; cases path <;> rfl
  | succ k ih => intro path; cases path <;> simp [setAncestor, ih]

theorem setAncestor_head (c : α) (s : Int) : ∀ (k : Nat) (path : List (Frame α)),
    (∃ g rest, path = g :: rest ∧ g.red = false) →
    ∃ g rest, setAncestor c s k path = g :: rest ∧ g.red = false := by
  intro k path h
  obtain ⟨g, rest, rfl, hg⟩ := h
  cases k with
  | zero => exact ⟨_, _, rfl, hg⟩
  | succ k => exact ⟨_, _, rfl, hg⟩

theorem ctxOK_setAncestor (c : α) (s : Int) : ∀ (k : Nat) (path : List (Frame α)) (h : Nat),
    CtxOK path h → CtxOK (setAncestor c s k path) h := by
  intro k
  induction k with
  | zero =>
    intro path h hc
    cases path with
    | nil => trivial
    | cons f fs => exact hc
  | succ k ih =>
    intro path h hc
    cases path with
    | nil => trivial
    | cons f fs =>
      obtain ⟨h1, h2, h3, h4, h5⟩ := hc
      exact ⟨h1, h2, h3, fun hf => ⟨(h4 hf).1, setAncestor_head c s k fs (h4 hf).2⟩, ih fs _ h5⟩

/-! ## `TreeRemoveNodeIndex` keeps the red-black invariants -/

/-- The node unlinked by `TreeRemoveNodeIndex`: `curnode` itself when it lacks a child, else
the left-most node of its right subtree, which has no left child. -/
theorem redundant_spec (r : Bool) (c : α) (s : Int) (lt rt : Node α) (path : List (Frame α)) :
    (TreeRemoveNodeIndex.redundant ⟨.node r c s lt rt, path⟩ = some ⟨.node r c s lt rt, path⟩ ∧
      (lt = .null ∨ rt = .null)) ∨
    (lt.isNull = false ∧ rt.isNull = false ∧ ∃ rr rc rs rrt inner,
      TreeRemoveNodeIndex.redundant ⟨.node r c s lt rt, path⟩ =
        some ⟨.node rr rc rs .null rrt, inner ++ ⟨true, r, c, s, lt⟩ :: path⟩ ∧
      zip (.node rr rc rs .null rrt) inner = rt ∧ ∀ f ∈ inner, f.dir = false) := by
  cases lt with
  | null => exact Or.inl ⟨rfl, Or.inl rfl⟩
  | node r1 c1 s1 l1 t1 =>
    cases rt with
    | null => exact Or.inl ⟨rfl, Or.inr rfl⟩
    | node r2 c2 s2 l2 t2 =>
      refine Or.inr ⟨rfl, rfl, ?_⟩
      obtain ⟨rr, rc, rs, rrt, inner, h1, h2, h3⟩ :=
        descend_spec (.node r2 c2 s2 l2 t2) (⟨true, r, c, s, .node r1 c1 s1 l1 t1⟩ :: path) rfl
      exact ⟨rr, rc, rs, rrt, inner, by
        simp only [TreeRemoveNodeIndex.redundant, TreeSuccessor, TreeMinimum, h1], h2, h3⟩

theorem redundant_locOK (cur red : Loc α) (h : LocOK cur)
    (hred : TreeRemoveNodeIndex.redundant cur = some red) : LocOK red := by
  obtain ⟨focus, path⟩ := cur
  cases focus with
  | null => cases hred; exact h
  | node r c s lt rt =>
    cases lt with
    | null => cases hred; exact h
    | node r1 c1 s1 l1 t1 =>
      cases rt with
      | null => cases hred; exact h
      | node r2 c2 s2 l2 t2 =>
        simp only [TreeRemoveNodeIndex.redundant, TreeSuccessor, TreeMinimum,
          Option.some.injEq] at hred
        subst hred
        exact descend_locOK _ _ (locOK_down_right r c s _ _ path h)

/-- Replacing a node that lacks a child by its other child, and rebalancing if the node was
black, leaves a red-black tree. -/
theorem splice_redBlack (cur : Loc α) (rr : Bool) (rc : α) (rs : Int) (rlt rrt : Node α)
    (rpath : List (Frame α)) (hloc : LocOK ⟨.node rr rc rs rlt rrt, rpath⟩)
    (hone : rlt = .null ∨ rrt = .null) :
    ∃ root, TreeRemoveNodeIndex.splice cur ⟨.node rr rc rs rlt rrt, rpath⟩ = some root ∧
      RedBlack root := by
  obtain ⟨h1, h2, h3, h4⟩ := hloc
  simp only [bheight_node, balanced_node, noRedRed_node, isRed_node] at h1 h2 h3 h4
  obtain ⟨h21, h22, h23⟩ := h2
  obtain ⟨h31, h32, h33⟩ := h3
  simp only [TreeRemoveNodeIndex.splice]
  generalize hP : (if rpath.length = cur.path.length then rpath
    else setAncestor rc rs (rpath.length - cur.path.length - 1) rpath) = P
  have hctx : ∀ h, CtxOK rpath h → CtxOK P h := by
    intro h hc
    rw [← hP]
    split
    · exact hc
    · exact ctxOK_setAncestor rc rs _ rpath h hc
  have hhead : (∃ g rest, rpath = g :: rest ∧ g.red = false) →
      ∃ g rest, P = g :: rest ∧ g.red = false := by
    intro h
    rw [← hP]
    split
    · exact h
    · exact setAncestor_head rc rs _ rpath h
  have hzero : bheight rlt = 0 ∧ bheight rrt = 0 := by
    rcases hone with h | h <;> subst h <;> simp at h21 ⊢ <;> omega
  cases rr with
  | true =>
    simp only [isBlack_node, Bool.not_true, Bool.false_eq_true, ↓reduceIte,
      Option.some.injEq, exists_eq_left']
    simp only [↓reduceIte, Nat.add_zero] at h1
    have hcc := hctx _ h1
    obtain ⟨hl, hr⟩ := h31 rfl
    have hzip : ∀ n : Node α, bheight n = 0 → Balanced n → NoRedRed n → isRed n = false →
        RedBlack (zip n P) := by
      intro n hn1 hn2 hn3 hn4
      obtain ⟨z1, z2, z3⟩ := zip_ok P n (by rw [hn1, ← hzero.1]; exact hcc) hn2 hn3
        (by rw [hn4]; intro h; cases h)
      exact redBlack_of_parts _ z1 z2 z3
    cases rlt with
    | null => exact hzip rrt hzero.2 h23 h33 hr
    | node lr lc ls ll lrt => exact hzip _ hzero.1 h22 h32 hl
  | false =>
    simp only [isBlack_node, Bool.not_false, ↓reduceIte]
    simp only [Bool.false_eq_true, ↓reduceIte] at h1
    have hcc := hctx _ h1
    rw [hzero.1] at hcc
    cases rlt with
    | null =>
      cases rrt with
      | null =>
        cases P with
        | nil => exact ⟨.null, rfl, rfl, trivial, by simp [EqualBlackCount, blackCounts]⟩
        | cons f fs => exact TreeBalanceAfterRemove_inv ⟨.null, f :: fs⟩ trivial trivial hcc
      | node tr tc ts tl trt =>
        exact TreeBalanceAfterRemove_inv ⟨.node tr tc ts tl trt, P⟩
          (noRedRed_blacken _ h33) h23 (by rw [hzero.2]; exact hcc)
    | node lr lc ls ll lrt =>
      exact TreeBalanceAfterRemove_inv ⟨.node lr lc ls ll lrt, P⟩
        (noRedRed_blacken _ h32) h22 (by rw [hzero.1]; exact hcc)

/-- Unlinking a node of a red-black tree returns and leaves a red-black tree. -/
theorem unlink_redBlack (cur : Loc α) (hrb : RedBlack cur.root)
    (hnn : cur.focus.isNull = false) :
    ∃ c s lt rt r root, cur.focus = .node r c s lt rt ∧
      TreeRemoveNodeIndex.unlink cur = some (c, s, root) ∧ RedBlack root := by
  have hloc := locOK_of_redBlack cur hrb
  obtain ⟨focus, path⟩ := cur
  cases focus with
  | null => cases hnn
  | node r c s lt rt =>
    refine ⟨c, s, lt, rt, r, ?_⟩
    rcases redundant_spec r c s lt rt path with ⟨h1, h2⟩ | ⟨_, _, rr, rc, rs, rrt, inner, h1, _, _⟩
    · obtain ⟨root, k1, k2⟩ := splice_redBlack ⟨.node r c s lt rt, path⟩ r c s lt rt path hloc h2
      exact ⟨root, rfl, by simp [TreeRemoveNodeIndex.unlink, h1, k1], k2⟩
    · obtain ⟨root, k1, k2⟩ := splice_redBlack ⟨.node r c s lt rt, path⟩ rr rc rs .null rrt _
        (redundant_locOK _ _ hloc h1) (Or.inl rfl)
      exact ⟨root, rfl, by simp [TreeRemoveNodeIndex.unlink, h1, k1], k2⟩

/-! ## The in-order sequence along a path -/

@[simp] theorem inorder_null : inorder (Node.null : Node α) = [] := rfl

@[simp] theorem inorder_node (r : Bool) (c : α) (s : Int) (lt rt : Node α) :
    inorder (.node r c s lt rt) = inorder lt ++ (c, s) :: inorder rt := rfl

@[simp] theorem pathBefore_nil : pathBefore ([] : List (Frame α)) = [] := rfl

@[simp] theorem pathAfter_nil : pathAfter ([] : List (Frame α)) = [] := rfl

@[simp] theorem pathBefore_cons_false (r : Bool) (c : α) (s : Int) (sib : Node α)
    (fs : List (Frame α)) : pathBefore (⟨false, r, c, s, sib⟩ :: fs) = pathBefore fs := by
  simp [pathBefore]

@[simp] theorem pathBefore_cons_true (r : Bool) (c : α) (s : Int) (sib : Node α)
    (fs : List (Frame α)) :
    pathBefore (⟨true, r, c, s, sib⟩ :: fs) = pathBefore fs ++ (inorder sib ++ [(c, s)]) := by
  simp [pathBefore]

@[simp] theorem pathAfter_cons_false (r : Bool) (c : α) (s : Int) (sib : Node α)
    (fs : List (Frame α)) :
    pathAfter (⟨false, r, c, s, sib⟩ :: fs) = (c, s) :: inorder sib ++ pathAfter fs := by
  simp [pathAfter]

@[simp] theorem pathAfter_cons_true (r : Bool) (c : α) (s : Int) (sib : Node α)
    (fs : List (Frame α)) : pathAfter (⟨true, r, c, s, sib⟩ :: fs) = pathAfter fs := by
  simp [pathAfter]

/-- The in-order sequence of a tree, seen from one of its locations. -/
theorem inorder_zip (path : List (Frame α)) : ∀ (n : Node α),
    inorder (zip n path) = pathBefore path ++ inorder n ++ pathAfter path := by
  induction path with
  | nil => intro n; simp
  | cons f fs ih =>
    intro n
    obtain ⟨d, r, c, s, sib⟩ := f
    cases d <;> simp [ih]

theorem inorder_setRed (n root : Node α) (h : n.setRed false = some root) :
    inorder root = inorder n := by
  cases n with
  | null => cases h
  | node r c s lt rt => cases h; rfl

theorem inorder_blacken (n : Node α) : inorder (blacken n) = inorder n := by
  cases n <;> rfl

/-! ## The fix-up after an insertion, on any tree -/

/-- On any tree, a call of `TreeBAASub` from the loop of `TreeBalanceAfterAdd` returns, moves
`curnode` nearer to the root and keeps the in-order sequence of the index. -/
theorem TreeBAASub_total (focus : Node α) (p g : Frame α) (rest : List (Frame α))
    (hnn : focus.isNull = false) :
    ∃ cur', TreeBAASub ⟨focus, p :: g :: rest⟩ (!g.dir) = some cur' ∧
      cur'.path.length < (p :: g :: rest).length ∧ cur'.focus.isNull = false ∧
      inorder cur'.root = inorder (zip focus (p :: g :: rest)) := by
  obtain ⟨pd, pr, pc, ps, psib⟩ := p
  obtain ⟨gd, gr, gc, gs, gsib⟩ := g
  cases focus with
  | null => cases hnn
  | node r c s lt rt =>
    generalize hres : TreeBAASub ⟨.node r c s lt rt, ⟨pd, pr, pc, ps, psib⟩ ::
      ⟨gd, gr, gc, gs, gsib⟩ :: rest⟩ (!(Frame.mk gd gr gc gs gsib).dir) = res
    rcases gsib with _ | ⟨_ | _, uc, us, ul, ur⟩ <;> cases gd <;> cases pd <;>
      simp [TreeBAASub] at hres <;> subst hres <;> refine ⟨_, rfl, ?_⟩ <;>
      simp [inorder_zip] <;> omega

theorem TreeBalanceAfterAdd_loop_total : ∀ (fuel : Nat) (cur : Loc α), cur.path.length < fuel →
    cur.focus.isNull = false →
    ∃ cur', TreeBalanceAfterAdd.loop fuel cur = some cur' ∧ cur'.root.isNull = false ∧
      inorder cur'.root = inorder cur.root := by
  intro fuel
  induction fuel with
  | zero => intro cur h; omega
  | succ fuel ih =>
    intro cur hlen hnn
    have hstop : cur.root.isNull = false := zip_isNull _ _ hnn
    unfold TreeBalanceAfterAdd.loop
    match hpath : cur.path with
    | [] => exact ⟨cur, rfl, hstop, rfl⟩
    | [p] => exact ⟨cur, rfl, hstop, rfl⟩
    | p :: g :: rest =>
      cases hp : p.red
      · simp only [hp, Bool.false_eq_true, ↓reduceIte]
        exact ⟨cur, rfl, hstop, rfl⟩
      · simp only [hp, ↓reduceIte]
        obtain ⟨focus, path⟩ := cur
        simp only at hpath hlen hnn
        subst hpath
        obtain ⟨cur', h1, h2, h3, h4⟩ := TreeBAASub_total focus p g rest hnn
        have hsub : (if g.dir = false then TreeBAASub ⟨focus, p :: g :: rest⟩ true
            else TreeBAASub ⟨focus, p :: g :: rest⟩ false) = some cur' := by
          rw [← h1]
          cases g.dir <;> rfl
        rw [hsub]
        obtain ⟨cur'', k1, k2, k3⟩ := ih cur' (by simp only [List.length_cons] at h2 hlen; omega) h3
        exact ⟨cur'', k1, k2, by rw [k3, h4]; rfl⟩

/-- On any tree, `TreeBalanceAfterAdd` called on a node returns and keeps the in-order
sequence of the index. -/
theorem TreeBalanceAfterAdd_total (cur : Loc α) (hnn : cur.focus.isNull = false) :
    ∃ root, TreeBalanceAfterAdd cur = some root ∧ inorder root = inorder cur.root := by
  obtain ⟨cur', h1, h2, h3⟩ :=
    TreeBalanceAfterAdd_loop_total (cur.path.length + 1) cur (by omega) hnn
  cases hroot : cur'.root with
  | null => rw [hroot] at h2; cases h2
  | node r c s lt rt =>
    refine ⟨.node false c s lt rt, by simp [TreeBalanceAfterAdd, h1, hroot], ?_⟩
    rw [← h3, hroot]
    rfl

/-! ## The fix-up after a removal, on any tree -/

/-- On any tree, the cases of `TreeBARSub` return: `curnode` moves to its parent or becomes the
root, and the in-order sequence of the index is kept. -/
theorem TreeBARSub_cases_total (focus : Node α) (q : Frame α) (rest : List (Frame α)) :
    ∃ cur', TreeBARSub.cases ⟨focus, q :: rest⟩ (!q.dir) = some cur' ∧
      ((cur'.path = rest ∧ isRed cur'.focus = q.red) ∨ cur'.path = []) ∧
      cur'.focus.isNull = false ∧
      inorder cur'.root = inorder (zip focus (q :: rest)) := by
  obtain ⟨d, r, c, s, sib⟩ := q
  generalize hres : TreeBARSub.cases ⟨focus, ⟨d, r, c, s, sib⟩ :: rest⟩
    (!(Frame.mk d r c s sib).dir) = res
  rcases sib with _ | ⟨sr, sc, ss, _ | ⟨_ | _, lc, ls, ll, lr⟩, _ | ⟨_ | _, rc, rs, rl, rr⟩⟩ <;>
    cases d <;> simp [TreeBARSub.cases] at hres <;> subst hres <;> refine ⟨_, rfl, ?_⟩ <;>
    simp [inorder_zip, zip_isNull]

/-- On any tree, a call of `TreeBARSub` from the loop of `TreeBalanceAfterRemove` returns:
`curnode` moves up, or becomes red or the root, and the in-order sequence of the index is
kept. -/
theorem TreeBARSub_total (focus : Node α) (p : Frame α) (rest : List (Frame α)) (w : Bool)
    (hw : w = (!p.dir) ∨ (focus = .null ∧ p.sib = .null ∧ w = p.dir)) :
    ∃ cur', TreeBARSub ⟨focus, p :: rest⟩ w = some cur' ∧
      (cur'.path.length < (p :: rest).length ∨ isRed cur'.focus = true) ∧
      cur'.focus.isNull = false ∧
      inorder cur'.root = inorder (zip focus (p :: rest)) := by
  rcases hw with hw | ⟨h1, h2, h3⟩
  · subst hw
    cases hsr : isRed p.sib with
    | false =>
      rw [TreeBARSub_black focus p rest hsr]
      obtain ⟨cur', k1, k2, k3, k4⟩ := TreeBARSub_cases_total focus p rest
      refine ⟨cur', k1, ?_, k3, k4⟩
      rcases k2 with ⟨k, _⟩ | k <;> rw [k] <;> simp
    | true =>
      obtain ⟨d, r, c, s, sib⟩ := p
      cases sib with
      | null => cases hsr
      | node sr sc ss sl srt =>
        simp only [isRed_node] at hsr
        subst hsr
        simp only
        rw [TreeBARSub_red]
        obtain ⟨cur', k1, k2, k3, k4⟩ := TreeBARSub_cases_total focus
          ⟨d, true, c, s, if d then srt else sl⟩ (⟨d, false, sc, ss, if d then sl else srt⟩ :: rest)
        refine ⟨cur', k1, ?_, k3, ?_⟩
        · rcases k2 with ⟨_, k⟩ | k
          · exact Or.inr k
          · left; rw [k]; simp
        · rw [k4]
          cases d <;> simp [inorder_zip]
  · obtain ⟨d, r, c, s, sib⟩ := p
    simp only at h2 h3
    subst h1 h2 h3
    refine ⟨⟨(Frame.mk w r c s .null).plug .null, rest⟩, by simp [TreeBARSub], Or.inl (by simp),
      by cases w <;> rfl, rfl⟩

theorem TreeBalanceAfterRemove_loop_total : ∀ (fuel : Nat) (cur : Loc α),
    (cur.path.length < fuel ∨ isRed cur.focus = true) →
    (cur.focus.isNull = false ∨ cur.path ≠ []) →
    ∃ cur', TreeBalanceAfterRemove.loop fuel cur = some cur' ∧
      (cur'.focus.isNull = false ∨ cur'.path ≠ []) ∧
      inorder (zip (blacken cur'.focus) cur'.path) = inorder cur.root := by
  intro fuel
  induction fuel with
  | zero =>
    intro cur hfuel hnn
    have hred : isRed cur.focus = true := by
      rcases hfuel with h | h
      · omega
      · exact h
    have hio : inorder (zip (blacken cur.focus) cur.path) = inorder cur.root := by
      simp [Loc.root, inorder_zip, inorder_blacken]
    unfold TreeBalanceAfterRemove.loop
    match hpath : cur.path with
    | [] => exact ⟨cur, rfl, hnn, hio⟩
    | p :: rest =>
      simp only [isBlack_eq_not_isRed, hred, Bool.not_true, Bool.false_eq_true, ↓reduceIte]
      exact ⟨cur, rfl, hnn, hio⟩
  | succ fuel ih =>
    intro cur hfuel hnn
    have hio : inorder (zip (blacken cur.focus) cur.path) = inorder cur.root := by
      simp [Loc.root, inorder_zip, inorder_blacken]
    unfold TreeBalanceAfterRemove.loop
    match hpath : cur.path with
    | [] => exact ⟨cur, rfl, hnn, hio⟩
    | p :: rest =>
      cases hred : isRed cur.focus with
      | true =>
        simp only [isBlack_eq_not_isRed, hred, Bool.not_true, Bool.false_eq_true, ↓reduceIte]
        exact ⟨cur, rfl, hnn, hio⟩
      | false =>
        simp only [isBlack_eq_not_isRed, hred, Bool.not_false, ↓reduceIte]
        obtain ⟨focus, path⟩ := cur
        simp only at hpath hfuel hred ⊢
        subst hpath
        have key : ∀ (w : Bool) (x : Option (Loc α)),
            (w = (!p.dir) ∨ (focus = .null ∧ p.sib = .null ∧ w = p.dir)) →
            x = TreeBARSub ⟨focus, p :: rest⟩ w →
            ∃ cur'', x.bind (TreeBalanceAfterRemove.loop fuel) = some cur'' ∧
              (cur''.focus.isNull = false ∨ cur''.path ≠ []) ∧
              inorder (zip (blacken cur''.focus) cur''.path) =
                inorder (Loc.mk focus (p :: rest)).root := by
          intro w x hw hx
          obtain ⟨cur', h1, h2, h3, h4⟩ := TreeBARSub_total focus p rest w hw
          rw [h1] at hx
          subst hx
          show ∃ cur'', TreeBalanceAfterRemove.loop fuel cur' = some cur'' ∧ _
          obtain ⟨cur'', k1, k2, k3⟩ := ih cur' (by
            rcases h2 with h | h
            · left
              rcases hfuel with h' | h'
              · simp only [List.length_cons] at h h'; omega
              · rw [hred] at h'; cases h'
            · exact Or.inr h) (Or.inl h3)
          exact ⟨cur'', k1, k2, by rw [k3, h4]; rfl⟩
        cases focus with
        | null =>
          cases hd : p.dir with
          | false => exact key true _ (Or.inl (by simp [hd])) (by simp [hd])
          | true =>
            cases hs : p.sib with
            | null => exact key true _ (Or.inr ⟨rfl, hs, hd.symm⟩) (by simp [hd, hs])
            | node _ _ _ _ _ => exact key false _ (Or.inl (by simp [hd])) (by simp [hd, hs])
        | node _ _ _ _ _ =>
          cases hd : p.dir with
          | false => exact key true _ (Or.inl (by simp [hd])) (by simp [hd])
          | true => exact key false _ (Or.inl (by simp [hd])) (by simp [hd])

/-- On any tree, `TreeBalanceAfterRemove` returns and keeps the in-order sequence of the
index. -/
theorem TreeBalanceAfterRemove_total (cur : Loc α)
    (hnn : cur.focus.isNull = false ∨ cur.path ≠ []) :
    ∃ root, TreeBalanceAfterRemove cur = some root ∧ inorder root = inorder cur.root := by
  obtain ⟨cur', h1, _, h3⟩ :=
    TreeBalanceAfterRemove_loop_total (cur.path.length + 1) cur (Or.inl (by omega)) hnn
  refine ⟨zip (blacken cur'.focus) cur'.path, ?_, h3⟩
  simp only [TreeBalanceAfterRemove, h1, Option.map_some']
  obtain ⟨focus, path⟩ := cur'
  cases focus <;> rfl

/-! ## `TreeRemoveNodeIndex`, on any tree -/

theorem pathBefore_append (p q : List (Frame α)) :
    pathBefore (p ++ q) = pathBefore q ++ pathBefore p := by
  induction p with
  | nil => simp
  | cons f fs ih =>
    obtain ⟨d, r, c, s, sib⟩ := f
    cases d <;> simp [ih]

theorem pathAfter_append (p q : List (Frame α)) :
    pathAfter (p ++ q) = pathAfter p ++ pathAfter q := by
  induction p with
  | nil => simp
  | cons f fs ih =>
    obtain ⟨d, r, c, s, sib⟩ := f
    cases d <;> simp [ih]

theorem pathBefore_lefts (p : List (Frame α)) (h : ∀ f ∈ p, f.dir = false) :
    pathBefore p = [] := by
  induction p with
  | nil => rfl
  | cons f fs ih =>
    obtain ⟨d, r, c, s, sib⟩ := f
    have hd : d = false := h _ (List.mem_cons_self _ _)
    subst hd
    simpa using ih (fun f hf => h f (List.mem_cons_of_mem _ hf))

theorem setAncestor_append (c : α) (s : Int) (f : Frame α) (path : List (Frame α)) :
    ∀ inner : List (Frame α), setAncestor c s inner.length (inner ++ f :: path) =
      inner ++ { f with content := c, size := s } :: path := by
  intro inner
  induction inner with
  | nil => rfl
  | cons g gs ih => simp [setAncestor, ih]

/-- On any tree, replacing a node that lacks a child by its other child returns, and the
in-order sequence of the new tree is the one around the path used, with the records of the
child in the middle. -/
theorem splice_total (cur : Loc α) (rr : Bool) (rc : α) (rs : Int) (rlt rrt : Node α)
    (rpath : List (Frame α)) (hone : rlt = .null ∨ rrt = .null) :
    ∃ root, TreeRemoveNodeIndex.splice cur ⟨.node rr rc rs rlt rrt, rpath⟩ = some root ∧
      inorder root =
        pathBefore (if rpath.length = cur.path.length then rpath
          else setAncestor rc rs (rpath.length - cur.path.length - 1) rpath) ++
        (inorder rlt ++ inorder rrt) ++
        pathAfter (if rpath.length = cur.path.length then rpath
          else setAncestor rc rs (rpath.length - cur.path.length - 1) rpath) := by
  simp only [TreeRemoveNodeIndex.splice]
  generalize (if rpath.length = cur.path.length then rpath
    else setAncestor rc rs (rpath.length - cur.path.length - 1) rpath) = P
  cases rr with
  | true =>
    simp only [isBlack_node, Bool.not_true, Bool.false_eq_true, ↓reduceIte,
      Option.some.injEq, exists_eq_left']
    rcases hone with h | h <;> subst h
    · simp [inorder_zip]
    · cases rlt <;> simp [inorder_zip]
  | false =>
    simp only [isBlack_node, Bool.not_false, ↓reduceIte]
    cases rlt with
    | null =>
      cases rrt with
      | null =>
        cases P with
        | nil => exact ⟨.null, rfl, rfl⟩
        | cons f fs =>
          obtain ⟨root, h1, h2⟩ := TreeBalanceAfterRemove_total ⟨.null, f :: fs⟩ (Or.inr (by simp))
          exact ⟨root, h1, by rw [h2, root_mk, inorder_zip]; simp⟩
      | node tr tc ts tl trt =>
        obtain ⟨root, h1, h2⟩ :=
          TreeBalanceAfterRemove_total ⟨.node tr tc ts tl trt, P⟩ (Or.inl rfl)
        exact ⟨root, h1, by rw [h2, root_mk, inorder_zip]; simp⟩
    | node lr lc ls ll lrt =>
      have hr : rrt = .null := by
        rcases hone with h | h
        · cases h
        · exact h
      subst hr
      obtain ⟨root, h1, h2⟩ :=
        TreeBalanceAfterRemove_total ⟨.node lr lc ls ll lrt, P⟩ (Or.inl rfl)
      exact ⟨root, h1, by rw [h2, root_mk, inorder_zip]; simp⟩

/-- On any tree, unlinking a node returns the record and size hint the node held, and the
in-order sequence of the new tree is the old one without the entry of that node. -/
theorem unlink_total (r : Bool) (c : α) (s : Int) (lt rt : Node α) (path : List (Frame α)) :
    ∃ root, TreeRemoveNodeIndex.unlink ⟨.node r c s lt rt, path⟩ = some (c, s, root) ∧
      inorder root = (pathBefore path ++ inorder lt) ++ (inorder rt ++ pathAfter path) := by
  rcases redundant_spec r c s lt rt path with
    ⟨h1, h2⟩ | ⟨_, _, rr, rc, rs, rrt, inner, h1, hz, hin⟩
  · obtain ⟨root, k1, k2⟩ := splice_total ⟨.node r c s lt rt, path⟩ r c s lt rt path h2
    refine ⟨root, by simp [TreeRemoveNodeIndex.unlink, h1, k1], ?_⟩
    rw [k2]
    simp
  · obtain ⟨root, k1, k2⟩ := splice_total ⟨.node r c s lt rt, path⟩ rr rc rs .null rrt
      (inner ++ ⟨true, r, c, s, lt⟩ :: path) (Or.inl rfl)
    refine ⟨root, by simp [TreeRemoveNodeIndex.unlink, h1, k1], ?_⟩
    rw [k2]
    have hlen : ¬ (inner ++ (⟨true, r, c, s, lt⟩ : Frame α) :: path).length = path.length := by
      simp only [List.length_append, List.length_cons]; omega
    have hk : (inner ++ (⟨true, r, c, s, lt⟩ : Frame α) :: path).length - path.length - 1 =
        inner.length := by
      simp only [List.length_append, List.length_cons]; omega
    simp only [hlen, ↓reduceIte, hk, setAncestor_append]
    have hrt : inorder rt = (rc, rs) :: inorder rrt ++ pathAfter inner := by
      rw [← hz, inorder_zip, pathBefore_lefts inner hin]
      simp
    rw [pathBefore_append, pathAfter_append, pathBefore_lefts inner hin, hrt]
    simp

/-! ## Counting nodes and sizes through the in-order sequence -/

theorem nodeCount_eq_length (n : Node α) : nodeCount n = (inorder n).length := by
  induction n with
  | null => rfl
  | node r c s lt rt ihl ihr => simp [nodeCount, ihl, ihr]; omega

theorem sizeSum_eq_sum (n : Node α) : sizeSum n = ((inorder n).map Prod.snd).sum := by
  induction n with
  | null => rfl
  | node r c s lt rt ihl ihr => simp [sizeSum, ihl, ihr]; omega

theorem eq_null_of_nodeCount (n : Node α) (h : nodeCount n = 0) : n = .null := by
  cases n with
  | null => rfl
  | node r c s lt rt => simp [nodeCount] at h

theorem lt_length_of_getElem? {β : Type} (l : List β) (i : Nat) (x : β) (h : l[i]? = some x) :
    i < l.length := by
  by_contra hlt
  rw [List.getElem?_eq_none (by omega)] at h
  cases h

/-- The store returned by `TreeRemoveNodeIndex` once the tree part has returned. -/
theorem TreeRemoveNodeIndex_done (aTree : Tree α) (curnode : Loc α) (index : Nat) (ix : Index α)
    (c : α) (s : Int) (root : Node α) (hix : aTree.index[index]? = some ix)
    (h : TreeRemoveNodeIndex.unlink curnode = some (c, s, root)) :
    ∃ aTree1, TreeRemoveNodeIndex aTree curnode index = .done (c, aTree1) ∧
      aTree1.index[index]? = some { ix with root := root } ∧
      (∀ j, j ≠ index → aTree1.index[j]? = aTree.index[j]?) ∧
      aTree1.index.length = aTree.index.length ∧
      aTree1.allow_duplicates = aTree.allow_duplicates ∧
      aTree1.count = (if index = 0 then aTree.count - 1 else aTree.count) ∧
      aTree1.size = (if index = 0 then aTree.size - s else aTree.size) := by
  have hlt := lt_length_of_getElem? _ _ _ hix
  simp only [TreeRemoveNodeIndex, hlt, ↓reduceIte, h]
  refine ⟨_, rfl, ?_, ?_, ?_, ?_, ?_, ?_⟩
  · split <;> exact setRootAt_getElem? root index _ ix hix
  · intro j hj
    split <;> exact setRootAt_getElem?_ne root index j _ (Ne.symm hj)
  · split <;> exact setRootAt_length root index _
  · split <;> rfl
  · by_cases h0 : index = 0 <;> simp [h0, Tree.setRoot]
  · by_cases h0 : index = 0 <;> simp [h0, Tree.setRoot]

/-! ## C2 -/

/-- C2.  Removal keeps the tree balanced: when `index[index]` satisfies the three red-black
invariants and `curnode` points to a node of it (with zero, one or two children, red or black),
`TreeRemoveNodeIndex` returns and leaves `index[index]` satisfying the three invariants; when
the node was the only one, the index is left with a null root. -/
theorem C2_removal_keeps_red_black (aTree : Tree α) (curnode : Loc α) (index : Nat)
    (ix : Index α) (hix : aTree.index[index]? = some ix) (hin : curnode.root = ix.root)
    (hnode : curnode.focus.isNull = false) (hrb : RedBlack ix.root) :
    ∃ content aTree1 ix1, TreeRemoveNodeIndex aTree curnode index = .done (content, aTree1) ∧
      aTree1.index[index]? = some ix1 ∧ RedBlack ix1.root ∧
      (nodeCount ix.root = 1 → ix1.root = .null) := by
  rw [← hin] at hrb
  obtain ⟨c, s, lt, rt, r, root, hf, h1, h2⟩ := unlink_redBlack curnode hrb hnode
  obtain ⟨aTree1, k1, k2, _⟩ := TreeRemoveNodeIndex_done aTree curnode index ix c s root hix h1
  refine ⟨c, aTree1, _, k1, k2, h2, ?_⟩
  intro hone
  obtain ⟨focus, path⟩ := curnode
  simp only at hf
  subst hf
  obtain ⟨root', e1, e2⟩ := unlink_total r c s lt rt path
  rw [h1] at e1
  cases e1
  apply eq_null_of_nodeCount
  rw [← hin, nodeCount_eq_length, root_mk, inorder_zip] at hone
  rw [nodeCount_eq_length, e2]
  simp only [List.length_append, List.length_cons, inorder_node] at hone ⊢
  omega

theorem C2_removal_keeps_red_black_witness :
    sixStore.index[0]? = some ⟨sixTree, TreeIntCompare⟩ ∧
    (Loc.mk sixTree []).root = sixTree ∧ sixTree.isNull = false ∧ RedBlack sixTree ∧
    ∃ content aTree1 ix1,
      TreeRemoveNodeIndex sixStore ⟨sixTree, []⟩ 0 = .done (content, aTree1) ∧
      aTree1.index[0]? = some ix1 ∧ RedBlack ix1.root ∧
      (nodeCount sixTree = 1 → ix1.root = .null) :=
  have hrb : RedBlack sixTree :=
    ⟨rfl, by simp [sixTree], (equalBlackCount_iff_balanced _).2 (by simp [sixTree])⟩
  ⟨rfl, rfl, rfl, hrb,
    C2_removal_keeps_red_black sixStore ⟨sixTree, []⟩ 0 ⟨sixTree, TreeIntCompare⟩ rfl rfl rfl hrb⟩

/-! ## C5 -/

/-- C5.  Removal removes exactly the target record: for a pointer `curnode` to a node of
`index[index]`, `TreeRemoveNodeIndex` returns the record the node held on entry, and the
in-order sequence of records with their size hints afterwards is the sequence before with the
entry of that node deleted (the entries before and after it are unchanged and in the same
order), also when the node has two children and its successor's record is moved into it. -/
theorem C5_removal_removes_exactly_the_target (aTree : Tree α) (curnode : Loc α) (index : Nat)
    (ix : Index α) (r : Bool) (c : α) (s : Int) (lt rt : Node α)
    (hix : aTree.index[index]? = some ix) (hin : curnode.root = ix.root)
    (hnode : curnode.focus = .node r c s lt rt) :
    ∃ aTree1 ix1, TreeRemoveNodeIndex aTree curnode index = .done (c, aTree1) ∧
      aTree1.index[index]? = some ix1 ∧
      inorder ix.root =
        (pathBefore curnode.path ++ inorder lt) ++ (c, s) :: (inorder rt ++ pathAfter curnode.path) ∧
      inorder ix1.root =
        (pathBefore curnode.path ++ inorder lt) ++ (inorder rt ++ pathAfter curnode.path) := by
  obtain ⟨focus, path⟩ := curnode
  simp only at hnode
  subst hnode
  obtain ⟨root, h1, h2⟩ := unlink_total r c s lt rt path
  obtain ⟨aTree1, k1, k2, _⟩ := TreeRemoveNodeIndex_done aTree _ index ix c s root hix h1
  refine ⟨aTree1, _, k1, k2, ?_, h2⟩
  rw [← hin, root_mk, inorder_zip]
  simp

theorem C5_removal_removes_exactly_the_target_witness :
    sixStore.index[0]? = some ⟨sixTree, TreeIntCompare⟩ ∧
    (Loc.mk sixTree []).root = sixTree ∧
    ∃ aTree1 ix1, TreeRemoveNodeIndex sixStore ⟨sixTree, []⟩ 0 = .done (rec 2, aTree1) ∧
      aTree1.index[0]? = some ix1 ∧
      inorder sixTree = ([] ++ [(rec 1, 4)]) ++ (rec 2, 4) ::
        ([(rec 3, 4), (rec 4, 4), (rec 5, 4), (rec 6, 4)] ++ []) ∧
      inorder ix1.root = ([] ++ [(rec 1, 4)]) ++
        ([(rec 3, 4), (rec 4, 4), (rec 5, 4), (rec 6, 4)] ++ []) :=
  ⟨rfl, rfl, C5_removal_removes_exactly_the_target sixStore ⟨sixTree, []⟩ 0
    ⟨sixTree, TreeIntCompare⟩ false (rec 2) 4 _ _ rfl rfl rfl⟩

/-! ## C3 -/

/-- C3.  Replacement insertion does not keep the tree balanced.  Adding 1, 2, 3, 4, 5, 6 to an
empty integer store gives the red-black index `sixTree`, in which the node 3 is black below the
red node 4.  Adding a record with the key 3 again replaces the record of that node (the old
record is returned) and then runs the insertion fix-up from it: the root becomes 3 with the red
children 2 and 4, and the paths through the empty inner children of 2 and 4 have one black
node while the others have two, so the index is no longer red-black. -/
theorem C3_replacement_breaks_balance :
    addAll (TreeInitialize TreeIntCompare)
      [(rec 1, 4), (rec 2, 4), (rec 3, 4), (rec 4, 4), (rec 5, 4), (rec 6, 4)] = some sixStore ∧
    RedBlack sixTree ∧
    ∃ aTree1 root, TreeAddByIndex sixStore ⟨7, 3⟩ 4 0 = .done (some (rec 3), aTree1) ∧
      aTree1.index = [⟨root, TreeIntCompare⟩] ∧
      root = .node false ⟨7, 3⟩ 4
        (.node true (rec 2) 4 (.node false (rec 1) 4 .null .null) .null)
        (.node true (rec 4) 4 .null (.node false (rec 5) 4 .null (.node true (rec 6) 4 .null .null))) ∧
      blackCounts root = [2, 2, 1, 1, 2, 2, 2] ∧
      ¬ EqualBlackCount root ∧ ¬ RedBlack root := by
  have hcounts : blackCounts (Node.node false (⟨7, 3⟩ : IntRec) 4
      (.node true (rec 2) 4 (.node false (rec 1) 4 .null .null) .null)
      (.node true (rec 4) 4 .null
        (.node false (rec 5) 4 .null (.node true (rec 6) 4 .null .null)))) =
      [2, 2, 1, 1, 2, 2, 2] := by
    simp [blackCounts]
  refine ⟨rfl, ⟨rfl, by simp [sixTree], (equalBlackCount_iff_balanced _).2 (by simp [sixTree])⟩,
    ⟨[⟨_, TreeIntCompare⟩], 6, 24, true, false⟩,
    .node false ⟨7, 3⟩ 4 (.node true (rec 2) 4 (.node false (rec 1) 4 .null .null) .null)
      (.node true (rec 4) 4 .null
        (.node false (rec 5) 4 .null (.node true (rec 6) 4 .null .null))),
    rfl, rfl, rfl, hcounts, ?_, ?_⟩
  · intro h
    have := h 2 (by rw [hcounts]; simp) 1 (by rw [hcounts]; simp)
    omega
  · intro h
    have := h.equalBlackCount 2 (by rw [hcounts]; simp) 1 (by rw [hcounts]; simp)
    omega

/-! ## The walk with `TreeNextElementIndex` -/

theorem nodeLocs_ne_nil (r : Bool) (c : α) (s : Int) (lt rt : Node α) (path : List (Frame α)) :
    nodeLocs (.node r c s lt rt) path ≠ [] := by
  simp [nodeLocs]

/-- The first pointer of the in-order list of a subtree is its left-most node. -/
theorem nodeLocs_head : ∀ (n : Node α) (path : List (Frame α)), n.isNull = false →
    ∃ rest, nodeLocs n path = TreeMinimum.descend n path :: rest := by
  intro n
  induction n with
  | null => intro path h; cases h
  | node r c s lt rt ihl _ =>
    intro path _
    cases lt with
    | null => exact ⟨_, rfl⟩
    | node r' c' s' lt' rt' =>
      obtain ⟨rest, h⟩ := ihl (⟨false, r, c, s, rt⟩ :: path) rfl
      refine ⟨rest ++ ⟨.node r c s (.node r' c' s' lt' rt') rt, path⟩ ::
        nodeLocs rt (⟨true, r, c, s, .node r' c' s' lt' rt'⟩ :: path), ?_⟩
      rw [nodeLocs, h]
      rfl

theorem linked_append : ∀ (A : List (Loc α)) (b : Loc α) (B : List (Loc α)) (e : Ptr α),
    Linked A (some b) → Linked (b :: B) e → Linked (A ++ b :: B) e := by
  intro A
  induction A with
  | nil => intro b B e _ h; exact h
  | cons x A ih =>
    intro b B e h1 h2
    cases A with
    | nil => exact ⟨h1, h2⟩
    | cons y A => exact ⟨h1.1, ih b B e h1.2 h2⟩

/-- In the in-order list of the pointers of a subtree every pointer has the next one as its
`TreeSuccessor`; the last one has the node above the subtree from which the subtree lies to
the left, or `NULL`. -/
theorem linked_nodeLocs : ∀ (n : Node α) (path : List (Frame α)),
    Linked (nodeLocs n path) (TreeSuccessor.climb n path) := by
  intro n
  induction n with
  | null => intro path; trivial
  | node r c s lt rt ihl ihr =>
    intro path
    have hl := ihl (⟨false, r, c, s, rt⟩ :: path)
    have hr := ihr (⟨true, r, c, s, lt⟩ :: path)
    simp only [TreeSuccessor.climb, Bool.false_eq_true, ↓reduceIte, plug_false, plug_true] at hl hr
    rw [nodeLocs]
    apply linked_append _ _ _ _ hl
    cases rt with
    | null => exact rfl
    | node r' c' s' lt' rt' =>
      obtain ⟨rest, h⟩ := nodeLocs_head (.node r' c' s' lt' rt') (⟨true, r, c, s, lt⟩ :: path) rfl
      rw [h] at hr ⊢
      exact ⟨rfl, hr⟩

theorem linked_getElem? : ∀ (L : List (Loc α)), Linked L none →
    ∀ (i : Nat) (x : Loc α), L[i]? = some x → TreeSuccessor x = L[i + 1]? := by
  intro L
  induction L with
  | nil => intro _ i x h; cases h
  | cons a L ih =>
    intro hl i x h
    cases L with
    | nil =>
      cases i with
      | zero => simp at h; subst h; exact hl
      | succ i => simp at h
    | cons b L =>
      cases i with
      | zero => simp at h; subst h; simpa using hl.1
      | succ i => simpa using ih hl.2 i x (by simpa using h)

theorem nodeLocs_length : ∀ (n : Node α) (path : List (Frame α)),
    (nodeLocs n path).length = nodeCount n := by
  intro n
  induction n with
  | null => intro path; rfl
  | node r c s lt rt ihl ihr => intro path; simp [nodeLocs, nodeCount, ihl, ihr]; omega

theorem nodeLocs_content : ∀ (n : Node α) (path : List (Frame α)),
    (nodeLocs n path).map Loc.content? = (inorder n).map fun x => some x.1 := by
  intro n
  induction n with
  | null => intro path; rfl
  | node r c s lt rt ihl ihr => intro path; simp [nodeLocs, ihl, ihr, Loc.content?]

theorem nodeLocs_root : ∀ (n : Node α) (path : List (Frame α)),
    ∀ l ∈ nodeLocs n path, l.root = zip n path := by
  intro n
  induction n with
  | null => intro path l h; cases h
  | node r c s lt rt ihl ihr =>
    intro path l h
    simp only [nodeLocs, List.mem_append, List.mem_cons] at h
    rcases h with h | h | h
    · exact ihl _ l h
    · subst h; rfl
    · exact ihr _ l h

/-- The `k+1`-th call of the walk returns the `k`-th pointer of the in-order list, and `NULL`
after the last one. -/
theorem nextCalls_nodeLocs (aTree : Tree α) (index : Nat) (ix : Index α)
    (hix : aTree.index[index]? = some ix) : ∀ k, k ≤ nodeCount ix.root →
    nextCalls aTree index (k + 1) = .done (nodeLocs ix.root [])[k]? := by
  intro k
  induction k with
  | zero =>
    intro _
    simp only [nextCalls, TreeNextElementIndex, hix]
    cases hroot : ix.root with
    | null => rfl
    | node r c s lt rt =>
      obtain ⟨rest, h⟩ := nodeLocs_head (.node r c s lt rt) [] rfl
      rw [h]
      simp [TreeMinimum, rootPtr]
  | succ k ih =>
    intro hk
    rw [nextCalls, ih (by omega)]
    have hlt : k < (nodeLocs ix.root []).length := by rw [nodeLocs_length]; omega
    rw [List.getElem?_eq_getElem hlt]
    simp only [TreeNextElementIndex]
    rw [linked_getElem? _ (linked_nodeLocs ix.root []) k _ (List.getElem?_eq_getElem hlt)]

/-! ## C10 -/

/-- C10.  Traversal enumerates the index in order and ends.  Let `nodeLocs ix.root []` be the
pointers to the nodes of `index[index]` in in-order: there are as many as nodes, their records
are the in-order sequence of records, the first is the left-most node, and each has the next
one as its `TreeSuccessor`.  Starting from a null cursor and handing each result to the next
call, the `k+1`-th call of `TreeNextElementIndex` returns the `k`-th of these pointers, and the
call after the last node (the first call on an empty index) returns `NULL`.  With the integer
comparator and the inserts 2, 1, 3 the walk yields 1, 2, 3 and ends. -/
theorem C10_traversal_in_order (aTree : Tree α) (index : Nat) (ix : Index α)
    (hix : aTree.index[index]? = some ix) :
    (nodeLocs ix.root []).length = nodeCount ix.root ∧
    (nodeLocs ix.root []).map Loc.content? = (inorder ix.root).map (fun x => some x.1) ∧
    (∀ l ∈ nodeLocs ix.root [], l.root = ix.root) ∧
    (nodeLocs ix.root [])[0]? = TreeMinimum (rootPtr ix.root) ∧
    Linked (nodeLocs ix.root []) none ∧
    (∀ k, k ≤ nodeCount ix.root →
      nextCalls aTree index (k + 1) = .done (nodeLocs ix.root [])[k]?) ∧
    nextCalls aTree index (nodeCount ix.root + 1) = .done none ∧
    (ix.root = .null → nextCalls aTree index 1 = .done none) ∧
    ∃ t l1 l2 l3, addAll (TreeInitialize TreeIntCompare) [(rec 2, 4), (rec 1, 4), (rec 3, 4)] =
        some t ∧
      nextCalls t 0 1 = .done (some l1) ∧ l1.content? = some (rec 1) ∧
      nextCalls t 0 2 = .done (some l2) ∧ l2.content? = some (rec 2) ∧
      nextCalls t 0 3 = .done (some l3) ∧ l3.content? = some (rec 3) ∧
      nextCalls t 0 4 = .done none := by
  have hcalls := nextCalls_nodeLocs aTree index ix hix
  have hlen := nodeLocs_length ix.root []
  refine ⟨hlen, nodeLocs_content ix.root [], nodeLocs_root ix.root [], ?_,
    linked_nodeLocs ix.root [], hcalls, ?_, ?_, ?_⟩
  · cases hroot : ix.root with
    | null => rfl
    | node r c s lt rt =>
      obtain ⟨rest, h⟩ := nodeLocs_head (.node r c s lt rt) [] rfl
      rw [h]
      simp [TreeMinimum, rootPtr]
  · rw [hcalls _ (Nat.le_refl _), List.getElem?_eq_none (by omega)]
  · intro hnull
    rw [hcalls 0 (Nat.zero_le _), hnull]
    rfl
  · exact ⟨_, _, _, _, rfl, rfl, rfl, rfl, rfl, rfl, rfl, rfl⟩

theorem C10_traversal_in_order_witness :
    sixStore.index[0]? = some ⟨sixTree, TreeIntCompare⟩ ∧
    (nodeLocs sixTree []).length = nodeCount sixTree ∧
    (nodeLocs sixTree []).map Loc.content? = (inorder sixTree).map (fun x => some x.1) ∧
    (∀ l ∈ nodeLocs sixTree [], l.root = sixTree) ∧
    (nodeLocs sixTree [])[0]? = TreeMinimum (rootPtr sixTree) ∧
    Linked (nodeLocs sixTree []) none ∧
    (∀ k, k ≤ nodeCount sixTree →
      nextCalls sixStore 0 (k + 1) = .done (nodeLocs sixTree [])[k]?) ∧
    nextCalls sixStore 0 (nodeCount sixTree + 1) = .done none ∧
    (sixTree = .null → nextCalls sixStore 0 1 = .done none) ∧
    ∃ t l1 l2 l3, addAll (TreeInitialize TreeIntCompare) [(rec 2, 4), (rec 1, 4), (rec 3, 4)] =
        some t ∧
      nextCalls t 0 1 = .done (some l1) ∧ l1.content? = some (rec 1) ∧
      nextCalls t 0 2 = .done (some l2) ∧ l2.content? = some (rec 2) ∧
      nextCalls t 0 3 = .done (some l3) ∧ l3.content? = some (rec 3) ∧
      nextCalls t 0 4 = .done none :=
  ⟨rfl, C10_traversal_in_order sixStore 0 ⟨sixTree, TreeIntCompare⟩ rfl⟩

/-! ## Total orders -/

theorem TotalOrder.le_of_not_lt {compare : α → α → Int → Int} {m : Int}
    (h : TotalOrder compare m) (a b : α) (hab : ¬ 0 < compare a b m) : 0 ≤ compare b a m := by
  have := (h.antisymm a b).not.1 hab
  omega

theorem TotalOrder.lt_of_le_of_lt {compare : α → α → Int → Int} {m : Int}
    (h : TotalOrder compare m) (a b c : α) (hab : 0 ≤ compare a b m)
    (hbc : 0 < compare b c m) : 0 < compare a c m := by
  by_contra hac
  have h1 := h.trans c a b (h.le_of_not_lt a c hac) hab
  have h2 := (h.antisymm b c).1 hbc
  omega

theorem TotalOrder.lt_of_lt_of_le {compare : α → α → Int → Int} {m : Int}
    (h : TotalOrder compare m) (a b c : α) (hab : 0 < compare a b m)
    (hbc : 0 ≤ compare b c m) : 0 < compare a c m := by
  by_contra hac
  have h1 := h.trans b c a hbc (h.le_of_not_lt a c hac)
  have h2 := (h.antisymm a b).1 hab
  omega

theorem TotalOrder.symm_zero {compare : α → α → Int → Int} {m : Int}
    (h : TotalOrder compare m) (a b : α) (hab : compare a b m = 0) : compare b a m = 0 := by
  have h1 := (h.antisymm a b).not
  have h2 := (h.antisymm b a).not
  omega

theorem TotalOrder.refl_zero {compare : α → α → Int → Int} {m : Int}
    (h : TotalOrder compare m) (a : α) : compare a a m = 0 := by
  have h1 := h.antisymm a a
  omega

theorem TotalOrder.zero_trans {compare : α → α → Int → Int} {m : Int}
    (h : TotalOrder compare m) (a b c : α) (hab : compare a b m = 0)
    (hbc : compare b c m = 0) : compare a c m = 0 := by
  have h1 := h.trans a b c (by omega) (by omega)
  have h2 := h.trans c b a (by rw [h.symm_zero b c hbc]) (by rw [h.symm_zero a b hab])
  have h3 := (h.antisymm a c)
  omega

theorem TotalOrder.lt_of_lt_of_zero {compare : α → α → Int → Int} {m : Int}
    (h : TotalOrder compare m) (a b c : α) (hab : 0 < compare a b m)
    (hbc : compare b c m = 0) : 0 < compare a c m :=
  h.lt_of_lt_of_le a b c hab (by omega)

theorem TotalOrder.lt_of_zero_of_lt {compare : α → α → Int → Int} {m : Int}
    (h : TotalOrder compare m) (a b c : α) (hab : compare a b m = 0)
    (hbc : 0 < compare b c m) : 0 < compare a c m :=
  h.lt_of_le_of_lt a b c (by omega) hbc

theorem TotalOrder.ne_of_lt {compare : α → α → Int → Int} {m : Int}
    (h : TotalOrder compare m) (a b : α) (hab : 0 < compare a b m) : compare b a m ≠ 0 := by
  have := (h.antisymm a b).1 hab
  omega

theorem totalOrder_TreeIntCompare (m : Int) : TotalOrder TreeIntCompare m := by
  constructor
  · intro a b
    simp only [TreeIntCompare]
    split_ifs <;> omega
  · intro a b c h1 h2
    simp only [TreeIntCompare] at h1 h2 ⊢
    split_ifs at h1 h2 ⊢ <;> omega

theorem TreeIntCompare_nonneg (a b : IntRec) (m : Int) :
    0 ≤ TreeIntCompare a b m ↔ a.val ≤ b.val := by
  simp only [TreeIntCompare]
  split_ifs <;> omega

theorem TreeIntCompare_pos (a b : IntRec) (m : Int) :
    0 < TreeIntCompare a b m ↔ a.val < b.val := by
  simp only [TreeIntCompare]
  split_ifs <;> omega

theorem TreeIntCompare_zero (a b : IntRec) (m : Int) :
    TreeIntCompare a b m = 0 ↔ a.val = b.val := by
  simp only [TreeIntCompare]
  split_ifs with h1 h2
  · simp; omega
  · simp [h2]
  · simp [h2]

/-! ## `TreeFindIndex1` on an ordered index -/

/-- The search of `TreeFindIndex1` stays in the tree, and a node it returns compares zero with
the key. -/
theorem find_search_sound (compare : α → α → Int → Int) (key : α) (m : Int) :
    ∀ (n : Node α) (path : List (Frame α)) (loc : Loc α),
      TreeFindIndex1.search compare key m n path = some loc →
      ∃ r c s lt rt, loc.focus = .node r c s lt rt ∧ compare c key m = 0 ∧
        loc.root = zip n path ∧
        ∃ a b, inorder n = a ++ (c, s) :: b ∧
          pathBefore loc.path ++ inorder lt = pathBefore path ++ a ∧
          inorder rt ++ pathAfter loc.path = b ++ pathAfter path := by
  intro n
  induction n with
  | null => intro path loc h; cases h
  | node r c s lt rt ihl ihr =>
    intro path loc h
    simp only [TreeFindIndex1.search] at h
    split at h
    · rename_i h0
      cases h
      exact ⟨r, c, s, lt, rt, rfl, h0, rfl, inorder lt, inorder rt, rfl, rfl, rfl⟩
    · split at h
      · obtain ⟨r', c', s', lt', rt', k1, k2, k3, a, b, k4, k5, k6⟩ := ihr _ loc h
        refine ⟨r', c', s', lt', rt', k1, k2, k3, inorder lt ++ (c, s) :: a, b, ?_, ?_, ?_⟩
        · simp [k4]
        · rw [k5]; simp
        · rw [k6]; simp
      · obtain ⟨r', c', s', lt', rt', k1, k2, k3, a, b, k4, k5, k6⟩ := ihl _ loc h
        refine ⟨r', c', s', lt', rt', k1, k2, k3, a, b ++ (c, s) :: inorder rt, ?_, ?_, ?_⟩
        · simp [k4]
        · rw [k5]; simp
        · rw [k6]; simp

/-- On a subtree whose in-order sequence is non-decreasing, the search of `TreeFindIndex1`
returns `NULL` only if no record compares zero with the key. -/
theorem find_search_complete (compare : α → α → Int → Int) (key : α) (m : Int)
    (htot : TotalOrder compare m) :
    ∀ (n : Node α) (path : List (Frame α)), Ordered compare m n →
      TreeFindIndex1.search compare key m n path = none →
      ∀ x ∈ inorder n, compare x.1 key m ≠ 0 := by
  intro n
  induction n with
  | null => intro path _ _ x hx; cases hx
  | node r c s lt rt ihl ihr =>
    intro path hord h x hx
    simp only [Ordered, inorder_node, List.pairwise_append, List.pairwise_cons,
      List.mem_cons] at hord
    obtain ⟨hl, ⟨hcr, hr⟩, hlr⟩ := hord
    simp only [TreeFindIndex1.search] at h
    split at h
    · cases h
    · rename_i h0
      simp only [inorder_node, List.mem_append, List.mem_cons] at hx
      split at h
      · rename_i hpos
        rcases hx with hx | hx | hx
        · have := htot.lt_of_le_of_lt x.1 c key (hlr x hx (c, s) (Or.inl rfl)) hpos
          omega
        · subst hx; exact h0
        · exact ihr _ hr h x hx
      · rename_i hneg
        have hlt : 0 < compare key c m := (htot.antisymm key c).2 (by omega)
        rcases hx with hx | hx | hx
        · exact ihl _ hl h x hx
        · subst hx; exact h0
        · exact htot.ne_of_lt key x.1 (htot.lt_of_lt_of_le key c x.1 hlt (hcr x hx))

/-! ## `TreeAddByIndex` through the in-order sequence -/

/-- Where the search of `TreeAddByIndex` stops: at an empty position, the records of the
subtree being split into those before (`a`) and those after (`b`) the position, or at a node
whose record compares zero with `content`, with the records before and after that node.  When
the subtree is strictly increasing under a total order, the records of `a` are smaller and
those of `b` greater than `content`. -/
theorem add_search_spec (compare : α → α → Int → Int) (content : α) :
    ∀ (n : Node α) (path : List (Frame α)),
      ∃ focus path1 a b, TreeAddByIndex.search compare content n path = ⟨focus, path1⟩ ∧
        ((focus = .null ∧ inorder n = a ++ b ∧ pathBefore path1 = pathBefore path ++ a ∧
            pathAfter path1 = b ++ pathAfter path) ∨
         (∃ r c0 s0 lt rt, focus = .node r c0 s0 lt rt ∧ compare c0 content 1 = 0 ∧
            inorder n = a ++ (c0, s0) :: b ∧
            pathBefore path1 ++ inorder lt = pathBefore path ++ a ∧
            inorder rt ++ pathAfter path1 = b ++ pathAfter path)) ∧
        (TotalOrder compare 1 → StrictlyOrdered compare 1 n →
          (∀ x ∈ a, 0 < compare x.1 content 1) ∧ (∀ y ∈ b, 0 < compare content y.1 1)) := by
  intro n
  induction n with
  | null =>
    intro path
    exact ⟨.null, path, [], [], rfl, Or.inl ⟨rfl, rfl, by simp, by simp⟩,
      fun _ _ => ⟨by simp, by simp⟩⟩
  | node r c s lt rt ihl ihr =>
    intro path
    simp only [TreeAddByIndex.search]
    split
    · rename_i h0
      refine ⟨_, _, inorder lt, inorder rt, rfl,
        Or.inr ⟨r, c, s, lt, rt, rfl, h0, rfl, rfl, rfl⟩, ?_⟩
      intro htot hord
      simp only [StrictlyOrdered, inorder_node, List.pairwise_append, List.pairwise_cons,
        List.mem_cons] at hord
      obtain ⟨_, ⟨hcr, _⟩, hlr⟩ := hord
      exact ⟨fun x hx => htot.lt_of_lt_of_zero _ _ _ (hlr x hx (c, s) (Or.inl rfl)) h0,
        fun y hy => htot.lt_of_zero_of_lt _ _ _ (htot.symm_zero _ _ h0) (hcr y hy)⟩
    · rename_i h0
      split
      · rename_i hpos
        obtain ⟨focus, path1, a, b, k1, k2, k3⟩ := ihr (⟨true, r, c, s, lt⟩ :: path)
        refine ⟨focus, path1, inorder lt ++ (c, s) :: a, b, k1, ?_, ?_⟩
        · rcases k2 with ⟨e1, e2, e3, e4⟩ | ⟨r', c0, s0, lt', rt', e1, e2, e3, e4, e5⟩
          · exact Or.inl ⟨e1, by simp [e2], by rw [e3]; simp, by rw [e4]; simp⟩
          · exact Or.inr ⟨r', c0, s0, lt', rt', e1, e2, by simp [e3], by rw [e4]; simp,
              by rw [e5]; simp⟩
        · intro htot hord
          simp only [StrictlyOrdered, inorder_node, List.pairwise_append, List.pairwise_cons,
            List.mem_cons] at hord
          obtain ⟨_, ⟨_, hr⟩, hlr⟩ := hord
          obtain ⟨ka, kb⟩ := k3 htot hr
          refine ⟨?_, kb⟩
          intro x hx
          simp only [List.mem_append, List.mem_cons] at hx
          rcases hx with hx | hx | hx
          · exact htot.lt_of_lt_of_le _ _ _ (hlr x hx (c, s) (Or.inl rfl)) (Int.le_of_lt hpos)
          · subst hx; exact hpos
          · exact ka x hx
      · rename_i hneg
        obtain ⟨focus, path1, a, b, k1, k2, k3⟩ := ihl (⟨false, r, c, s, rt⟩ :: path)
        refine ⟨focus, path1, a, b ++ (c, s) :: inorder rt, k1, ?_, ?_⟩
        · rcases k2 with ⟨e1, e2, e3, e4⟩ | ⟨r', c0, s0, lt', rt', e1, e2, e3, e4, e5⟩
          · exact Or.inl ⟨e1, by simp [e2], by rw [e3]; simp, by rw [e4]; simp⟩
          · exact Or.inr ⟨r', c0, s0, lt', rt', e1, e2, by simp [e3], by rw [e4]; simp,
              by rw [e5]; simp⟩
        · intro htot hord
          simp only [StrictlyOrdered, inorder_node, List.pairwise_append, List.pairwise_cons,
            List.mem_cons] at hord
          obtain ⟨hl, ⟨hcr, _⟩, _⟩ := hord
          obtain ⟨ka, kb⟩ := k3 htot hl
          have hlt : 0 < compare content c 1 := (htot.antisymm content c).2 (by omega)
          refine ⟨ka, ?_⟩
          intro y hy
          simp only [List.mem_append, List.mem_cons] at hy
          rcases hy with hy | hy | hy
          · exact kb y hy
          · subst hy; exact hlt
          · exact htot.lt_of_lt_of_le _ _ _ hlt (Int.le_of_lt (hcr y hy))

/-- What `TreeAddByIndex` does, through the in-order sequence of the index (duplicates
disallowed): the call returns; the new sequence is `a ++ (content, size) :: b`, where the old
one was `a ++ b` (nothing replaced, `NULL` returned, `count` and `size` grown for index 0) or
`a ++ (c0, s0) :: b` with `c0` comparing zero with `content` (`c0` returned, `count` kept,
`size` moved by `size - s0` for index 0); the other indices and the flags are untouched. -/
theorem TreeAddByIndex_spec (aTree : Tree α) (content : α) (size : Int) (index : Nat)
    (ix : Index α) (hix : aTree.index[index]? = some ix)
    (hdup : aTree.allow_duplicates = false) :
    ∃ rc aTree1 root1 a b, TreeAddByIndex aTree content size index = .done (rc, aTree1) ∧
      aTree1.index[index]? = some { ix with root := root1 } ∧
      (∀ j, j ≠ index → aTree1.index[j]? = aTree.index[j]?) ∧
      aTree1.index.length = aTree.index.length ∧
      aTree1.allow_duplicates = false ∧
      inorder root1 = a ++ (content, size) :: b ∧
      ((rc = none ∧ inorder ix.root = a ++ b ∧
          aTree1.count = (if index = 0 then aTree.count + 1 else aTree.count) ∧
          aTree1.size = (if index = 0 then aTree.size + size else aTree.size)) ∨
       (∃ c0 s0, rc = some c0 ∧ ix.compare c0 content 1 = 0 ∧
          inorder ix.root = a ++ (c0, s0) :: b ∧ aTree1.count = aTree.count ∧
          aTree1.size = (if index = 0 then aTree.size + (size - s0) else aTree.size))) ∧
      (TotalOrder ix.compare 1 → StrictlyOrdered ix.compare 1 ix.root →
        (∀ x ∈ a, 0 < ix.compare x.1 content 1) ∧ (∀ y ∈ b, 0 < ix.compare content y.1 1)) := by
  obtain ⟨focus, path1, a, b, k1, k2, k3⟩ := add_search_spec ix.compare content ix.root []
  simp only [pathBefore_nil, pathAfter_nil, List.nil_append, List.append_nil] at k2
  rcases k2 with ⟨e1, e2, e3, e4⟩ | ⟨r', c0, s0, lt', rt', e1, e2, e3, e4, e5⟩
  · subst e1
    obtain ⟨root, h1, h2⟩ :=
      TreeBalanceAfterAdd_total ⟨.node true content size .null .null, path1⟩ rfl
    refine ⟨none,
      (if index = 0 then { aTree with count := aTree.count + 1, size := aTree.size + size }
        else aTree).setRoot index root, root, a, b, ?_,
      setRootAt_getElem? root index _ ix ?_, ?_, ?_, ?_, ?_, Or.inl ⟨rfl, e2, ?_, ?_⟩, k3⟩
    · simp only [TreeAddByIndex, hix, k1, h1]
    · split <;> exact hix
    · intro j hj
      by_cases h0 : index = 0 <;>
        simpa [h0, Tree.setRoot] using setRootAt_getElem?_ne root index j _ (Ne.symm hj)
    · by_cases h0 : index = 0 <;> simp [h0, Tree.setRoot, setRootAt_length]
    · by_cases h0 : index = 0 <;> simp [h0, Tree.setRoot, hdup]
    · rw [h2, root_mk, inorder_zip, e3, e4]; simp
    · by_cases h0 : index = 0 <;> simp [h0, Tree.setRoot]
    · by_cases h0 : index = 0 <;> simp [h0, Tree.setRoot]
  · subst e1
    obtain ⟨root, h1, h2⟩ :=
      TreeBalanceAfterAdd_total ⟨.node r' content size lt' rt', path1⟩ rfl
    refine ⟨some c0, (if index = 0 then { aTree with size := aTree.size + (size - s0) }
        else aTree).setRoot index root, root, a, b, ?_,
      setRootAt_getElem? root index _ ix ?_, ?_, ?_, ?_, ?_,
      Or.inr ⟨c0, s0, rfl, e2, e3, ?_, ?_⟩, k3⟩
    · simp only [TreeAddByIndex, hix, k1, h1, hdup, Bool.false_eq_true, ↓reduceIte]
    · split <;> exact hix
    · intro j hj
      by_cases h0 : index = 0 <;>
        simpa [h0, Tree.setRoot] using setRootAt_getElem?_ne root index j _ (Ne.symm hj)
    · by_cases h0 : index = 0 <;> simp [h0, Tree.setRoot, setRootAt_length]
    · by_cases h0 : index = 0 <;> simp [h0, Tree.setRoot, hdup]
    · rw [h2, root_mk, inorder_zip]
      simp only [inorder_node]
      rw [← List.append_assoc, e4, List.append_assoc, List.cons_append, e5]
    · by_cases h0 : index = 0 <;> simp [h0, Tree.setRoot]
    · by_cases h0 : index = 0 <;> simp [h0, Tree.setRoot]

/-! ## The calls on a store with one index -/

theorem index_eq_singleton (l : List (Index α)) (ix : Index α) (h0 : l[0]? = some ix)
    (hlen : l.length = 1) : l = [ix] := by
  match l, hlen with
  | [a], _ => simp at h0; rw [h0]

theorem TreeAdd_single (aTree : Tree α) (content : α) (size : Int)
    (h : aTree.index.length = 1) :
    TreeAdd aTree content size = TreeAddByIndex aTree content size 0 := by
  simp only [TreeAdd, h, TreeAdd.loop]
  cases TreeAddByIndex aTree content size 0 <;> rfl

theorem TreeRemove_single (aTree : Tree α) (content : α) (h : aTree.index.length = 1) :
    TreeRemove aTree content = TreeRemoveIndex aTree content 0 := by
  simp only [TreeRemove, h, TreeRemove.loop]
  cases TreeRemoveIndex aTree content 0 <;> rfl

/-- One `TreeAdd` on a store with one index: the call returns; the in-order sequence becomes
`a ++ (content, size) :: b`, where it was `a ++ b` and `NULL` is returned, or it was
`a ++ (c0, s0) :: b` with `c0` comparing zero with `content` and `c0` is returned; the
bookkeeping follows.  Under a total order, on a strictly increasing sequence, `a` is below and
`b` above `content`. -/
theorem add_step (aTree : Tree α) (compare : α → α → Int → Int) (l : List (α × Int))
    (content : α) (size : Int) (h : StoreOK aTree compare l) :
    ∃ rc aTree1 a b, TreeAdd aTree content size = .done (rc, aTree1) ∧
      StoreOK aTree1 compare (a ++ (content, size) :: b) ∧
      ((rc = none ∧ l = a ++ b) ∨
       (∃ c0 s0, rc = some c0 ∧ compare c0 content 1 = 0 ∧ l = a ++ (c0, s0) :: b)) ∧
      (TotalOrder compare 1 → l.Pairwise (fun x y => 0 < compare x.1 y.1 1) →
        (∀ x ∈ a, 0 < compare x.1 content 1) ∧ (∀ y ∈ b, 0 < compare content y.1 1)) := by
  obtain ⟨root, h1, h2, h3, h4, h5⟩ := h
  obtain ⟨rc, aTree1, root1, a, b, k1, k2, _, k4, k5, k6, k7, k8⟩ :=
    TreeAddByIndex_spec aTree content size 0 ⟨root, compare⟩ (by rw [h1]; rfl) h2
  refine ⟨rc, aTree1, a, b, ?_, ⟨root1, index_eq_singleton _ _ k2 (by rw [k4, h1]; rfl), k5, k6,
    ?_, ?_⟩, ?_, ?_⟩
  · rw [TreeAdd_single aTree content size (by rw [h1]; rfl)]
    exact k1
  · rcases k7 with ⟨_, e2, e3, _⟩ | ⟨c0, s0, _, _, e3, e4, _⟩
    · rw [e3, h4, ← h3, e2]; simp; omega
    · rw [e4, h4, ← h3, e3]; simp
  · rcases k7 with ⟨_, e2, _, e4⟩ | ⟨c0, s0, _, _, e3, _, e5⟩
    · rw [e4, h5, ← h3, e2]; simp; omega
    · rw [e5, h5, ← h3, e3]; simp; omega
  · rcases k7 with ⟨e1, e2, _, _⟩ | ⟨c0, s0, e1, e2, e3, _, _⟩
    · exact Or.inl ⟨e1, by rw [← h3, e2]⟩
    · exact Or.inr ⟨c0, s0, e1, e2, by rw [← h3, e3]⟩
  · intro htot hord
    exact k8 htot (by rw [StrictlyOrdered, h3]; exact hord)

/-- What `TreeFindIndex1` returns on a store with one index: `NULL`, and then (under a total
order, on a non-decreasing sequence) no record compares zero with the key; or a node of the
index whose record compares zero with the key, with the records before and after it. -/
theorem find_step (aTree : Tree α) (compare : α → α → Int → Int) (l : List (α × Int))
    (key : α) (m : Int) (h : StoreOK aTree compare l) :
    (TreeFindIndex1 aTree key 0 m = .done none ∧
      (TotalOrder compare m → l.Pairwise (fun x y => 0 ≤ compare x.1 y.1 m) →
        ∀ x ∈ l, compare x.1 key m ≠ 0)) ∨
    (∃ loc r c0 s0 lt rt, TreeFindIndex1 aTree key 0 m = .done (some loc) ∧
      loc.focus = .node r c0 s0 lt rt ∧ compare c0 key m = 0 ∧
      aTree.index = [⟨loc.root, compare⟩] ∧
      l = (pathBefore loc.path ++ inorder lt) ++ (c0, s0) :: (inorder rt ++ pathAfter loc.path)) := by
  obtain ⟨root, h1, h2, h3, h4, h5⟩ := h
  simp only [TreeFindIndex1, h1, List.getElem?_cons_zero]
  cases hs : TreeFindIndex1.search compare key m root [] with
  | none =>
    refine Or.inl ⟨rfl, ?_⟩
    intro htot hord
    rw [← h3]
    exact find_search_complete compare key m htot root [] (by rw [Ordered, h3]; exact hord) hs
  | some loc =>
    obtain ⟨r, c0, s0, lt, rt, k1, k2, k3, a, b, k4, k5, k6⟩ :=
      find_search_sound compare key m root [] loc hs
    refine Or.inr ⟨loc, r, c0, s0, lt, rt, rfl, k1, k2, by rw [k3]; rfl, ?_⟩
    rw [k5, k6, ← h3, k4]
    simp

/-- Removing the node found keeps the store in order with its entry taken out of the
sequence. -/
theorem removeNode_step (aTree : Tree α) (compare : α → α → Int → Int) (loc : Loc α)
    (r : Bool) (c0 : α) (s0 : Int) (lt rt : Node α)
    (h1 : aTree.index = [⟨loc.root, compare⟩]) (h2 : aTree.allow_duplicates = false)
    (h4 : aTree.count = (inorder loc.root).length)
    (h5 : aTree.size = ((inorder loc.root).map Prod.snd).sum)
    (hf : loc.focus = .node r c0 s0 lt rt) :
    ∃ aTree1, TreeRemoveNodeIndex aTree loc 0 = .done (c0, aTree1) ∧
      aTree1.index.length = 1 ∧
      StoreOK aTree1 compare
        ((pathBefore loc.path ++ inorder lt) ++ (inorder rt ++ pathAfter loc.path)) := by
  obtain ⟨focus, path⟩ := loc
  simp only at hf
  subst hf
  obtain ⟨root1, k1, k2⟩ := unlink_total r c0 s0 lt rt path
  obtain ⟨aTree1, e1, e2, _, e4, e5, e6, e7⟩ :=
    TreeRemoveNodeIndex_done aTree _ 0 ⟨_, compare⟩ c0 s0 root1 (by rw [h1]; rfl) k1
  have hlen : aTree1.index.length = 1 := by rw [e4, h1]; rfl
  refine ⟨aTree1, e1, hlen, root1, index_eq_singleton _ _ e2 hlen, by rw [e5, h2], k2, ?_, ?_⟩
  · rw [e6, h4, root_mk, inorder_zip]
    simp; omega
  · rw [e7, h5, root_mk, inorder_zip]
    simp; omega

/-- One `TreeRemove` on a store with one index: nothing is found and the store is returned as
it was, or the entry of a record comparing zero with the key is taken out of the sequence and
that record is returned. -/
theorem remove_step (aTree : Tree α) (compare : α → α → Int → Int) (l : List (α × Int))
    (key : α) (h : StoreOK aTree compare l) :
    (TreeRemove aTree key = .done (none, aTree) ∧
      (TotalOrder compare 1 → l.Pairwise (fun x y => 0 ≤ compare x.1 y.1 1) →
        ∀ x ∈ l, compare x.1 key 1 ≠ 0)) ∨
    (∃ c0 s0 a b aTree1, compare c0 key 1 = 0 ∧ l = a ++ (c0, s0) :: b ∧
      TreeRemove aTree key = .done (some c0, aTree1) ∧ StoreOK aTree1 compare (a ++ b)) := by
  have hlen : aTree.index.length = 1 := by
    obtain ⟨root, h1, _⟩ := h
    rw [h1]; rfl
  rw [TreeRemove_single aTree key hlen]
  rcases find_step aTree compare l key 1 h with ⟨k1, k2⟩ | ⟨loc, r, c0, s0, lt, rt, k1, k2, k3, k4, k5⟩
  · exact Or.inl ⟨by simp only [TreeRemoveIndex, TreeFindContentIndex, k1], k2⟩
  · obtain ⟨root, h1, h2, h3, h4, h5⟩ := h
    have hroot : root = loc.root := by
      rw [h1] at k4
      simpa using k4
    subst hroot
    obtain ⟨aTree1, e1, _, e2⟩ := removeNode_step aTree compare loc r c0 s0 lt rt h1 h2
      (by rw [h4, h3]) (by rw [h5, h3]) k2
    exact Or.inr ⟨c0, s0, _, _, aTree1, k3, k5,
      by simp only [TreeRemoveIndex, TreeFindContentIndex, k1, e1], e2⟩

/-- One `TreeRemoveKey` on a store with one index: as `TreeRemove`, the search being made in
key mode. -/
theorem removeKey_step (aTree : Tree α) (compare : α → α → Int → Int) (l : List (α × Int))
    (key : α) (h : StoreOK aTree compare l) :
    (TreeRemoveKey aTree key = .done (none, aTree)) ∨
    (∃ c0 s0 a b aTree1, compare c0 key 0 = 0 ∧ l = a ++ (c0, s0) :: b ∧
      TreeRemoveKey aTree key = .done (some c0, aTree1) ∧ StoreOK aTree1 compare (a ++ b)) := by
  rcases find_step aTree compare l key 0 h with ⟨k1, _⟩ | ⟨loc, r, c0, s0, lt, rt, k1, k2, k3, k4, k5⟩
  · exact Or.inl (by simp only [TreeRemoveKey, TreeRemoveKeyIndex, TreeFindIndex, k1])
  · obtain ⟨root, h1, h2, h3, h4, h5⟩ := h
    have hroot : root = loc.root := by
      rw [h1] at k4
      simpa using k4
    subst hroot
    obtain ⟨aTree1, e1, e3, e2⟩ := removeNode_step aTree compare loc r c0 s0 lt rt h1 h2
      (by rw [h4, h3]) (by rw [h5, h3]) k2
    refine Or.inr ⟨c0, s0, _, _, aTree1, k3, k5, ?_, e2⟩
    simp only [TreeRemoveKey, TreeRemoveKeyIndex, TreeFindIndex, k1, e1, e3,
      TreeRemoveKeyIndex.loop, ↓reduceIte]

/-! ## Sequences of calls on a store with one index -/

theorem storeOK_fresh (compare : α → α → Int → Int) :
    StoreOK (TreeInitialize compare) compare [] :=
  ⟨.null, rfl, rfl, rfl, rfl, rfl⟩

/-- Every call on a store with one index returns and leaves such a store, the in-order sequence
changing as `OpRel` says. -/
theorem op_step (aTree : Tree α) (compare : α → α → Int → Int) (l : List (α × Int))
    (op : Op α) (h : StoreOK aTree compare l) :
    ∃ rc aTree1 l1, applyOp aTree op = .done (rc, aTree1) ∧ StoreOK aTree1 compare l1 ∧
      OpRel compare op l l1 := by
  cases op with
  | add content size =>
    obtain ⟨rc, aTree1, a, b, h1, h2, h3, h4⟩ := add_step aTree compare l content size h
    refine ⟨rc, aTree1, _, h1, h2, a, b, rfl, ?_, h4⟩
    rcases h3 with ⟨_, e⟩ | ⟨c0, s0, _, e1, e2⟩
    · exact Or.inl e
    · exact Or.inr ⟨c0, s0, e1, e2⟩
  | remove key =>
    rcases remove_step aTree compare l key h with ⟨h1, _⟩ | ⟨c0, s0, a, b, aTree1, h1, h2, h3, h4⟩
    · exact ⟨none, aTree, l, h1, h, Or.inl rfl⟩
    · exact ⟨some c0, aTree1, a ++ b, h3, h4, Or.inr ⟨c0, s0, a, b, h1, h2, rfl⟩⟩
  | removeKey key =>
    rcases removeKey_step aTree compare l key h with h1 | ⟨c0, s0, a, b, aTree1, h1, h2, h3, h4⟩
    · exact ⟨none, aTree, l, h1, h, Or.inl rfl⟩
    · exact ⟨some c0, aTree1, a ++ b, h3, h4, Or.inr ⟨c0, s0, a, b, h1, h2, rfl⟩⟩

/-- A sequence of calls on a store with one index returns, and a property of the in-order
sequence that every call of the sequence keeps holds at the end. -/
theorem runOps_inv (compare : α → α → Int → Int) (inv : List (α × Int) → Prop) :
    ∀ (ops : List (Op α)) (aTree : Tree α) (l : List (α × Int)),
      (∀ op ∈ ops, ∀ l0 l1, inv l0 → OpRel compare op l0 l1 → inv l1) →
      StoreOK aTree compare l → inv l →
      ∃ aTree1 l1, runOps aTree ops = some aTree1 ∧ StoreOK aTree1 compare l1 ∧ inv l1 := by
  intro ops
  induction ops with
  | nil => intro aTree l _ h hi; exact ⟨aTree, l, rfl, h, hi⟩
  | cons op ops ih =>
    intro aTree l hkeep h hi
    obtain ⟨rc, aTree1, l1, h1, h2, h3⟩ := op_step aTree compare l op h
    obtain ⟨aTree2, l2, k1, k2, k3⟩ := ih aTree1 l1
      (fun op' hop => hkeep op' (List.mem_cons_of_mem _ hop)) h2
      (hkeep op (List.mem_cons_self _ _) l l1 hi h3)
    exact ⟨aTree2, l2, by simp only [runOps, h1, k1], k2, k3⟩

/-- Under a total order every call keeps the in-order sequence strictly increasing. -/
theorem opRel_strict (compare : α → α → Int → Int) (htot : TotalOrder compare 1) (op : Op α)
    (l l1 : List (α × Int)) (hord : l.Pairwise (fun x y => 0 < compare x.1 y.1 1))
    (h : OpRel compare op l l1) : l1.Pairwise (fun x y => 0 < compare x.1 y.1 1) := by
  cases op with
  | add content size =>
    obtain ⟨a, b, e1, e2, e3⟩ := h
    obtain ⟨ka, kb⟩ := e3 htot hord
    subst e1
    have hab : a.Pairwise (fun x y => 0 < compare x.1 y.1 1) ∧
        b.Pairwise (fun x y => 0 < compare x.1 y.1 1) ∧
        ∀ x ∈ a, ∀ y ∈ b, 0 < compare x.1 y.1 1 := by
      rcases e2 with e | ⟨c0, s0, _, e⟩
      · subst e
        exact List.pairwise_append.1 hord
      · subst e
        obtain ⟨p1, p2, p3⟩ := List.pairwise_append.1 hord
        exact ⟨p1, (List.pairwise_cons.1 p2).2, fun x hx y hy =>
          p3 x hx y (List.mem_cons_of_mem _ hy)⟩
    rw [List.pairwise_append]
    refine ⟨hab.1, List.pairwise_cons.2 ⟨kb, hab.2.1⟩, ?_⟩
    intro x hx y hy
    rcases List.mem_cons.1 hy with hy | hy
    · subst hy; exact ka x hx
    · exact hab.2.2 x hx y hy
  | remove key =>
    rcases h with e | ⟨c0, s0, a, b, _, e1, e2⟩
    · subst e; exact hord
    · subst e1 e2
      exact hord.sublist (List.Sublist.append (List.Sublist.refl a) (List.sublist_cons_self _ b))
  | removeKey key =>
    rcases h with e | ⟨c0, s0, a, b, _, e1, e2⟩
    · subst e; exact hord
    · subst e1 e2
      exact hord.sublist (List.Sublist.append (List.Sublist.refl a) (List.sublist_cons_self _ b))

theorem addAll_eq_runOps : ∀ (l : List (α × Int)) (aTree : Tree α),
    addAll aTree l = runOps aTree (l.map fun x => Op.add x.1 x.2) := by
  intro l
  induction l with
  | nil => intro aTree; rfl
  | cons x l ih =>
    intro aTree
    obtain ⟨c, s⟩ := x
    simp only [addAll, List.map_cons, runOps, applyOp]
    cases TreeAdd aTree c s with
    | done v => obtain ⟨rc, t⟩ := v; exact ih t
    | exited _ => rfl
    | undefined => rfl

/-! ## C9 -/

/-- C9.  Bookkeeping invariant: every sequence of `TreeAdd`, `TreeRemove` and `TreeRemoveKey`
calls on the store made by `TreeInitialize` returns, and in the store reached `count` is the
number of nodes of index 0 and `size` the sum of the size hints stored in them.  From such a
store a `TreeAdd` that replaces a record leaves `count` unchanged and moves `size` by the new
size hint minus the one that was stored, and removing any node (also one with two children)
takes one off `count` and the size hint of that node off `size`. -/
theorem C9_bookkeeping (compare : α → α → Int → Int) (ops : List (Op α)) :
    ∃ aTree root, runOps (TreeInitialize compare) ops = some aTree ∧
      aTree.index = [⟨root, compare⟩] ∧
      aTree.count = nodeCount root ∧ aTree.size = sizeSum root ∧
      (∀ content size old aTree1, TreeAdd aTree content size = .done (some old, aTree1) →
        aTree1.count = aTree.count ∧
        ∃ oldSize, (old, oldSize) ∈ inorder root ∧
          aTree1.size = aTree.size + (size - oldSize)) ∧
      (∀ curnode r c s lt rt, curnode.root = root → curnode.focus = .node r c s lt rt →
        ∃ aTree1, TreeRemoveNodeIndex aTree curnode 0 = .done (c, aTree1) ∧
          aTree1.count = aTree.count - 1 ∧ aTree1.size = aTree.size - s) := by
  obtain ⟨aTree, l, h1, h2, _⟩ := runOps_inv compare (fun _ => True) ops
    (TreeInitialize compare) [] (fun _ _ _ _ _ _ => trivial) (storeOK_fresh compare) trivial
  have hstore := h2
  obtain ⟨root, k1, k2, k3, k4, k5⟩ := h2
  refine ⟨aTree, root, h1, k1, by rw [k4, nodeCount_eq_length, k3],
    by rw [k5, sizeSum_eq_sum, k3], ?_, ?_⟩
  · intro content size old aTree1 hadd
    obtain ⟨rc, aTree2, a, b, e1, e2, e3, _⟩ := add_step aTree compare l content size hstore
    rw [hadd] at e1
    cases e1
    rcases e3 with ⟨e, _⟩ | ⟨c0, s0, e, _, el⟩
    · cases e
    · cases e
      obtain ⟨root2, _, _, _, j4, j5⟩ := e2
      refine ⟨by rw [j4, k4, el]; simp, s0, by rw [k3, el]; simp, ?_⟩
      rw [j5, k5, el]
      simp
      omega
  · intro curnode r c s lt rt hroot hfocus
    obtain ⟨focus, path⟩ := curnode
    simp only at hfocus
    subst hfocus
    obtain ⟨root1, u1, _⟩ := unlink_total r c s lt rt path
    obtain ⟨aTree1, e1, _, _, _, _, e6, e7⟩ := TreeRemoveNodeIndex_done aTree
      ⟨.node r c s lt rt, path⟩ 0 ⟨root, compare⟩ c s root1 (by rw [k1]; rfl) u1
    exact ⟨aTree1, e1, by simpa using e6, by simpa using e7⟩

/-! ## The walk of an ordered index -/

/-- After the call that returns `NULL` the walk starts again. -/
theorem nextCalls_period (aTree : Tree α) (index : Nat) (ix : Index α)
    (hix : aTree.index[index]? = some ix) : ∀ k,
    nextCalls aTree index (k + (nodeCount ix.root + 1)) = nextCalls aTree index k := by
  intro k
  induction k with
  | zero =>
    rw [Nat.zero_add, nextCalls_nodeLocs aTree index ix hix _ (Nat.le_refl _),
      List.getElem?_eq_none (by rw [nodeLocs_length])]
    rfl
  | succ k ih =>
    have e : k + 1 + (nodeCount ix.root + 1) = (k + (nodeCount ix.root + 1)) + 1 := by omega
    rw [e, nextCalls, ih]
    rfl

/-- Every call of the walk, however long the walk goes on, returns the pointer of the in-order
list whose rank is the number of calls made since the last `NULL`. -/
theorem nextCalls_mod (aTree : Tree α) (index : Nat) (ix : Index α)
    (hix : aTree.index[index]? = some ix) : ∀ k,
    nextCalls aTree index (k + 1) =
      .done (nodeLocs ix.root [])[k % (nodeCount ix.root + 1)]? := by
  intro k
  induction k using Nat.strong_induction_on with
  | _ k ih =>
    by_cases hk : k ≤ nodeCount ix.root
    · rw [nextCalls_nodeLocs aTree index ix hix k hk, Nat.mod_eq_of_lt (by omega)]
    · have e : k + 1 = (k - (nodeCount ix.root + 1) + 1) + (nodeCount ix.root + 1) := by omega
      rw [e, nextCalls_period aTree index ix hix, ih _ (by omega)]
      congr 2
      conv_rhs => rw [show k = (k - (nodeCount ix.root + 1)) + (nodeCount ix.root + 1) by omega]
      rw [Nat.add_mod_right]

theorem nodeLocs_getElem?_content (n : Node α) (path : List (Frame α)) (i : Nat) (p : Loc α)
    (h : (nodeLocs n path)[i]? = some p) :
    ∃ x, (inorder n)[i]? = some x ∧ p.content? = some x.1 := by
  have h1 := congrArg (fun l => l[i]?) (nodeLocs_content n path)
  simp only [List.getElem?_map, h, Option.map_some'] at h1
  cases hx : (inorder n)[i]? with
  | none => rw [hx] at h1; cases h1
  | some x =>
    rw [hx] at h1
    exact ⟨x, rfl, by simpa using h1⟩

/-- Two successive results of a walk of an index whose in-order sequence is non-decreasing
hold records of which the second is not before the first. -/
theorem walk_ordered (aTree : Tree α) (index : Nat) (ix : Index α) (m : Int)
    (hix : aTree.index[index]? = some ix) (hord : Ordered ix.compare m ix.root)
    (k : Nat) (p q : Loc α) (hp : nextCalls aTree index k = .done (some p))
    (hq : nextCalls aTree index (k + 1) = .done (some q)) :
    ∃ a b, p.content? = some a ∧ q.content? = some b ∧ 0 ≤ ix.compare a b m := by
  cases k with
  | zero => cases hp
  | succ j =>
    rw [nextCalls_mod aTree index ix hix] at hp hq
    have hp' : (nodeLocs ix.root [])[j % (nodeCount ix.root + 1)]? = some p := by
      injection hp
    have hq' : (nodeLocs ix.root [])[(j + 1) % (nodeCount ix.root + 1)]? = some q := by
      injection hq
    have hlt : j % (nodeCount ix.root + 1) < nodeCount ix.root := by
      have := lt_length_of_getElem? _ _ _ hp'
      rwa [nodeLocs_length] at this
    have hmod : (j + 1) % (nodeCount ix.root + 1) = j % (nodeCount ix.root + 1) + 1 := by
      rw [Nat.add_mod]
      by_cases h1 : nodeCount ix.root = 0
      · omega
      · rw [Nat.mod_eq_of_lt (show 1 < nodeCount ix.root + 1 by omega),
          Nat.mod_eq_of_lt (by omega)]
    rw [hmod] at hq'
    obtain ⟨x, hx, hxc⟩ := nodeLocs_getElem?_content _ _ _ p hp'
    obtain ⟨y, hy, hyc⟩ := nodeLocs_getElem?_content _ _ _ q hq'
    refine ⟨x.1, y.1, hxc, hyc, ?_⟩
    have hi := lt_length_of_getElem? _ _ _ hx
    have hj := lt_length_of_getElem? _ _ _ hy
    have := List.pairwise_iff_getElem.1 hord _ _ hi hj (Nat.lt_succ_self _)
    rw [List.getElem?_eq_getElem hi] at hx
    rw [List.getElem?_eq_getElem hj] at hy
    cases hx
    cases hy
    exact this

/-! ## C4 -/

/-- Adding records to an empty store under a total order returns and gives a store with one
index whose in-order sequence is strictly increasing. -/
theorem addAll_strict (compare : α → α → Int → Int) (htot : TotalOrder compare 1)
    (l : List (α × Int)) :
    ∃ aTree l1, addAll (TreeInitialize compare) l = some aTree ∧ StoreOK aTree compare l1 ∧
      l1.Pairwise (fun x y => 0 < compare x.1 y.1 1) := by
  rw [addAll_eq_runOps]
  exact runOps_inv compare (fun l0 => l0.Pairwise (fun x y => 0 < compare x.1 y.1 1)) _
    (TreeInitialize compare) []
    (fun op _ l0 l1 h0 hrel => opRel_strict compare htot op l0 l1 h0 hrel)
    (storeOK_fresh compare) List.Pairwise.nil

/-- Adding records to an empty store under a total order returns and gives an index whose
in-order sequence is non-decreasing, as are the records met by successive calls of a walk. -/
theorem addAll_ordered (compare : α → α → Int → Int) (htot : TotalOrder compare 1)
    (l : List (α × Int)) :
    ∃ aTree root, addAll (TreeInitialize compare) l = some aTree ∧
      aTree.index = [⟨root, compare⟩] ∧ Ordered compare 1 root ∧
      ∀ k p q, nextCalls aTree 0 k = .done (some p) →
        nextCalls aTree 0 (k + 1) = .done (some q) →
        ∃ a b, p.content? = some a ∧ q.content? = some b ∧ 0 ≤ compare a b 1 := by
  obtain ⟨aTree, l1, h1, ⟨root, k1, _, k3, _, _⟩, h3⟩ := addAll_strict compare htot l
  have hord : Ordered compare 1 root := by
    rw [Ordered, k3]
    exact h3.imp (fun h => Int.le_of_lt h)
  refine ⟨aTree, root, h1, k1, hord, ?_⟩
  intro k p q hp hq
  exact walk_ordered aTree 0 ⟨root, compare⟩ 1 (by rw [k1]; rfl) hord k p q hp hq

/-- C4.  Ordering: every finite sequence of `TreeAdd` calls (fresh and repeated keys alike) on
the empty store made by `TreeInitialize` with a total-order comparator returns, and the in-order
sequence of the index is then non-decreasing under the comparator, as are the records met by
two successive calls of a `TreeNextElement` walk.  With `TreeIntCompare`, the integers seen by
two successive calls of the walk never decrease, which is what `check` tests. -/
theorem C4_insertions_keep_order (compare : α → α → Int → Int)
    (htot : TotalOrder compare 1) (l : List (α × Int)) :
    (∃ aTree root, addAll (TreeInitialize compare) l = some aTree ∧
      aTree.index = [⟨root, compare⟩] ∧ Ordered compare 1 root ∧
      ∀ k p q, nextCalls aTree 0 k = .done (some p) →
        nextCalls aTree 0 (k + 1) = .done (some q) →
        ∃ a b, p.content? = some a ∧ q.content? = some b ∧ 0 ≤ compare a b 1) ∧
    (∀ li : List (IntRec × Int), ∃ aTree,
      addAll (TreeInitialize TreeIntCompare) li = some aTree ∧
      ∀ k p q, nextCalls aTree 0 k = .done (some p) →
        TreeNextElement aTree (some p) = .done (some q) →
        ∃ a b, p.content? = some a ∧ q.content? = some b ∧ a.val ≤ b.val) := by
  refine ⟨addAll_ordered compare htot l, ?_⟩
  intro li
  obtain ⟨aTree, root, h1, _, _, h4⟩ :=
    addAll_ordered TreeIntCompare (totalOrder_TreeIntCompare 1) li
  refine ⟨aTree, h1, ?_⟩
  intro k p q hp hq
  have hq' : nextCalls aTree 0 (k + 1) = .done (some q) := by
    rw [nextCalls, hp]
    exact hq
  obtain ⟨a, b, e1, e2, e3⟩ := h4 k p q hp hq'
  exact ⟨a, b, e1, e2, (TreeIntCompare_nonneg a b 1).1 e3⟩

theorem C4_insertions_keep_order_witness :
    TotalOrder TreeIntCompare 1 ∧
    (∃ aTree root, addAll (TreeInitialize TreeIntCompare)
        [(rec 2, 4), (rec 1, 4), (⟨7, 2⟩, 8), (rec 3, 4)] = some aTree ∧
      aTree.index = [⟨root, TreeIntCompare⟩] ∧ Ordered TreeIntCompare 1 root ∧
      ∀ k p q, nextCalls aTree 0 k = .done (some p) →
        nextCalls aTree 0 (k + 1) = .done (some q) →
        ∃ a b, p.content? = some a ∧ q.content? = some b ∧ 0 ≤ TreeIntCompare a b 1) ∧
    (∀ li : List (IntRec × Int), ∃ aTree,
      addAll (TreeInitialize TreeIntCompare) li = some aTree ∧
      ∀ k p q, nextCalls aTree 0 k = .done (some p) →
        TreeNextElement aTree (some p) = .done (some q) →
        ∃ a b, p.content? = some a ∧ q.content? = some b ∧ a.val ≤ b.val) :=
  ⟨totalOrder_TreeIntCompare 1,
    C4_insertions_keep_order TreeIntCompare (totalOrder_TreeIntCompare 1)
      [(rec 2, 4), (rec 1, 4), (⟨7, 2⟩, 8), (rec 3, 4)]⟩

/-! ## C6 -/

theorem runOps_append : ∀ (ops1 ops2 : List (Op α)) (aTree : Tree α),
    runOps aTree (ops1 ++ ops2) = (runOps aTree ops1).bind fun t => runOps t ops2 := by
  intro ops1
  induction ops1 with
  | nil => intro ops2 aTree; rfl
  | cons op ops1 ih =>
    intro ops2 aTree
    simp only [List.cons_append, runOps]
    cases applyOp aTree op with
    | done v => exact ih ops2 v.2
    | exited _ => rfl
    | undefined => rfl

/-- A mode-blind comparator that is a total order in identity mode is one in key mode. -/
theorem totalOrder_mode (compare : α → α → Int → Int) (htot : TotalOrder compare 1)
    (hmode : ∀ a b, compare a b 0 = compare a b 1) : TotalOrder compare 0 :=
  ⟨fun a b => by rw [hmode, hmode]; exact htot.antisymm a b,
   fun a b c => by rw [hmode, hmode, hmode]; exact htot.trans a b c⟩

/-- A call that does not remove the key of `c` keeps a record comparing zero with `c` in the
sequence. -/
theorem opRel_member (compare : α → α → Int → Int) (htot : TotalOrder compare 1)
    (hmode : ∀ a b, compare a b 0 = compare a b 1) (c : α) (op : Op α)
    (hr : ∀ k, op = .remove k → compare c k 1 ≠ 0)
    (hk : ∀ k, op = .removeKey k → compare c k 0 ≠ 0)
    (l l1 : List (α × Int)) (hmem : ∃ x ∈ l, compare x.1 c 1 = 0)
    (h : OpRel compare op l l1) : ∃ x ∈ l1, compare x.1 c 1 = 0 := by
  obtain ⟨x, hx, hxc⟩ := hmem
  have hout : ∀ (key : α) (c0 : α) (s0 : Int) (a b : List (α × Int)),
      compare c key 1 ≠ 0 → compare c0 key 1 = 0 → l = a ++ (c0, s0) :: b →
      ∃ y ∈ a ++ b, compare y.1 c 1 = 0 := by
    intro key c0 s0 a b hne h0 hl
    rw [hl] at hx
    simp only [List.mem_append, List.mem_cons] at hx
    rcases hx with hx | hx | hx
    · exact ⟨x, List.mem_append.2 (Or.inl hx), hxc⟩
    · subst hx
      exact absurd (htot.zero_trans c c0 key (htot.symm_zero _ _ hxc) h0) hne
    · exact ⟨x, List.mem_append.2 (Or.inr hx), hxc⟩
  cases op with
  | add content size =>
    obtain ⟨a, b, e1, e2, _⟩ := h
    subst e1
    rcases e2 with e | ⟨c0, s0, e0, e⟩
    · subst e
      rcases List.mem_append.1 hx with hx | hx
      · exact ⟨x, by simp [hx], hxc⟩
      · exact ⟨x, by simp [hx], hxc⟩
    · subst e
      simp only [List.mem_append, List.mem_cons] at hx
      rcases hx with hx | hx | hx
      · exact ⟨x, by simp [hx], hxc⟩
      · subst hx
        exact ⟨(content, size), by simp,
          htot.zero_trans content c0 c (htot.symm_zero _ _ e0) hxc⟩
      · exact ⟨x, by simp [hx], hxc⟩
  | remove key =>
    rcases h with e | ⟨c0, s0, a, b, e0, e1, e2⟩
    · subst e; exact ⟨x, hx, hxc⟩
    · subst e2
      exact hout key c0 s0 a b (hr key rfl) e0 e1
  | removeKey key =>
    rcases h with e | ⟨c0, s0, a, b, e0, e1, e2⟩
    · subst e; exact ⟨x, hx, hxc⟩
    · subst e2
      exact hout key c0 s0 a b (by rw [← hmode]; exact hk key rfl) (by rw [← hmode]; exact e0) e1

/-- C6.  Find is correct on an ordered index: when the in-order sequence of `index[index]` is
non-decreasing under its comparator, a total order in key mode, `TreeFindIndex` returns a node
of the index whose record compares zero with the key if the index holds such a record, and
`NULL` if it holds none.  In particular, on a store made by `TreeInitialize` with a mode-blind
total-order comparator, a record added by `TreeAdd` is found by `TreeFind` (the node found
compares zero with it) after any further calls that do not remove its key. -/
theorem C6_find_correct (aTree : Tree α) (key : α) (index : Nat) (ix : Index α)
    (hix : aTree.index[index]? = some ix) (htot : TotalOrder ix.compare 0)
    (hord : Ordered ix.compare 0 ix.root) :
    ((∃ x ∈ inorder ix.root, ix.compare x.1 key 0 = 0) →
      ∃ loc r c s lt rt, TreeFindIndex aTree key index = .done (some loc) ∧
        loc.root = ix.root ∧ loc.focus = .node r c s lt rt ∧ ix.compare c key 0 = 0) ∧
    ((∀ x ∈ inorder ix.root, ix.compare x.1 key 0 ≠ 0) →
      TreeFindIndex aTree key index = .done none) ∧
    (∀ (compare : α → α → Int → Int), TotalOrder compare 1 →
      (∀ a b, compare a b 0 = compare a b 1) →
      ∀ (ops1 : List (Op α)) (c : α) (s : Int) (ops2 : List (Op α)),
        (∀ k, Op.remove k ∈ ops2 → compare c k 1 ≠ 0) →
        (∀ k, Op.removeKey k ∈ ops2 → compare c k 0 ≠ 0) →
        ∃ aTree1 loc r c0 s0 lt rt,
          runOps (TreeInitialize compare) (ops1 ++ Op.add c s :: ops2) = some aTree1 ∧
          TreeFind aTree1 c = .done (some loc) ∧ loc.focus = .node r c0 s0 lt rt ∧
          compare c0 c 0 = 0) := by
  refine ⟨?_, ?_, ?_⟩
  · intro hex
    simp only [TreeFindIndex, TreeFindIndex1, hix]
    cases hs : TreeFindIndex1.search ix.compare key 0 ix.root [] with
    | none =>
      obtain ⟨x, hx, hx0⟩ := hex
      exact absurd hx0 (find_search_complete ix.compare key 0 htot ix.root [] hord hs x hx)
    | some loc =>
      obtain ⟨r, c, s, lt, rt, k1, k2, k3, _⟩ :=
        find_search_sound ix.compare key 0 ix.root [] loc hs
      exact ⟨loc, r, c, s, lt, rt, rfl, k3, k1, k2⟩
  · intro hall
    simp only [TreeFindIndex, TreeFindIndex1, hix]
    cases hs : TreeFindIndex1.search ix.compare key 0 ix.root [] with
    | none => rfl
    | some loc =>
      obtain ⟨r, c, s, lt, rt, _, k2, _, a, b, k4, _⟩ :=
        find_search_sound ix.compare key 0 ix.root [] loc hs
      exact absurd k2 (hall (c, s) (by rw [k4]; simp))
  · intro compare hcmp hmode ops1 c s ops2 hrem hremk
    obtain ⟨t1, l1, h1, h2, h3⟩ := runOps_inv compare
      (fun l0 => l0.Pairwise (fun x y => 0 < compare x.1 y.1 1)) ops1
      (TreeInitialize compare) []
      (fun op _ l0 l1 h0 hrel => opRel_strict compare hcmp op l0 l1 h0 hrel)
      (storeOK_fresh compare) List.Pairwise.nil
    obtain ⟨rc, t2, l2, k1, k2, k3⟩ := op_step t1 compare l1 (.add c s) h2
    have hs2 := opRel_strict compare hcmp _ l1 l2 h3 k3
    have hm2 : ∃ x ∈ l2, compare x.1 c 1 = 0 := by
      obtain ⟨a, b, e, _⟩ := k3
      exact ⟨(c, s), by rw [e]; simp, hcmp.refl_zero c⟩
    obtain ⟨t3, l3, j1, j2, j3, j4⟩ := runOps_inv compare
      (fun l0 => l0.Pairwise (fun x y => 0 < compare x.1 y.1 1) ∧
        ∃ x ∈ l0, compare x.1 c 1 = 0) ops2 t2 l2
      (fun op hop l0 l1 h0 hrel => ⟨opRel_strict compare hcmp op l0 l1 h0.1 hrel,
        opRel_member compare hcmp hmode c op
          (fun k e => hrem k (by rw [← e]; exact hop))
          (fun k e => hremk k (by rw [← e]; exact hop)) l0 l1 h0.2 hrel⟩)
      k2 ⟨hs2, hm2⟩
    have hrun : runOps (TreeInitialize compare) (ops1 ++ Op.add c s :: ops2) = some t3 := by
      rw [runOps_append, h1]
      show runOps t1 (Op.add c s :: ops2) = some t3
      simp only [runOps, k1, j1]
    rcases find_step t3 compare l3 c 0 j2 with ⟨_, f2⟩ | ⟨loc, r, c0, s0, lt, rt, f1, f2, f3, _⟩
    · obtain ⟨x, hx, hx0⟩ := j4
      have := f2 (totalOrder_mode compare hcmp hmode)
        (j3.imp (fun h => by rw [hmode]; exact Int.le_of_lt h)) x hx
      rw [hmode] at this
      exact absurd hx0 this
    · exact ⟨t3, loc, r, c0, s0, lt, rt, hrun, f1, f2, f3⟩

theorem C6_find_correct_witness :
    sixStore.index[0]? = some ⟨sixTree, TreeIntCompare⟩ ∧ TotalOrder TreeIntCompare 0 ∧
    Ordered TreeIntCompare 0 sixTree ∧
    ((∃ x ∈ inorder sixTree, TreeIntCompare x.1 ⟨0, 5⟩ 0 = 0) →
      ∃ loc r c s lt rt, TreeFindIndex sixStore ⟨0, 5⟩ 0 = .done (some loc) ∧
        loc.root = sixTree ∧ loc.focus = .node r c s lt rt ∧ TreeIntCompare c ⟨0, 5⟩ 0 = 0) ∧
    ((∀ x ∈ inorder sixTree, TreeIntCompare x.1 ⟨0, 5⟩ 0 ≠ 0) →
      TreeFindIndex sixStore ⟨0, 5⟩ 0 = .done none) ∧
    (∀ (compare : IntRec → IntRec → Int → Int), TotalOrder compare 1 →
      (∀ a b, compare a b 0 = compare a b 1) →
      ∀ (ops1 : List (Op IntRec)) (c : IntRec) (s : Int) (ops2 : List (Op IntRec)),
        (∀ k, Op.remove k ∈ ops2 → compare c k 1 ≠ 0) →
        (∀ k, Op.removeKey k ∈ ops2 → compare c k 0 ≠ 0) →
        ∃ aTree1 loc r c0 s0 lt rt,
          runOps (TreeInitialize compare) (ops1 ++ Op.add c s :: ops2) = some aTree1 ∧
          TreeFind aTree1 c = .done (some loc) ∧ loc.focus = .node r c0 s0 lt rt ∧
          compare c0 c 0 = 0) :=
  have hord : Ordered TreeIntCompare 0 sixTree := by
    simp [Ordered, sixTree, TreeIntCompare, rec]
  ⟨rfl, totalOrder_TreeIntCompare 0, hord,
    C6_find_correct sixStore ⟨0, 5⟩ 0 ⟨sixTree, TreeIntCompare⟩ rfl
      (totalOrder_TreeIntCompare 0) hord⟩

/-! ## C8 -/

/-- In a strictly increasing sequence two entries whose records compare zero are the same
entry. -/
theorem strict_unique (compare : α → α → Int → Int) (htot : TotalOrder compare 1)
    (l : List (α × Int)) (hord : l.Pairwise (fun x y => 0 < compare x.1 y.1 1))
    (x y : α × Int) (hx : x ∈ l) (hy : y ∈ l) (h0 : compare x.1 y.1 1 = 0) : x = y := by
  by_contra hne
  have hsym : Symmetric (fun a b : α × Int => compare a.1 b.1 1 ≠ 0) :=
    fun a b hab hba => hab (htot.symm_zero _ _ hba)
  have hp : l.Pairwise (fun a b : α × Int => compare a.1 b.1 1 ≠ 0) :=
    hord.imp (fun h => by omega)
  exact hp.forall hsym hx hy hne h0

/-- C8.  Replacement semantics: in a store with the single index 0, duplicates disallowed,
whose in-order sequence is strictly increasing under a mode-blind total-order comparator, if a
stored record `r1` compares zero with `r2` then `TreeAdd` of `r2` returns `r1`, leaves `count`
and the number of nodes unchanged, and afterwards `TreeFind` of any key that compares zero with
`r2` returns a node whose record is `r2`, while `r1` (if it is another record) is in no node any
more; if no stored record compares zero with `r2`, `TreeAdd` returns `NULL`. -/
theorem C8_replacement_semantics (aTree : Tree α) (compare : α → α → Int → Int)
    (root : Node α) (r1 r2 : α) (s1 s2 : Int)
    (hidx : aTree.index = [⟨root, compare⟩]) (hdup : aTree.allow_duplicates = false)
    (htot : TotalOrder compare 1) (hmode : ∀ a b, compare a b 0 = compare a b 1)
    (hord : StrictlyOrdered compare 1 root) :
    ((r1, s1) ∈ inorder root → compare r1 r2 1 = 0 →
      ∃ aTree1 root1, TreeAdd aTree r2 s2 = .done (some r1, aTree1) ∧
        aTree1.count = aTree.count ∧ aTree1.index = [⟨root1, compare⟩] ∧
        nodeCount root1 = nodeCount root ∧
        (∀ key, compare r2 key 0 = 0 → ∃ loc r lt rt,
          TreeFind aTree1 key = .done (some loc) ∧ loc.focus = .node r r2 s2 lt rt) ∧
        (r1 ≠ r2 → ∀ x ∈ inorder root1, x.1 ≠ r1)) ∧
    ((∀ x ∈ inorder root, compare x.1 r2 1 ≠ 0) →
      ∃ aTree1, TreeAdd aTree r2 s2 = .done (none, aTree1)) := by
  have hlen : aTree.index.length = 1 := by rw [hidx]; rfl
  obtain ⟨rc, aTree1, root1, a, b, k1, k2, _, k4, _, k6, k7, k8⟩ :=
    TreeAddByIndex_spec aTree r2 s2 0 ⟨root, compare⟩ (by rw [hidx]; rfl) hdup
  have hbounds : (∀ x ∈ a, 0 < compare x.1 r2 1) ∧ (∀ y ∈ b, 0 < compare r2 y.1 1) :=
    k8 htot hord
  obtain ⟨ka, kb⟩ := hbounds
  rw [← TreeAdd_single aTree r2 s2 hlen] at k1
  have hidx1 : aTree1.index = [⟨root1, compare⟩] :=
    index_eq_singleton _ _ k2 (by rw [k4, hlen])
  have hnotin : ∀ (x : α × Int), compare x.1 r2 1 = 0 → x ∉ a ∧ x ∉ b := by
    intro x h0
    constructor
    · intro hx
      have := ka x hx
      omega
    · intro hx
      have := (htot.antisymm _ _).1 (kb x hx)
      omega
  refine ⟨?_, ?_⟩
  · intro hmem h0
    rcases k7 with ⟨_, e2, _, _⟩ | ⟨c0, s0, e1, e2, e3, e4, _⟩
    · simp only at e2
      rw [e2] at hmem
      rcases List.mem_append.1 hmem with h | h
      · exact absurd h (hnotin (r1, s1) h0).1
      · exact absurd h (hnotin (r1, s1) h0).2
    · simp only at e2 e3
      have hc0 : (r1, s1) = (c0, s0) := by
        rw [e3] at hmem
        simp only [List.mem_append, List.mem_cons] at hmem
        rcases hmem with h | h | h
        · exact absurd h (hnotin (r1, s1) h0).1
        · exact h
        · exact absurd h (hnotin (r1, s1) h0).2
      cases hc0
      subst e1
      have hstrict1 : (inorder root1).Pairwise (fun x y => 0 < compare x.1 y.1 1) :=
        opRel_strict compare htot (.add r2 s2) (inorder root) (inorder root1) hord
          ⟨a, b, k6, Or.inr ⟨r1, s1, e2, e3⟩, fun _ _ => ⟨ka, kb⟩⟩
      refine ⟨aTree1, root1, k1, e4, hidx1, ?_, ?_, ?_⟩
      · rw [nodeCount_eq_length, nodeCount_eq_length, k6, e3]
        simp
      · intro key hkey
        simp only [TreeFind, TreeFindIndex, TreeFindIndex1, hidx1, List.getElem?_cons_zero]
        have htot0 := totalOrder_mode compare htot hmode
        have hord0 : Ordered compare 0 root1 :=
          hstrict1.imp (fun h => by rw [hmode]; exact Int.le_of_lt h)
        cases hs : TreeFindIndex1.search compare key 0 root1 [] with
        | none =>
          exact absurd hkey (find_search_complete compare key 0 htot0 root1 [] hord0 hs
            (r2, s2) (by rw [k6]; simp))
        | some loc =>
          obtain ⟨r, c, s, lt, rt, j1, j2, _, a', b', j4, _⟩ :=
            find_search_sound compare key 0 root1 [] loc hs
          have heq : (c, s) = (r2, s2) :=
            strict_unique compare htot (inorder root1) hstrict1 (c, s) (r2, s2)
              (by rw [j4]; simp) (by rw [k6]; simp)
              (by rw [← hmode]; exact htot0.zero_trans c key r2 j2 (htot0.symm_zero _ _ hkey))
          cases heq
          exact ⟨loc, r, lt, rt, rfl, j1⟩
      · intro hne x hx hx1
        rw [k6] at hx
        simp only [List.mem_append, List.mem_cons] at hx
        have hx0 : compare x.1 r2 1 = 0 := by rw [hx1]; exact h0
        rcases hx with h | h | h
        · exact (hnotin x hx0).1 h
        · rw [h] at hx1; exact hne hx1.symm
        · exact (hnotin x hx0).2 h
  · intro hall
    rcases k7 with ⟨e1, _⟩ | ⟨c0, s0, _, e2, e3, _⟩
    · subst e1; exact ⟨aTree1, k1⟩
    · exact absurd e2 (hall (c0, s0) (by rw [e3]; simp))

theorem C8_replacement_semantics_witness :
    sixStore.index = [⟨sixTree, TreeIntCompare⟩] ∧ sixStore.allow_duplicates = false ∧
    TotalOrder TreeIntCompare 1 ∧ (∀ a b, TreeIntCompare a b 0 = TreeIntCompare a b 1) ∧
    StrictlyOrdered TreeIntCompare 1 sixTree ∧
    ((rec 3, 4) ∈ inorder sixTree → TreeIntCompare (rec 3) ⟨7, 3⟩ 1 = 0 →
      ∃ aTree1 root1, TreeAdd sixStore ⟨7, 3⟩ 8 = .done (some (rec 3), aTree1) ∧
        aTree1.count = sixStore.count ∧ aTree1.index = [⟨root1, TreeIntCompare⟩] ∧
        nodeCount root1 = nodeCount sixTree ∧
        (∀ key, TreeIntCompare ⟨7, 3⟩ key 0 = 0 → ∃ loc r lt rt,
          TreeFind aTree1 key = .done (some loc) ∧ loc.focus = .node r ⟨7, 3⟩ 8 lt rt) ∧
        (rec 3 ≠ ⟨7, 3⟩ → ∀ x ∈ inorder root1, x.1 ≠ rec 3)) ∧
    ((∀ x ∈ inorder sixTree, TreeIntCompare x.1 ⟨7, 3⟩ 1 ≠ 0) →
      ∃ aTree1, TreeAdd sixStore ⟨7, 3⟩ 8 = .done (none, aTree1)) :=
  have hord : StrictlyOrdered TreeIntCompare 1 sixTree := by
    simp [StrictlyOrdered, sixTree, TreeIntCompare, rec]
  ⟨rfl, rfl, totalOrder_TreeIntCompare 1, fun _ _ => rfl, hord,
    C8_replacement_semantics sixStore TreeIntCompare sixTree (rec 3) ⟨7, 3⟩ 4 8 rfl rfl
      (totalOrder_TreeIntCompare 1) (fun _ _ => rfl) hord⟩

/-! ## C7 -/

/-- Adding records with pairwise distinct integers, distinct too from the integers stored,
returns, replaces nothing and leaves a strictly increasing sequence that holds the records
stored before and the records added. -/
theorem addAll_distinct : ∀ (recs : List (IntRec × Int)) (aTree : Tree IntRec)
    (l : List (IntRec × Int)), StoreOK aTree TreeIntCompare l →
    l.Pairwise (fun x y => 0 < TreeIntCompare x.1 y.1 1) →
    (∀ x ∈ l, ∀ y ∈ recs, x.1.val ≠ y.1.val) → (recs.map fun x => x.1.val).Nodup →
    ∃ aTree1 l1, addAll aTree recs = some aTree1 ∧ StoreOK aTree1 TreeIntCompare l1 ∧
      l1.Pairwise (fun x y => 0 < TreeIntCompare x.1 y.1 1) ∧ l1.Perm (recs ++ l) := by
  intro recs
  induction recs with
  | nil => intro aTree l h hord _ _; exact ⟨aTree, l, rfl, h, hord, List.Perm.refl _⟩
  | cons p recs ih =>
    intro aTree l h hord hdisj hnodup
    obtain ⟨c, s⟩ := p
    obtain ⟨rc, aTree1, a, b, h1, h2, h3, h4⟩ := add_step aTree TreeIntCompare l c s h
    have hl : l = a ++ b := by
      rcases h3 with ⟨_, e⟩ | ⟨c0, s0, _, e0, e⟩
      · exact e
      · exact absurd ((TreeIntCompare_zero c0 c 1).1 e0)
          (hdisj (c0, s0) (by rw [e]; simp) (c, s) (List.mem_cons_self _ _))
    have hord1 := opRel_strict TreeIntCompare (totalOrder_TreeIntCompare 1) (.add c s) l
      (a ++ (c, s) :: b) hord ⟨a, b, rfl, Or.inl hl, h4⟩
    simp only [List.map_cons, List.nodup_cons, List.mem_map, not_exists, not_and] at hnodup
    obtain ⟨aTree2, l2, k1, k2, k3, k4⟩ := ih aTree1 (a ++ (c, s) :: b) h2 hord1 (by
      intro x hx y hy
      simp only [List.mem_append, List.mem_cons] at hx
      have hxl : x = (c, s) ∨ x ∈ l := by
        rw [hl]
        rcases hx with hx | hx | hx
        · exact Or.inr (List.mem_append.2 (Or.inl hx))
        · exact Or.inl hx
        · exact Or.inr (List.mem_append.2 (Or.inr hx))
      rcases hxl with hx | hx
      · subst hx
        exact fun e => hnodup.1 y hy e.symm
      · exact hdisj x hx y (List.mem_cons_of_mem _ hy)) hnodup.2
    refine ⟨aTree2, l2, by simp only [addAll, h1, k1], k2, k3, ?_⟩
    refine k4.trans ?_
    rw [hl]
    exact (List.Perm.append_left recs List.perm_middle).trans List.perm_middle

/-- Removing, in any order, the integers of all the records of a strictly increasing store
returns every time the record stored under that integer and leaves the store empty. -/
theorem removeAll_perm (qaddr : IntRec → Nat) : ∀ (perm : List (IntRec × Int))
    (aTree : Tree IntRec) (l : List (IntRec × Int)), StoreOK aTree TreeIntCompare l →
    l.Pairwise (fun x y => 0 < TreeIntCompare x.1 y.1 1) → l.Perm perm →
    (perm.map fun x => x.1.val).Nodup →
    ∃ aTree1, removeAll aTree (perm.map fun x => (⟨qaddr x.1, x.1.val⟩ : IntRec)) =
        some (perm.map (fun x => some x.1), aTree1) ∧
      StoreOK aTree1 TreeIntCompare [] := by
  intro perm
  induction perm with
  | nil =>
    intro aTree l h _ hp _
    rw [List.Perm.eq_nil hp] at h
    exact ⟨aTree, rfl, h⟩
  | cons p ps ih =>
    intro aTree l h hord hp hnodup
    have hpl : p ∈ l := hp.symm.subset (List.mem_cons_self _ _)
    rcases remove_step aTree TreeIntCompare l ⟨qaddr p.1, p.1.val⟩ h with
      ⟨_, h2⟩ | ⟨c0, s0, a, b, aTree1, h1, h2, h3, h4⟩
    · exact absurd ((TreeIntCompare_zero _ _ 1).2 rfl)
        (h2 (totalOrder_TreeIntCompare 1) (hord.imp (fun h => Int.le_of_lt h)) p hpl)
    · have hval : c0.val = p.1.val := (TreeIntCompare_zero _ _ 1).1 h1
      have hc0 : (c0, s0) = p :=
        List.inj_on_of_nodup_map hnodup (hp.subset (by rw [h2]; simp))
          (List.mem_cons_self _ _) hval
      subst hc0
      have hp' : (a ++ b).Perm ps := by
        rw [h2] at hp
        exact (List.perm_middle.symm.trans hp).cons_inv
      have hord' : (a ++ b).Pairwise (fun x y => 0 < TreeIntCompare x.1 y.1 1) := by
        rw [h2] at hord
        exact hord.sublist
          (List.Sublist.append (List.Sublist.refl a) (List.sublist_cons_self _ b))
      simp only [List.map_cons, List.nodup_cons] at hnodup
      obtain ⟨aTree2, k1, k2⟩ := ih aTree1 (a ++ b) h4 hord' hp' hnodup.2
      exact ⟨aTree2, by simp only [List.map_cons, removeAll, h3, k1, Option.map_some'], k2⟩

/-- C7.  Round trip: for every list of records with pairwise distinct integers added with
`TreeAdd` to the empty store made by `TreeInitialize` with `TreeIntCompare`, and every
permutation of the list, removing the integers with `TreeRemove` in the order of the
permutation (through query variables at any addresses `qaddr`) makes every removal return the
very record that was added under that integer, and leaves `count = 0`, `size = 0` and a null
root in index 0. -/
theorem C7_round_trip (recs perm : List (IntRec × Int)) (qaddr : IntRec → Nat)
    (hdist : (recs.map fun x => x.1.val).Nodup) (hperm : perm.Perm recs) :
    ∃ aTree0 aTree1, addAll (TreeInitialize TreeIntCompare) recs = some aTree0 ∧
      aTree0.count = recs.length ∧
      removeAll aTree0 (perm.map fun x => (⟨qaddr x.1, x.1.val⟩ : IntRec)) =
        some (perm.map (fun x => some x.1), aTree1) ∧
      aTree1.count = 0 ∧ aTree1.size = 0 ∧ aTree1.index = [⟨.null, TreeIntCompare⟩] := by
  obtain ⟨aTree0, l0, h1, h2, h3, h4⟩ := addAll_distinct recs (TreeInitialize TreeIntCompare) []
    (storeOK_fresh TreeIntCompare) List.Pairwise.nil (fun x hx => by cases hx) hdist
  rw [List.append_nil] at h4
  have hnodup : (perm.map fun x => x.1.val).Nodup :=
    ((hperm.map _).nodup_iff).2 hdist
  obtain ⟨aTree1, k1, root, k2, _, k3, k4, k5⟩ :=
    removeAll_perm qaddr perm aTree0 l0 h2 h3 (h4.trans hperm.symm) hnodup
  have hroot : root = .null :=
    eq_null_of_nodeCount root (by rw [nodeCount_eq_length, k3]; rfl)
  subst hroot
  refine ⟨aTree0, aTree1, h1, ?_, k1, by simpa using k4, by simpa using k5, k2⟩
  obtain ⟨_, _, _, _, j4, _⟩ := h2
  rw [j4, h4.length_eq]

theorem C7_round_trip_witness :
    (([(rec 2, 4), (rec 1, 4), (rec 3, 4)] : List (IntRec × Int)).map fun x => x.1.val).Nodup ∧
    ([(rec 3, 4), (rec 2, 4), (rec 1, 4)] : List (IntRec × Int)).Perm
      [(rec 2, 4), (rec 1, 4), (rec 3, 4)] ∧
    ∃ aTree0 aTree1,
      addAll (TreeInitialize TreeIntCompare) [(rec 2, 4), (rec 1, 4), (rec 3, 4)] = some aTree0 ∧
      aTree0.count = ([(rec 2, 4), (rec 1, 4), (rec 3, 4)] : List (IntRec × Int)).length ∧
      removeAll aTree0 (([(rec 3, 4), (rec 2, 4), (rec 1, 4)] : List (IntRec × Int)).map
          fun x => (⟨100, x.1.val⟩ : IntRec)) =
        some (([(rec 3, 4), (rec 2, 4), (rec 1, 4)] : List (IntRec × Int)).map
          (fun x => some x.1), aTree1) ∧
      aTree1.count = 0 ∧ aTree1.size = 0 ∧ aTree1.index = [⟨.null, TreeIntCompare⟩] :=
  have hd : (([(rec 2, 4), (rec 1, 4), (rec 3, 4)] : List (IntRec × Int)).map
      fun x => x.1.val).Nodup := by
    simp [rec]
  have hp : ([(rec 3, 4), (rec 2, 4), (rec 1, 4)] : List (IntRec × Int)).Perm
      [(rec 2, 4), (rec 1, 4), (rec 3, 4)] :=
    ((List.Perm.swap (rec 2, (4 : Int)) (rec 3, 4) [(rec 1, 4)]).trans
      (List.Perm.cons _ (List.Perm.swap (rec 1, (4 : Int)) (rec 3, 4) [])))
  ⟨hd, hp, C7_round_trip [(rec 2, 4), (rec 1, 4), (rec 3, 4)]
    [(rec 3, 4), (rec 2, 4), (rec 1, 4)] (fun _ => 100) hd hp⟩

/-! ## Lookup followed by removal, in one index of several -/

theorem TreeFindIndex1_done (aTree : Tree α) (key : α) (index : Nat) (m : Int) (ix : Index α)
    (hix : aTree.index[index]? = some ix) :
    TreeFindIndex1 aTree key index m =
      .done (TreeFindIndex1.search ix.compare key m ix.root []) := by
  simp only [TreeFindIndex1, hix]

/-- A lookup in `index[index]` either finds nothing, or finds a node that `TreeRemoveNodeIndex`
then takes out of that index, leaving the other indices as they were. -/
theorem findRemove_spec (aTree : Tree α) (key : α) (index : Nat) (m : Int) (ix : Index α)
    (hix : aTree.index[index]? = some ix) :
    TreeFindIndex1 aTree key index m = .done none ∨
    ∃ loc c0 s0 a b root1 aTree1, TreeFindIndex1 aTree key index m = .done (some loc) ∧
      ix.compare c0 key m = 0 ∧ inorder ix.root = a ++ (c0, s0) :: b ∧
      inorder root1 = a ++ b ∧
      TreeRemoveNodeIndex aTree loc index = .done (c0, aTree1) ∧
      aTree1.index[index]? = some { ix with root := root1 } ∧
      (∀ j, j ≠ index → aTree1.index[j]? = aTree.index[j]?) ∧
      aTree1.index.length = aTree.index.length ∧
      aTree1.allow_duplicates = aTree.allow_duplicates ∧
      aTree1.count = (if index = 0 then aTree.count - 1 else aTree.count) ∧
      aTree1.size = (if index = 0 then aTree.size - s0 else aTree.size) ∧
      (RedBlack ix.root → RedBlack root1) := by
  rw [TreeFindIndex1_done aTree key index m ix hix]
  cases hs : TreeFindIndex1.search ix.compare key m ix.root [] with
  | none => exact Or.inl rfl
  | some loc =>
    right
    obtain ⟨r, c, s, lt, rt, hf, hc, hroot, a, b, e1, e2, e3⟩ :=
      find_search_sound _ _ _ _ _ _ hs
    obtain ⟨focus, path⟩ := loc
    simp only at hf
    subst hf
    obtain ⟨root1, h1, h2⟩ := unlink_total r c s lt rt path
    obtain ⟨aTree1, k1, k2, k3, k4, k5, k6, k7⟩ :=
      TreeRemoveNodeIndex_done aTree _ index ix c s root1 hix h1
    refine ⟨_, c, s, a, b, root1, aTree1, rfl, hc, e1, ?_, k1, k2, k3, k4, k5, k6, k7, ?_⟩
    · simp only [pathBefore, pathAfter, List.nil_append, List.append_nil] at e2 e3
      rw [h2, e2, e3]
    · intro hrb
      have hroot1 : (Loc.mk (Node.node r c s lt rt) path).root = ix.root := by
        simpa using hroot
      obtain ⟨c1, s1, lt1, rt1, r1, root2, _, u1, u2⟩ :=
        unlink_redBlack ⟨.node r c s lt rt, path⟩ (by rw [hroot1]; exact hrb) rfl
      rw [h1] at u1
      cases u1
      exact u2

/-- `TreeRemoveIndex` on `index[index]`: nothing found and nothing changed, or the node found
in identity mode is taken out of that index. -/
theorem TreeRemoveIndex_spec (aTree : Tree α) (content : α) (index : Nat) (ix : Index α)
    (hix : aTree.index[index]? = some ix) :
    (TreeFindIndex1.search ix.compare content 1 ix.root [] = none ∧
      TreeRemoveIndex aTree content index = .done (none, aTree)) ∨
    ∃ c0 s0 a b root1 aTree1, TreeRemoveIndex aTree content index = .done (some c0, aTree1) ∧
      ix.compare c0 content 1 = 0 ∧ inorder ix.root = a ++ (c0, s0) :: b ∧
      inorder root1 = a ++ b ∧
      aTree1.index[index]? = some { ix with root := root1 } ∧
      (∀ j, j ≠ index → aTree1.index[j]? = aTree.index[j]?) ∧
      aTree1.index.length = aTree.index.length ∧
      aTree1.allow_duplicates = aTree.allow_duplicates ∧
      aTree1.count = (if index = 0 then aTree.count - 1 else aTree.count) ∧
      aTree1.size = (if index = 0 then aTree.size - s0 else aTree.size) ∧
      (RedBlack ix.root → RedBlack root1) := by
  rcases findRemove_spec aTree content index 1 ix hix with
    h | ⟨loc, c0, s0, a, b, root1, aTree1, h1, h2, h3, h4, h5, h6⟩
  · left
    have h' := h
    rw [TreeFindIndex1_done aTree content index 1 ix hix] at h'
    refine ⟨by simpa using h', ?_⟩
    simp only [TreeRemoveIndex, TreeFindContentIndex, h]
  · right
    refine ⟨c0, s0, a, b, root1, aTree1, ?_, h2, h3, h4, h6⟩
    simp only [TreeRemoveIndex, TreeFindContentIndex, h1, h5]

/-- `TreeAddByIndex` returning `NULL` on a red-black index leaves a red-black index. -/
theorem TreeAddByIndex_none_redBlack (aTree aTree1 : Tree α) (content : α) (size : Int)
    (index : Nat) (ix : Index α) (hix : aTree.index[index]? = some ix)
    (hrb : RedBlack ix.root)
    (h : TreeAddByIndex aTree content size index = .done (none, aTree1)) :
    ∃ root1, aTree1.index[index]? = some { ix with root := root1 } ∧ RedBlack root1 := by
  have hb : Balanced ix.root := (equalBlackCount_iff_balanced _).1 hrb.equalBlackCount
  have hs := search_inv ix.compare content ix.root [] trivial hb hrb.noRedRed
    (fun h => by rw [hrb.rootBlack] at h; cases h)
  simp only [TreeAddByIndex, hix] at h
  generalize hloc : TreeAddByIndex.search ix.compare content ix.root [] = loc at hs h
  obtain ⟨focus, path⟩ := loc
  cases focus with
  | node r c s lt rt =>
    simp only at h
    split at h
    · cases h
    · split at h
      · cases h
      · cases h
  | null =>
    obtain ⟨root, h1, h2⟩ := TreeBalanceAfterAdd_inv ⟨.node true content size .null .null, path⟩
      rfl (by simp) (by simp) (by simpa using hs.1)
    simp only [h1] at h
    cases h
    refine ⟨root, setRootAt_getElem? root index _ ix ?_, h2⟩
    split <;> exact hix

/-! ## The depth of the primary index -/

theorem TreeWalk_eq (n : Node α) :
    ∀ depth : Int, TreeWalk n depth = depth + (height n : Int) := by
  induction n with
  | null => intro depth; simp [TreeWalk, height]
  | node r c s lt rt ihl ihr =>
    intro depth
    simp only [TreeWalk, height, ihl, ihr]
    rcases le_total (height lt) (height rt) with h | h
    · rw [max_eq_right h]
      split_ifs with h1 <;> push_cast <;> omega
    · rw [max_eq_left h]
      split_ifs with h1 <;> push_cast <;> omega

/-- A balanced subtree has at least `2 ^ bheight - 1` nodes. -/
theorem pow_bheight_le (n : Node α) : Balanced n → 2 ^ bheight n ≤ nodeCount n + 1 := by
  induction n with
  | null => intro _; simp [bheight, nodeCount]
  | node r c s lt rt ihl ihr =>
    intro h
    obtain ⟨h1, h2, h3⟩ := (balanced_node r c s lt rt).1 h
    have k1 := ihl h2
    have k2 := ihr h3
    rw [← h1] at k2
    simp only [bheight_node, nodeCount]
    cases r
    · simp only [Bool.false_eq_true, ↓reduceIte, pow_succ]
      omega
    · simp only [↓reduceIte, Nat.add_zero]
      omega

/-- In a balanced subtree free of red-red pairs, a path holds at most as many red nodes as
black ones, and one more if the root is red. -/
theorem height_le_bheight (n : Node α) : Balanced n → NoRedRed n →
    height n ≤ 2 * bheight n + (if isRed n then 1 else 0) := by
  induction n with
  | null => intro _ _; simp [height, bheight]
  | node r c s lt rt ihl ihr =>
    intro h hn
    obtain ⟨h1, h2, h3⟩ := (balanced_node r c s lt rt).1 h
    obtain ⟨n1, n2, n3⟩ := (noRedRed_node r c s lt rt).1 hn
    have k1 := ihl h2 n2
    have k2 := ihr h3 n3
    rw [← h1] at k2
    simp only [height, bheight_node, isRed_node]
    cases r
    · simp only [Bool.false_eq_true, ↓reduceIte]
      split_ifs at k1 k2 <;> rcases le_total (height lt) (height rt) with h | h <;>
        simp only [max_eq_right, max_eq_left, h] <;> omega
    · obtain ⟨m1, m2⟩ := n1 rfl
      simp only [m1, m2, Bool.false_eq_true, ↓reduceIte] at k1 k2
      simp only [↓reduceIte]
      rcases le_total (height lt) (height rt) with h | h <;>
        simp only [max_eq_right, max_eq_left, h] <;> omega

theorem pow_height_le (n : Node α) (hrb : RedBlack n) :
    2 ^ ((height n + 1) / 2) ≤ nodeCount n + 1 := by
  have hb : Balanced n := (equalBlackCount_iff_balanced _).1 hrb.equalBlackCount
  have h1 := height_le_bheight n hb hrb.noRedRed
  have h2 := pow_bheight_le n hb
  have h3 : isRed n = false := hrb.rootBlack
  simp only [h3, Bool.false_eq_true, ↓reduceIte] at h1
  have h4 : (height n + 1) / 2 ≤ bheight n := by omega
  exact le_trans (Nat.pow_le_pow_right (by decide) h4) h2

/-! ## C19 -/

/-- C19.  `TreeMaxDepth` reports the height of index 0: it returns the height of the root of
`index[0]` counted in nodes, that is 0 for an empty index, 1 for a single node, and one more
than the larger of the heights of the two subtrees of the root otherwise.  The function only
reads the store, which is therefore left as it was. -/
theorem C19_max_depth_is_height (aTree : Tree α) (ix : Index α)
    (hix : aTree.index[0]? = some ix) :
    TreeMaxDepth aTree = .done (height ix.root : Int) ∧
      (ix.root = .null → TreeMaxDepth aTree = .done 0) ∧
      (∀ r c s, ix.root = .node r c s .null .null → TreeMaxDepth aTree = .done 1) ∧
      (∀ r c s lt rt, ix.root = .node r c s lt rt →
        TreeMaxDepth aTree = .done (1 + max (TreeWalk lt 0) (TreeWalk rt 0)) ∧
        TreeWalk lt 0 = (height lt : Int) ∧ TreeWalk rt 0 = (height rt : Int)) := by
  have h0 : TreeMaxDepth aTree = .done (height ix.root : Int) := by
    simp only [TreeMaxDepth, hix, TreeWalk_eq, zero_add]
  refine ⟨h0, ?_, ?_, ?_⟩
  · intro h
    rw [h0, h]
    rfl
  · intro r c s h
    rw [h0, h]
    rfl
  · intro r c s lt rt h
    rw [h0, h]
    simp only [TreeWalk_eq, zero_add, height, and_self, and_true]
    push_cast
    rfl

theorem C19_max_depth_is_height_witness :
    sixStore.index[0]? = some ⟨sixTree, TreeIntCompare⟩ ∧
    TreeMaxDepth sixStore = .done 4 ∧
    TreeMaxDepth sixStore = .done (height sixTree : Int) :=
  ⟨rfl, rfl,
    (C19_max_depth_is_height sixStore ⟨sixTree, TreeIntCompare⟩ rfl).1⟩

/-! ## Red-black stores under fresh insertions and removals -/

/-- A call on a red-black store with one index returns; unless it is a `TreeAdd` that
replaces a record, it leaves a red-black store whose `count` is the number of nodes. -/
theorem fresh_step (aTree : Tree α) (compare : α → α → Int → Int) (root : Node α)
    (h1 : aTree.index = [⟨root, compare⟩]) (h2 : aTree.allow_duplicates = false)
    (h3 : RedBlack root) (h4 : aTree.count = nodeCount root) (op : Op α) :
    ∃ rc aTree1, applyOp aTree op = .done (rc, aTree1) ∧
      ((match op with
        | .add _ _ => rc.isNone
        | _ => true) = true →
        ∃ root1, aTree1.index = [⟨root1, compare⟩] ∧ aTree1.allow_duplicates = false ∧
          RedBlack root1 ∧ aTree1.count = nodeCount root1) := by
  have hlen : aTree.index.length = 1 := by rw [h1]; rfl
  have hix : aTree.index[0]? = some ⟨root, compare⟩ := by rw [h1]; rfl
  cases op with
  | add content size =>
    obtain ⟨rc, aTree1, root1, a, b, e0, e1, _, e3, e4, e5, e6, _⟩ :=
      TreeAddByIndex_spec aTree content size 0 _ hix h2
    refine ⟨rc, aTree1, ?_, ?_⟩
    · simp only [applyOp, TreeAdd_single aTree content size hlen, e0]
    · intro hrc
      cases rc with
      | some c => cases hrc
      | none =>
        obtain ⟨root2, k1, k2⟩ :=
          TreeAddByIndex_none_redBlack aTree aTree1 content size 0 _ hix h3 e0
        rw [e1] at k1
        have hroot : root1 = root2 := by
          have := Option.some.inj k1
          exact congrArg Index.root this
        subst hroot
        refine ⟨root1, index_eq_singleton _ _ e1 (by rw [e3, hlen]), e4, k2, ?_⟩
        rcases e6 with ⟨_, e7, e8, _⟩ | ⟨c0, s0, e7, _⟩
        · simp only [↓reduceIte] at e8
          simp only at e7
          rw [e8, h4, nodeCount_eq_length, nodeCount_eq_length, e5, e7]
          simp only [List.length_append, List.length_cons]
          push_cast
          omega
        · cases e7
  | remove key =>
    simp only [applyOp, TreeRemove_single aTree key hlen]
    rcases TreeRemoveIndex_spec aTree key 0 _ hix with
      ⟨_, e⟩ | ⟨c0, s0, a, b, root1, aTree1, e0, _, e2, e3, e4, _, e6, e7, e8, _, e10⟩
    · exact ⟨none, aTree, e, fun _ => ⟨root, h1, h2, h3, h4⟩⟩
    · refine ⟨some c0, aTree1, e0, fun _ => ⟨root1, ?_, ?_, e10 h3, ?_⟩⟩
      · exact index_eq_singleton _ _ e4 (by rw [e6, hlen])
      · rw [e7, h2]
      · simp only [↓reduceIte] at e8
        simp only at e2
        rw [e8, h4, nodeCount_eq_length, nodeCount_eq_length, e2, e3]
        simp only [List.length_append, List.length_cons]
        push_cast
        omega
  | removeKey key =>
    simp only [applyOp, TreeRemoveKey, TreeRemoveKeyIndex, TreeFindIndex]
    rcases findRemove_spec aTree key 0 0 _ hix with
      e | ⟨loc, c0, s0, a, b, root1, aTree1, e0, _, e2, e3, e4, e5, _, e6, e7, e8, _, e10⟩
    · exact ⟨none, aTree, by simp only [e], fun _ => ⟨root, h1, h2, h3, h4⟩⟩
    · have hlen1 : aTree1.index.length = 1 := by rw [e6, hlen]
      refine ⟨some c0, aTree1, ?_, fun _ => ⟨root1, ?_, ?_, e10 h3, ?_⟩⟩
      · simp [e0, e4, hlen1, TreeRemoveKeyIndex.loop]
      · exact index_eq_singleton _ _ e5 hlen1
      · rw [e7, h2]
      · simp only [↓reduceIte] at e8
        simp only at e2
        rw [e8, h4, nodeCount_eq_length, nodeCount_eq_length, e2, e3]
        simp only [List.length_append, List.length_cons]
        push_cast
        omega

/-- A sequence of calls whose `TreeAdd`s all add fresh keys, run on a red-black store with one
index, returns and leaves such a store. -/
theorem fresh_run (compare : α → α → Int → Int) :
    ∀ (ops : List (Op α)) (aTree : Tree α) (root : Node α),
      aTree.index = [⟨root, compare⟩] → aTree.allow_duplicates = false → RedBlack root →
      aTree.count = nodeCount root → freshRun aTree ops = true →
      ∃ aTree1 root1, runOps aTree ops = some aTree1 ∧ aTree1.index = [⟨root1, compare⟩] ∧
        aTree1.allow_duplicates = false ∧ RedBlack root1 ∧
        aTree1.count = nodeCount root1 := by
  intro ops
  induction ops with
  | nil => intro aTree root h1 h2 h3 h4 _; exact ⟨aTree, root, rfl, h1, h2, h3, h4⟩
  | cons op ops ih =>
    intro aTree root h1 h2 h3 h4 hf
    obtain ⟨rc, aTree1, e1, e2⟩ := fresh_step aTree compare root h1 h2 h3 h4 op
    simp only [freshRun, e1, Bool.and_eq_true] at hf
    obtain ⟨root1, k1, k2, k3, k4⟩ := e2 hf.1
    obtain ⟨aTree2, root2, j1, j2⟩ := ih aTree1 root1 k1 k2 k3 k4 hf.2
    exact ⟨aTree2, root2, by simp only [runOps, e1, j1], j2⟩

/-! ## C20 -/

/-- C20.  Logarithmic height: when index 0 satisfies the three red-black invariants and holds
`count` nodes, the depth `d` that `TreeMaxDepth` returns satisfies
`2 ^ ceil(d / 2) ≤ count + 1`.  In particular this holds for the store left by any sequence of
`TreeAdd`, `TreeRemove` and `TreeRemoveKey` calls on an empty store in which every `TreeAdd`
adds a fresh key: the sequence returns, and index 0 of the store it leaves is red-black and
holds `count` nodes. -/
theorem C20_logarithmic_height :
    (∀ (aTree : Tree α) (ix : Index α), aTree.index[0]? = some ix → RedBlack ix.root →
      aTree.count = nodeCount ix.root →
      ∃ d : Nat, TreeMaxDepth aTree = .done (d : Int) ∧
        (2 : Int) ^ ((d + 1) / 2) ≤ aTree.count + 1) ∧
    (∀ (compare : α → α → Int → Int) (ops : List (Op α)),
      freshRun (TreeInitialize compare) ops = true →
      ∃ (aTree : Tree α) (root : Node α) (d : Nat),
        runOps (TreeInitialize compare) ops = some aTree ∧
        aTree.index = [⟨root, compare⟩] ∧ RedBlack root ∧ aTree.count = nodeCount root ∧
        TreeMaxDepth aTree = .done (d : Int) ∧
        (2 : Int) ^ ((d + 1) / 2) ≤ aTree.count + 1) := by
  have key : ∀ (aTree : Tree α) (ix : Index α), aTree.index[0]? = some ix →
      RedBlack ix.root → aTree.count = nodeCount ix.root →
      ∃ d : Nat, TreeMaxDepth aTree = .done (d : Int) ∧
        (2 : Int) ^ ((d + 1) / 2) ≤ aTree.count + 1 := by
    intro aTree ix hix hrb hcount
    refine ⟨height ix.root, ?_, ?_⟩
    · simp only [TreeMaxDepth, hix, TreeWalk_eq, zero_add]
    · rw [hcount]
      exact_mod_cast pow_height_le ix.root hrb
  refine ⟨key, ?_⟩
  intro compare ops hf
  obtain ⟨aTree, root, h1, h2, _, h4, h5⟩ := fresh_run compare ops (TreeInitialize compare)
    .null rfl rfl ⟨rfl, trivial, (equalBlackCount_iff_balanced _).2 trivial⟩ rfl hf
  obtain ⟨d, k1, k2⟩ := key aTree ⟨root, compare⟩ (by rw [h2]; rfl) h4 h5
  exact ⟨aTree, root, d, h1, h2, h4, h5, k1, k2⟩

theorem C20_logarithmic_height_witness :
    freshRun (TreeInitialize TreeIntCompare)
      [.add (rec 1) 4, .add (rec 2) 4, .add (rec 3) 4, .remove (rec 2), .add (rec 4) 4] = true ∧
    ∃ (aTree : Tree IntRec) (root : Node IntRec) (d : Nat),
      runOps (TreeInitialize TreeIntCompare)
        [.add (rec 1) 4, .add (rec 2) 4, .add (rec 3) 4, .remove (rec 2), .add (rec 4) 4] =
          some aTree ∧
      aTree.index = [⟨root, TreeIntCompare⟩] ∧ RedBlack root ∧ aTree.count = nodeCount root ∧
      TreeMaxDepth aTree = .done (d : Int) ∧
      (2 : Int) ^ ((d + 1) / 2) ≤ aTree.count + 1 :=
  ⟨by rfl, C20_logarithmic_height.2 TreeIntCompare _ (by rfl)⟩

/-! ## Lookups and removals that find nothing -/

/-- A lookup returns `NULL` when no record of the index compares zero with the key. -/
theorem find_search_none (compare : α → α → Int → Int) (key : α) (m : Int) (n : Node α)
    (path : List (Frame α)) (h : ∀ x ∈ inorder n, compare x.1 key m ≠ 0) :
    TreeFindIndex1.search compare key m n path = none := by
  cases hs : TreeFindIndex1.search compare key m n path with
  | none => rfl
  | some loc =>
    obtain ⟨r, c, s, lt, rt, _, hc, _, a, b, e1, _⟩ := find_search_sound _ _ _ _ _ _ hs
    exact absurd hc (h (c, s) (by rw [e1]; simp))

theorem TreeRemoveIndex_none (aTree : Tree α) (content : α) (index : Nat) (ix : Index α)
    (hix : aTree.index[index]? = some ix)
    (h : ∀ x ∈ inorder ix.root, ix.compare x.1 content 1 ≠ 0) :
    TreeRemoveIndex aTree content index = .done (none, aTree) := by
  simp only [TreeRemoveIndex, TreeFindContentIndex, TreeFindIndex1_done aTree content index 1 ix hix,
    find_search_none ix.compare content 1 ix.root [] h]

theorem TreeRemove_loop_none (aTree : Tree α) (content : α)
    (h : ∀ ix ∈ aTree.index, ∀ x ∈ inorder ix.root, ix.compare x.1 content 1 ≠ 0) :
    ∀ (n i : Nat) (rc : Option α), i + n = aTree.index.length →
      TreeRemove.loop content n i rc aTree = .done (if n = 0 then rc else none, aTree) := by
  intro n
  induction n with
  | zero => intro i rc _; rfl
  | succ n ih =>
    intro i rc hlen
    have hi : i < aTree.index.length := by omega
    have hix : aTree.index[i]? = some (aTree.index[i]) := List.getElem?_eq_getElem hi
    have hnone := TreeRemoveIndex_none aTree content i _ hix
      (h _ (List.getElem_mem hi))
    simp only [TreeRemove.loop, hnone, ih (i + 1) none (by omega)]
    simp

/-! ## C15 -/

/-- C15.  Not-found is a normal result that changes nothing: when no record of the searched
index compares zero with the key (in key mode), `TreeFindIndex` returns `NULL` and
`TreeRemoveKeyIndex` returns `NULL` with the store exactly as it was; when no record of the
searched index compares zero with the record (in identity mode), `TreeRemoveIndex` returns
`NULL` with the store as it was; and when this holds for every index, which `TreeRemove`
searches in turn, `TreeRemove` returns `NULL` with the store as it was.  The store returned
being the store given, every index's tree, `count` and `size` are identical. -/
theorem C15_not_found_changes_nothing (aTree : Tree α) (key : α) :
    (∀ index ix, aTree.index[index]? = some ix →
      (∀ x ∈ inorder ix.root, ix.compare x.1 key 0 ≠ 0) →
      TreeFindIndex aTree key index = .done none ∧
      TreeRemoveKeyIndex aTree key index = .done (none, aTree)) ∧
    (∀ index ix, aTree.index[index]? = some ix →
      (∀ x ∈ inorder ix.root, ix.compare x.1 key 1 ≠ 0) →
      TreeRemoveIndex aTree key index = .done (none, aTree)) ∧
    ((∀ ix ∈ aTree.index, ∀ x ∈ inorder ix.root, ix.compare x.1 key 1 ≠ 0) →
      TreeRemove aTree key = .done (none, aTree)) := by
  refine ⟨?_, ?_, ?_⟩
  · intro index ix hix h
    have h1 : TreeFindIndex aTree key index = .done none := by
      simp only [TreeFindIndex, TreeFindIndex1_done aTree key index 0 ix hix,
        find_search_none ix.compare key 0 ix.root [] h]
    exact ⟨h1, by simp only [TreeRemoveKeyIndex, h1]⟩
  · intro index ix hix h
    exact TreeRemoveIndex_none aTree key index ix hix h
  · intro h
    have := TreeRemove_loop_none aTree key h aTree.index.length 0 none (by omega)
    simp only [TreeRemove, this]
    simp

theorem C15_not_found_changes_nothing_witness :
    (∀ x ∈ inorder sixTree, TreeIntCompare x.1 (rec 9) 0 ≠ 0) ∧
    TreeFindIndex sixStore (rec 9) 0 = .done none ∧
    TreeRemoveKeyIndex sixStore (rec 9) 0 = .done (none, sixStore) :=
  ⟨by decide,
    (C15_not_found_changes_nothing sixStore (rec 9)).1 0 ⟨sixTree, TreeIntCompare⟩ rfl
      (by decide)⟩

/-! ## C17 -/

/-- C17.  Only the primary index does the bookkeeping, and the indices are independent: a
call of `TreeAddByIndex` or of `TreeRemoveNodeIndex` on `index[index]` that returns leaves
`count` and `size` as they were when `index` is not 0, and leaves every other index `j` as it
was (root, shape, colours, records and comparator).  The calls do return: `TreeAddByIndex` in
a store with duplicates disallowed, `TreeRemoveNodeIndex` for a pointer to a node. -/
theorem C17_bookkeeping_only_in_primary_index (aTree : Tree α) (index : Nat) :
    (∀ content size rc aTree1, TreeAddByIndex aTree content size index = .done (rc, aTree1) →
      (index ≠ 0 → aTree1.count = aTree.count ∧ aTree1.size = aTree.size) ∧
      ∀ j, j ≠ index → aTree1.index[j]? = aTree.index[j]?) ∧
    (∀ curnode c aTree1, TreeRemoveNodeIndex aTree curnode index = .done (c, aTree1) →
      (index ≠ 0 → aTree1.count = aTree.count ∧ aTree1.size = aTree.size) ∧
      ∀ j, j ≠ index → aTree1.index[j]? = aTree.index[j]?) ∧
    (∀ ix, aTree.index[index]? = some ix →
      (aTree.allow_duplicates = false → ∀ content size,
        ∃ rc aTree1, TreeAddByIndex aTree content size index = .done (rc, aTree1)) ∧
      (∀ curnode : Loc α, curnode.focus.isNull = false →
        ∃ c aTree1, TreeRemoveNodeIndex aTree curnode index = .done (c, aTree1))) := by
  have hset : ∀ (t : Tree α) (root : Node α), t.index = aTree.index →
      ∀ j, j ≠ index → (t.setRoot index root).index[j]? = aTree.index[j]? := by
    intro t root ht j hj
    simp only [Tree.setRoot]
    rw [setRootAt_getElem?_ne root index j _ (Ne.symm hj), ht]
  refine ⟨?_, ?_, ?_⟩
  · intro content size rc aTree1 h
    simp only [TreeAddByIndex] at h
    split at h
    · cases h
    · split at h
      · split at h
        · cases h
        · split at h
          · cases h
          · cases h
            refine ⟨fun h0 => by simp [h0, Tree.setRoot], hset _ _ (by split <;> rfl)⟩
      · split at h
        · cases h
        · cases h
          refine ⟨fun h0 => by simp [h0, Tree.setRoot], hset _ _ (by split <;> rfl)⟩
  · intro curnode c aTree1 h
    simp only [TreeRemoveNodeIndex] at h
    split at h
    · split at h
      · cases h
      · cases h
        refine ⟨fun h0 => by simp [h0, Tree.setRoot], ?_⟩
        intro j hj
        split <;> exact hset aTree _ rfl j hj
    · cases h
  · intro ix hix
    refine ⟨?_, ?_⟩
    · intro hdup content size
      obtain ⟨rc, aTree1, _, _, _, e, _⟩ := TreeAddByIndex_spec aTree content size index ix hix hdup
      exact ⟨rc, aTree1, e⟩
    · intro curnode hnn
      obtain ⟨focus, path⟩ := curnode
      cases focus with
      | null => cases hnn
      | node r c s lt rt =>
        obtain ⟨root, h1, _⟩ := unlink_total r c s lt rt path
        obtain ⟨aTree1, k, _⟩ := TreeRemoveNodeIndex_done aTree _ index ix c s root hix h1
        exact ⟨c, aTree1, k⟩

theorem C17_bookkeeping_only_in_primary_index_witness :
    TreeAddByIndex (TreeAddIndex sixStore TreePtrCompare) (rec 7) 4 1 =
      .done (none, { (TreeAddIndex sixStore TreePtrCompare) with
        index := [⟨sixTree, TreeIntCompare⟩,
          ⟨.node false (rec 7) 4 .null .null, TreePtrCompare⟩] }) ∧
    ((1 ≠ 0 → (6 : Int) = 6 ∧ (24 : Int) = 24) ∧
      ∀ j, j ≠ 1 →
        [(⟨sixTree, TreeIntCompare⟩ : Index IntRec),
          ⟨.node false (rec 7) 4 .null .null, TreePtrCompare⟩][j]? =
        (TreeAddIndex sixStore TreePtrCompare).index[j]?) :=
  ⟨rfl, (C17_bookkeeping_only_in_primary_index (TreeAddIndex sixStore TreePtrCompare) 1).1
    (rec 7) 4 none _ rfl⟩

/-! ## The descents of insertion and of lookup -/

/-- The search of `TreeAddByIndex` is the descent of `TreeFindIndex1` in mode 1. -/
theorem search_eq_descent (compare : α → α → Int → Int) (content : α) :
    ∀ (n : Node α) (path : List (Frame α)),
      TreeAddByIndex.search compare content n path =
        TreeFindIndex1.descent compare content 1 n path := by
  intro n
  induction n with
  | null => intro path; rfl
  | node r c s lt rt ihl ihr =>
    intro path
    simp only [TreeAddByIndex.search, TreeFindIndex1.descent, ihl, ihr]

/-- The loop of `TreeFindIndex1` returns the place where its descent stops, if a node is
there. -/
theorem find_eq_descent (compare : α → α → Int → Int) (key : α) (m : Int) :
    ∀ (n : Node α) (path : List (Frame α)),
      TreeFindIndex1.search compare key m n path =
        if (TreeFindIndex1.descent compare key m n path).focus.isNull then none
        else some (TreeFindIndex1.descent compare key m n path) := by
  intro n
  induction n with
  | null => intro path; rfl
  | node r c s lt rt ihl ihr =>
    intro path
    simp only [TreeFindIndex1.search, TreeFindIndex1.descent]
    split
    · rfl
    · split
      · exact ihr _
      · exact ihl _

theorem descent_mode (compare : α → α → Int → Int) (key : α) (m1 m2 : Int)
    (h : ∀ a b, compare a b m1 = compare a b m2) :
    ∀ (n : Node α) (path : List (Frame α)),
      TreeFindIndex1.descent compare key m1 n path =
        TreeFindIndex1.descent compare key m2 n path := by
  intro n
  induction n with
  | null => intro path; rfl
  | node r c s lt rt ihl ihr =>
    intro path
    simp only [TreeFindIndex1.descent, h, ihl, ihr]

/-- The search of `TreeAddByIndex` stops at a node when a comparison on its way is zero. -/
theorem search_match (compare : α → α → Int → Int) (content : α) :
    ∀ (n : Node α) (path : List (Frame α)), ¬ FreshOnPath compare content n →
      ∃ r c s lt rt path1,
        TreeAddByIndex.search compare content n path = ⟨.node r c s lt rt, path1⟩ := by
  intro n
  induction n with
  | null => intro path h; exact absurd trivial h
  | node r c s lt rt ihl ihr =>
    intro path h
    simp only [FreshOnPath] at h
    simp only [TreeAddByIndex.search]
    by_cases h0 : compare c content 1 = 0
    · exact ⟨r, c, s, lt, rt, path, by simp only [h0, ↓reduceIte]⟩
    · simp only [h0, ↓reduceIte]
      by_cases h1 : compare c content 1 > 0
      · simp only [h1, ↓reduceIte] at h ⊢
        exact ihr _ (fun hf => h ⟨h0, hf⟩)
      · simp only [h1, ↓reduceIte] at h ⊢
        exact ihl _ (fun hf => h ⟨h0, hf⟩)

/-- In an ordered index under a total order, a record that compares zero with `content` lies
on the search path of `content`. -/
theorem not_fresh_of_mem (compare : α → α → Int → Int) (content : α) (n : Node α)
    (htot : TotalOrder compare 1) (hord : Ordered compare 1 n)
    (h : ∃ x ∈ inorder n, compare x.1 content 1 = 0) : ¬ FreshOnPath compare content n := by
  intro hf
  have h1 := search_fresh compare content n [] hf
  have h2 := find_eq_descent compare content 1 n []
  rw [← search_eq_descent, h1] at h2
  obtain ⟨x, hx, h0⟩ := h
  exact find_search_complete compare content 1 htot n [] hord h2 x hx h0

/-! ## C12 -/

/-- C12.  The records of two indices come apart: in the store with an index by `id` and an
index by `name`, both registered while it was empty, duplicates disallowed, `TreeAdd` of
`{id 1, name "a"}` and then of `{id 1, name "b"}` returns both times and leaves index 0 with
the single node `{1, "b"}`, index 1 with the two nodes `{1, "a"}` and `{1, "b"}`, and `count`
at 1: the record `{1, "a"}` is reachable in the index by `name` and in no node of the index by
`id`. -/
theorem C12_indices_come_apart :
    ∃ aTree ix0 ix1,
      addAll idNameStore [(⟨1, [97]⟩, 8), (⟨1, [98]⟩, 8)] = some aTree ∧
      aTree.allow_duplicates = false ∧ aTree.index = [ix0, ix1] ∧ aTree.count = 1 ∧
      (inorder ix0.root).map Prod.fst = [⟨1, [98]⟩] ∧
      (inorder ix1.root).map Prod.fst = [⟨1, [97]⟩, ⟨1, [98]⟩] :=
  ⟨_, _, _, rfl, rfl, rfl, rfl, rfl, rfl⟩

/-! ## C13 -/

/-- C13.  A replaced record is dropped: in the store with an index by `id` and an index by
`name` that holds `{id 1, name "a"}`, `TreeAdd` of `{id 1, name "b"}` replaces the record
`{1, "a"}` in the primary index 0 (`TreeAddByIndex` on index 0 returns it), yet `TreeAdd`
returns `NULL`, the value of the last index, in which the name `"b"` was fresh. -/
theorem C13_replaced_record_is_dropped :
    ∃ t1 t2 t3, TreeAdd idNameStore ⟨1, [97]⟩ 8 = .done (none, t1) ∧
      TreeAddByIndex t1 ⟨1, [98]⟩ 8 0 = .done (some ⟨1, [97]⟩, t2) ∧
      TreeAdd t1 ⟨1, [98]⟩ 8 = .done (none, t3) ∧
      (t3.index.map fun ix => (inorder ix.root).map Prod.fst) =
        [[⟨1, [98]⟩], [⟨1, [97]⟩, ⟨1, [98]⟩]] :=
  ⟨_, _, _, rfl, rfl, rfl, rfl⟩

/-! ## C14 -/

/-- C14, as stated, fails: with `allow_duplicates` set, `TreeAddByIndex` of a record with the
key 3 on the integer store holding 1..6 does not complete normally; the process is ended with
`exit(-99)`. -/
theorem C14_counterexample :
    TreeAddByIndex { sixStore with allow_duplicates := true } ⟨9, 3⟩ 4 0 = .exited (-99) ∧
    ¬ ∃ rc aTree1,
      TreeAddByIndex { sixStore with allow_duplicates := true } ⟨9, 3⟩ 4 0 =
        .done (rc, aTree1) :=
  ⟨rfl, fun ⟨_, _, h⟩ => Outcome.noConfusion h⟩

/-- C14, amended.  With `allow_duplicates` set, for every index and every record whose key
matches an existing node (a comparison on the search path of the record is zero, which in an
ordered index under a total-order comparator is the case as soon as a stored record compares
zero with it), `TreeAddByIndex` ends the process with `exit(-99)`: it does not return, and no
node is added. -/
theorem C14_duplicates_allowed_exits (aTree : Tree α) (content : α) (size : Int)
    (index : Nat) (ix : Index α) (hix : aTree.index[index]? = some ix)
    (hdup : aTree.allow_duplicates = true) :
    (¬ FreshOnPath ix.compare content ix.root →
      TreeAddByIndex aTree content size index = .exited (-99)) ∧
    (TotalOrder ix.compare 1 → Ordered ix.compare 1 ix.root →
      (∃ x ∈ inorder ix.root, ix.compare x.1 content 1 = 0) →
      TreeAddByIndex aTree content size index = .exited (-99)) := by
  have key : ¬ FreshOnPath ix.compare content ix.root →
      TreeAddByIndex aTree content size index = .exited (-99) := by
    intro h
    obtain ⟨r, c, s, lt, rt, path1, e⟩ := search_match ix.compare content ix.root [] h
    simp only [TreeAddByIndex, hix, e, hdup, ↓reduceIte]
  exact ⟨key, fun htot hord h => key (not_fresh_of_mem _ _ _ htot hord h)⟩

theorem C14_duplicates_allowed_exits_witness :
    ({ sixStore with allow_duplicates := true } : Tree IntRec).index[0]? =
      some ⟨sixTree, TreeIntCompare⟩ ∧
    ¬ FreshOnPath TreeIntCompare ⟨9, 3⟩ sixTree ∧
    TreeAddByIndex { sixStore with allow_duplicates := true } ⟨9, 3⟩ 4 0 = .exited (-99) :=
  ⟨rfl, by simp [FreshOnPath, sixTree, TreeIntCompare, rec],
    (C14_duplicates_allowed_exits { sixStore with allow_duplicates := true } ⟨9, 3⟩ 4 0
      ⟨sixTree, TreeIntCompare⟩ rfl rfl).1 (by simp [FreshOnPath, sixTree, TreeIntCompare, rec])⟩

/-! ## C16 -/

/-- C16.  The string comparator gives a descending walk: the strings `"a"`, `"b"`, `"c"` added
with `TreeAdd` to a store created with `TreeStringCompare` are yielded by the `TreeNextElement`
walk as `"c"`, `"b"`, `"a"`, although `strcmp` places `"a"` before `"b"` before `"c"`; the
integers 1, 2, 3 in a store created with `TreeIntCompare` are yielded as 1, 2, 3. -/
theorem C16_string_walk_descends :
    ∃ aTree l1 l2 l3 bTree k1 k2 k3,
      addAll (TreeInitialize TreeStringCompare) [([97], 2), ([98], 2), ([99], 2)] =
        some aTree ∧
      nextCalls aTree 0 1 = .done (some l1) ∧ l1.content? = some [99] ∧
      nextCalls aTree 0 2 = .done (some l2) ∧ l2.content? = some [98] ∧
      nextCalls aTree 0 3 = .done (some l3) ∧ l3.content? = some [97] ∧
      nextCalls aTree 0 4 = .done none ∧
      strcmp [97] [98] < 0 ∧ strcmp [98] [99] < 0 ∧
      addAll (TreeInitialize TreeIntCompare) [(rec 1, 4), (rec 2, 4), (rec 3, 4)] =
        some bTree ∧
      nextCalls bTree 0 1 = .done (some k1) ∧ k1.content? = some (rec 1) ∧
      nextCalls bTree 0 2 = .done (some k2) ∧ k2.content? = some (rec 2) ∧
      nextCalls bTree 0 3 = .done (some k3) ∧ k3.content? = some (rec 3) :=
  ⟨_, _, _, _, _, _, _, _, rfl, rfl, rfl, rfl, rfl, rfl, rfl, rfl, by decide, by decide,
    rfl, rfl, rfl, rfl, rfl, rfl, rfl⟩

/-! ## C18 -/

/-- C18, as stated, fails: under a comparator that depends on its mode (the integers in key
mode, the addresses in content mode), in the index holding 1..6, the search of
`TreeAddByIndex` for the record at address 9 with the integer 3 visits 2, 4, 5, 6 and runs off
the tree, so that a seventh node is added, whereas `TreeFindIndex` visits 2, 4 and finds the
node of 3. -/
theorem C18_counterexample :
    ((TreeAddByIndex.search modeCompare ⟨9, 3⟩ sixTree []).focus = .null ∧
      (TreeAddByIndex.search modeCompare ⟨9, 3⟩ sixTree []).path.map (fun f => f.content) =
        [rec 6, rec 5, rec 4, rec 2]) ∧
    (∃ loc, TreeFindIndex { sixStore with index := [⟨sixTree, modeCompare⟩] } ⟨9, 3⟩ 0 =
        .done (some loc) ∧ loc.content? = some (rec 3) ∧
      loc.path.map (fun f => f.content) = [rec 4, rec 2]) ∧
    (∃ aTree1, TreeAddByIndex { sixStore with index := [⟨sixTree, modeCompare⟩] } ⟨9, 3⟩ 4 0 =
        .done (none, aTree1) ∧ aTree1.count = 7) ∧
    TreeAddByIndex.search modeCompare ⟨9, 3⟩ sixTree [] ≠
      TreeFindIndex1.descent modeCompare ⟨9, 3⟩ 0 sixTree [] :=
  ⟨⟨rfl, rfl⟩, ⟨_, rfl, rfl, rfl⟩, ⟨_, rfl, rfl⟩, by decide⟩

/-- C18, amended.  Insertion navigates in content mode: the search descent of `TreeAddByIndex`
calls the comparator with the mode flag 1, the flag of the content lookup
`TreeFindContentIndex`; it visits exactly the node path of that lookup and stops at a match
exactly when that lookup finds one, at the same node.  For a comparator that gives the same
result in both modes this is also the path and the result of the key-mode lookup
`TreeFindIndex`. -/
theorem C18_insertion_navigates_in_content_mode (aTree : Tree α) (content : α) (index : Nat)
    (ix : Index α) (hix : aTree.index[index]? = some ix) :
    TreeAddByIndex.search ix.compare content ix.root [] =
      TreeFindIndex1.descent ix.compare content 1 ix.root [] ∧
    TreeFindContentIndex aTree content index =
      .done (if (TreeAddByIndex.search ix.compare content ix.root []).focus.isNull then none
        else some (TreeAddByIndex.search ix.compare content ix.root [])) ∧
    ((∀ a b, ix.compare a b 0 = ix.compare a b 1) →
      TreeAddByIndex.search ix.compare content ix.root [] =
        TreeFindIndex1.descent ix.compare content 0 ix.root [] ∧
      TreeFindIndex aTree content index =
        .done (if (TreeAddByIndex.search ix.compare content ix.root []).focus.isNull then none
          else some (TreeAddByIndex.search ix.compare content ix.root []))) := by
  have h1 := search_eq_descent ix.compare content ix.root []
  refine ⟨h1, ?_, ?_⟩
  · rw [TreeFindContentIndex, TreeFindIndex1_done aTree content index 1 ix hix,
      find_eq_descent, ← h1]
  · intro hm
    have h2 := descent_mode ix.compare content 0 1 hm ix.root []
    refine ⟨by rw [h1, h2], ?_⟩
    rw [TreeFindIndex, TreeFindIndex1_done aTree content index 0 ix hix,
      find_eq_descent, h2, ← h1]

theorem C18_insertion_navigates_in_content_mode_witness :
    sixStore.index[0]? = some ⟨sixTree, TreeIntCompare⟩ ∧
    TreeAddByIndex.search TreeIntCompare (rec 3) sixTree [] =
      TreeFindIndex1.descent TreeIntCompare (rec 3) 1 sixTree [] ∧
    TreeFindContentIndex sixStore (rec 3) 0 =
      .done (if (TreeAddByIndex.search TreeIntCompare (rec 3) sixTree []).focus.isNull
        then none else some (TreeAddByIndex.search TreeIntCompare (rec 3) sixTree [])) :=
  ⟨rfl, (C18_insertion_navigates_in_content_mode sixStore (rec 3) 0
      ⟨sixTree, TreeIntCompare⟩ rfl).1,
    (C18_insertion_navigates_in_content_mode sixStore (rec 3) 0
      ⟨sixTree, TreeIntCompare⟩ rfl).2.1⟩

/-! ## Two indices over the same records -/

/-- In a strictly ordered index, a key that compares zero with a stored record is found, at the
node of that record. -/
theorem find_present (aTree : Tree α) (k : α) (index : Nat) (ix : Index α)
    (hix : aTree.index[index]? = some ix) (htot : TotalOrder ix.compare 1)
    (hm : ∀ a b, ix.compare a b 0 = ix.compare a b 1)
    (hord : (inorder ix.root).Pairwise fun x y => 0 < ix.compare x.1 y.1 1)
    (x : α × Int) (hx : x ∈ inorder ix.root) (h0 : ix.compare x.1 k 0 = 0) :
    ∃ loc, TreeFindIndex aTree k index = .done (some loc) ∧ loc.content? = some x.1 := by
  rw [TreeFindIndex, TreeFindIndex1_done aTree k index 0 ix hix]
  have htot0 := totalOrder_mode ix.compare htot hm
  cases hs : TreeFindIndex1.search ix.compare k 0 ix.root [] with
  | none =>
    have hord0 : Ordered ix.compare 0 ix.root :=
      List.Pairwise.imp (fun h => by rw [hm]; omega) hord
    exact absurd h0 (find_search_complete ix.compare k 0 htot0 ix.root [] hord0 hs x hx)
  | some loc =>
    obtain ⟨r, c, s, lt, rt, k1, k2, _, a, b, e1, _⟩ :=
      find_search_sound ix.compare k 0 ix.root [] loc hs
    refine ⟨loc, rfl, ?_⟩
    have hc : ix.compare c x.1 1 = 0 := by
      rw [hm] at k2 h0
      exact htot.zero_trans c k x.1 k2 (htot.symm_zero _ _ h0)
    have hcx := strict_unique ix.compare htot _ hord (c, s) x (by rw [e1]; simp) hx hc
    simp only [Loc.content?, k1, ← hcx]

/-- In a strictly ordered sequence, once the entry of `r` is taken out, no record left compares
zero with a key of `r`. -/
theorem absent_after (compare : α → α → Int → Int) (htot : TotalOrder compare 1)
    (hm : ∀ a b, compare a b 0 = compare a b 1) (a b : List (α × Int)) (r : α) (s : Int)
    (hord : (a ++ (r, s) :: b).Pairwise fun x y => 0 < compare x.1 y.1 1) (k : α)
    (hk : compare r k 0 = 0) : ∀ x ∈ a ++ b, compare x.1 k 0 ≠ 0 := by
  intro x hx h0
  rw [hm] at hk h0
  have hxr : compare x.1 r 1 = 0 := htot.zero_trans _ _ _ h0 (htot.symm_zero _ _ hk)
  rw [List.pairwise_append] at hord
  obtain ⟨_, hb, hab⟩ := hord
  rw [List.pairwise_cons] at hb
  rcases List.mem_append.1 hx with h | h
  · have h1 := hab x h (r, s) (by simp)
    simp only at h1
    omega
  · have h1 := hb.1 x h
    have h2 := htot.symm_zero _ _ hxr
    simp only at h1
    omega

/-- `TreeRemoveKeyIndex` on index `i` of a store with the two indices `i` and `j` over the same
records: the record is taken out of both. -/
theorem cascade_two (aTree : Tree α) (i j : Nat) (ixi ixj : Index α) (key r : α) (s : Int)
    (hlen : aTree.index.length = 2) (hij : i ≠ j)
    (hi : aTree.index[i]? = some ixi) (hj : aTree.index[j]? = some ixj)
    (hti : TotalOrder ixi.compare 1) (htj : TotalOrder ixj.compare 1)
    (hmi : ∀ a b, ixi.compare a b 0 = ixi.compare a b 1)
    (hoi : (inorder ixi.root).Pairwise fun x y => 0 < ixi.compare x.1 y.1 1)
    (hoj : (inorder ixj.root).Pairwise fun x y => 0 < ixj.compare x.1 y.1 1)
    (hperm : (inorder ixi.root).Perm (inorder ixj.root))
    (hr : (r, s) ∈ inorder ixi.root) (hkey : ixi.compare r key 0 = 0) :
    ∃ aTree1 rooti rootj ai bi aj bj,
      TreeRemoveKeyIndex aTree key i = .done (some r, aTree1) ∧
      aTree1.index[i]? = some { ixi with root := rooti } ∧
      aTree1.index[j]? = some { ixj with root := rootj } ∧
      aTree1.index.length = 2 ∧
      inorder ixi.root = ai ++ (r, s) :: bi ∧ inorder rooti = ai ++ bi ∧
      inorder ixj.root = aj ++ (r, s) :: bj ∧ inorder rootj = aj ++ bj ∧
      aTree1.count = aTree.count - 1 := by
  have hli := lt_length_of_getElem? _ _ _ hi
  have hlj := lt_length_of_getElem? _ _ _ hj
  have hti0 := totalOrder_mode ixi.compare hti hmi
  rcases findRemove_spec aTree key i 0 ixi hi with
    e | ⟨loc, c0, s0, a, b, root1, aTree1, e0, e1, e2, e3, e4, e5, e6, e7, _, e9, _⟩
  · exfalso
    rw [TreeFindIndex1_done aTree key i 0 ixi hi] at e
    have hs : TreeFindIndex1.search ixi.compare key 0 ixi.root [] = none := by
      simpa using e
    have hord0 : Ordered ixi.compare 0 ixi.root :=
      List.Pairwise.imp (fun h => by rw [hmi]; omega) hoi
    exact find_search_complete ixi.compare key 0 hti0 ixi.root [] hord0 hs _ hr hkey
  · have hc : ixi.compare c0 r 1 = 0 := by
      rw [hmi] at e1 hkey
      exact hti.zero_trans c0 key r e1 (hti.symm_zero _ _ hkey)
    have hcr := strict_unique ixi.compare hti _ hoi (c0, s0) (r, s) (by rw [e2]; simp) hr hc
    cases hcr
    have hj1 : aTree1.index[j]? = some ixj := by rw [e6 j (Ne.symm hij), hj]
    have hrj : (r, s) ∈ inorder ixj.root := hperm.subset hr
    rcases TreeRemoveIndex_spec aTree1 r j ixj hj1 with
      ⟨f, _⟩ | ⟨c1, s1, a1, b1, root2, aTree2, f0, f1, f2, f3, f4, f5, f6, _, f8, _⟩
    · exfalso
      have hordj : Ordered ixj.compare 1 ixj.root :=
        List.Pairwise.imp (fun h => by omega) hoj
      exact find_search_complete ixj.compare r 1 htj ixj.root [] hordj f _ hrj
        (htj.refl_zero r)
    · have hcr := strict_unique ixj.compare htj _ hoj (c1, s1) (r, s) (by rw [f2]; simp) hrj f1
      cases hcr
      have hlen1 : aTree1.index.length = 2 := by rw [e7, hlen]
      refine ⟨aTree2, root1, root2, a, b, a1, b1, ?_, ?_, f4, by rw [f6, hlen1], e2, e3,
        f2, f3, ?_⟩
      · have hcases : (i = 0 ∧ j = 1) ∨ (i = 1 ∧ j = 0) := by omega
        rcases hcases with ⟨hi0, hj0⟩ | ⟨hi0, hj0⟩
        · subst hi0 hj0
          simp [TreeRemoveKeyIndex, TreeFindIndex, e0, e4, hlen1, TreeRemoveKeyIndex.loop, f0]
        · subst hi0 hj0
          simp [TreeRemoveKeyIndex, TreeFindIndex, e0, e4, hlen1, TreeRemoveKeyIndex.loop, f0]
      · rw [f5 i hij, e5]
      · rw [f8, e9]
        have hcases : (i = 0 ∧ j = 1) ∨ (i = 1 ∧ j = 0) := by omega
        rcases hcases with ⟨hi0, hj0⟩ | ⟨hi0, hj0⟩ <;> simp [hi0, hj0]

/-! ## The comparators by `id` and by `name` -/

theorem strcmp_antisymm : ∀ a b : List Nat, 0 < strcmp a b ↔ strcmp b a < 0
  | [], [] => by simp [strcmp]
  | [], b :: _ => by simp only [strcmp]; omega
  | a :: _, [] => by simp only [strcmp]; omega
  | a :: as, b :: bs => by
    simp only [strcmp]
    by_cases h : a = b
    · subst h
      simp only [↓reduceIte]
      by_cases h0 : a = 0
      · simp [h0]
      · simp only [h0, ↓reduceIte]
        exact strcmp_antisymm as bs
    · have h1 : ¬ b = a := fun e => h e.symm
      simp only [h, h1, ↓reduceIte]
      omega

theorem strcmp_trans : ∀ a b c : List Nat,
    0 ≤ strcmp a b → 0 ≤ strcmp b c → 0 ≤ strcmp a c
  | [], [], _ => fun _ h => h
  | [], _ :: _, [] => fun _ _ => by simp [strcmp]
  | [], y :: bs, z :: cs => by
    simp only [strcmp]
    intro h1 h2
    split_ifs at h2 <;> omega
  | x :: _, [], [] => fun h _ => h
  | x :: as, [], z :: cs => by
    simp only [strcmp]
    intro h1 h2
    split_ifs <;> omega
  | x :: _, y :: _, [] => by
    simp only [strcmp]
    intro _ _
    omega
  | x :: as, y :: bs, z :: cs => by
    simp only [strcmp]
    intro h1 h2
    by_cases hxy : x = y
    · subst hxy
      by_cases hxz : x = z
      · subst hxz
        by_cases h0 : x = 0
        · simp [h0]
        · simp only [↓reduceIte, h0] at h1 h2 ⊢
          exact strcmp_trans as bs cs h1 h2
      · simp only [hxz, ↓reduceIte] at h2 ⊢
        exact h2
    · by_cases hyz : y = z
      · subst hyz
        simp only [hxy, ↓reduceIte] at h1 ⊢
        exact h1
      · simp only [hxy, hyz, ↓reduceIte] at h1 h2
        have hxz : ¬ x = z := by omega
        simp only [hxz, ↓reduceIte]
        omega

theorem totalOrder_idCompare (m : Int) : TotalOrder idCompare m := by
  constructor
  · intro a b
    simp only [idCompare]
    split_ifs <;> omega
  · intro a b c h1 h2
    simp only [idCompare] at h1 h2 ⊢
    split_ifs at h1 h2 ⊢ <;> omega

theorem totalOrder_nameCompare (m : Int) : TotalOrder nameCompare m :=
  ⟨fun a b => strcmp_antisymm b.name a.name,
   fun a b c h1 h2 => strcmp_trans c.name b.name a.name h2 h1⟩

theorem index_eq_pair (l : List (Index α)) (x y : Index α) (hlen : l.length = 2)
    (h0 : l[0]? = some x) (h1 : l[1]? = some y) : l = [x, y] := by
  match l, hlen with
  | [a, b], _ =>
    simp only [List.getElem?_cons_zero, List.getElem?_cons_succ, Option.some.injEq] at h0 h1
    rw [h0, h1]

/-- After a record is taken out of both indices of a store, its keys are found in neither and
the keys of every other record are found in both. -/
theorem cascade_facts (aTree1 : Tree α) (cmp0 cmp1 : α → α → Int → Int)
    (root0 root1 root0' root1' : Node α) (r : α) (s : Int) (a0 b0 a1 b1 : List (α × Int))
    (hidx : aTree1.index = [⟨root0', cmp0⟩, ⟨root1', cmp1⟩])
    (ht0 : TotalOrder cmp0 1) (ht1 : TotalOrder cmp1 1)
    (hm0 : ∀ a b, cmp0 a b 0 = cmp0 a b 1) (hm1 : ∀ a b, cmp1 a b 0 = cmp1 a b 1)
    (ho0 : StrictlyOrdered cmp0 1 root0) (ho1 : StrictlyOrdered cmp1 1 root1)
    (hperm : (inorder root0).Perm (inorder root1))
    (e0 : inorder root0 = a0 ++ (r, s) :: b0) (e0' : inorder root0' = a0 ++ b0)
    (e1 : inorder root1 = a1 ++ (r, s) :: b1) (e1' : inorder root1' = a1 ++ b1) :
    (∀ k, cmp0 r k 0 = 0 → TreeFindIndex aTree1 k 0 = .done none) ∧
    (∀ k, cmp1 r k 0 = 0 → TreeFindIndex aTree1 k 1 = .done none) ∧
    (∀ x ∈ inorder root0, x ≠ (r, s) →
      (∀ k, cmp0 x.1 k 0 = 0 →
        ∃ loc, TreeFindIndex aTree1 k 0 = .done (some loc) ∧ loc.content? = some x.1) ∧
      (∀ k, cmp1 x.1 k 0 = 0 →
        ∃ loc, TreeFindIndex aTree1 k 1 = .done (some loc) ∧ loc.content? = some x.1)) := by
  have hix0 : aTree1.index[0]? = some ⟨root0', cmp0⟩ := by rw [hidx]; rfl
  have hix1 : aTree1.index[1]? = some ⟨root1', cmp1⟩ := by rw [hidx]; rfl
  have hs0 : (a0 ++ (r, s) :: b0).Pairwise fun x y => 0 < cmp0 x.1 y.1 1 := by
    rw [← e0]; exact ho0
  have hs1 : (a1 ++ (r, s) :: b1).Pairwise fun x y => 0 < cmp1 x.1 y.1 1 := by
    rw [← e1]; exact ho1
  have hs0' : (inorder root0').Pairwise fun x y => 0 < cmp0 x.1 y.1 1 := by
    rw [e0']
    exact hs0.sublist (List.Sublist.append (List.Sublist.refl a0) (List.sublist_cons_self _ b0))
  have hs1' : (inorder root1').Pairwise fun x y => 0 < cmp1 x.1 y.1 1 := by
    rw [e1']
    exact hs1.sublist (List.Sublist.append (List.Sublist.refl a1) (List.sublist_cons_self _ b1))
  refine ⟨?_, ?_, ?_⟩
  · intro k hk
    rw [TreeFindIndex, TreeFindIndex1_done aTree1 k 0 0 _ hix0]
    rw [find_search_none cmp0 k 0 root0' [] (by
      rw [e0']; exact absent_after cmp0 ht0 hm0 a0 b0 r s hs0 k hk)]
  · intro k hk
    rw [TreeFindIndex, TreeFindIndex1_done aTree1 k 1 0 _ hix1]
    rw [find_search_none cmp1 k 0 root1' [] (by
      rw [e1']; exact absent_after cmp1 ht1 hm1 a1 b1 r s hs1 k hk)]
  · intro x hx hne
    have hx0 : x ∈ inorder root0' := by
      rw [e0'] at *
      rw [e0] at hx
      simp only [List.mem_append, List.mem_cons] at hx ⊢
      tauto
    have hx1 : x ∈ inorder root1' := by
      have hx1 := hperm.subset hx
      rw [e1'] at *
      rw [e1] at hx1
      simp only [List.mem_append, List.mem_cons] at hx1 ⊢
      tauto
    exact ⟨fun k hk => find_present aTree1 k 0 _ hix0 ht0 hm0 hs0' x hx0 hk,
      fun k hk => find_present aTree1 k 1 _ hix1 ht1 hm1 hs1' x hx1 hk⟩

/-! ## C11 -/

/-- C11.  Cascade removal: in a store with two indices (by `id` and by `name`, or under any two
mode-blind total-order comparators) in which every record is exactly one node of each index
(both indices are strictly ordered and hold the same entries), `TreeRemoveKeyIndex` with a
key of the stored record `r` on the index of that key (index 0 with its `id`, or index 1 with
its `name`) returns `r`; afterwards the keys of `r` are found neither in index 0 nor in index
1, the keys of every other record are still found in both indices, at the node of that
record, and `count` is one less. -/
theorem C11_cascade_removal (aTree : Tree α) (cmp0 cmp1 : α → α → Int → Int)
    (root0 root1 : Node α) (r : α) (s : Int)
    (hidx : aTree.index = [⟨root0, cmp0⟩, ⟨root1, cmp1⟩])
    (ht0 : TotalOrder cmp0 1) (ht1 : TotalOrder cmp1 1)
    (hm0 : ∀ a b, cmp0 a b 0 = cmp0 a b 1) (hm1 : ∀ a b, cmp1 a b 0 = cmp1 a b 1)
    (ho0 : StrictlyOrdered cmp0 1 root0) (ho1 : StrictlyOrdered cmp1 1 root1)
    (hperm : (inorder root0).Perm (inorder root1)) (hr : (r, s) ∈ inorder root0)
    (i : Nat) (key : α)
    (hkey : (i = 0 ∧ cmp0 r key 0 = 0) ∨ (i = 1 ∧ cmp1 r key 0 = 0)) :
    ∃ aTree1 root0' root1', TreeRemoveKeyIndex aTree key i = .done (some r, aTree1) ∧
      aTree1.index = [⟨root0', cmp0⟩, ⟨root1', cmp1⟩] ∧
      aTree1.count = aTree.count - 1 ∧
      (∀ k, cmp0 r k 0 = 0 → TreeFindIndex aTree1 k 0 = .done none) ∧
      (∀ k, cmp1 r k 0 = 0 → TreeFindIndex aTree1 k 1 = .done none) ∧
      (∀ x ∈ inorder root0, x ≠ (r, s) →
        (∀ k, cmp0 x.1 k 0 = 0 →
          ∃ loc, TreeFindIndex aTree1 k 0 = .done (some loc) ∧ loc.content? = some x.1) ∧
        (∀ k, cmp1 x.1 k 0 = 0 →
          ∃ loc, TreeFindIndex aTree1 k 1 = .done (some loc) ∧ loc.content? = some x.1)) := by
  have hlen : aTree.index.length = 2 := by rw [hidx]; rfl
  have hix0 : aTree.index[0]? = some ⟨root0, cmp0⟩ := by rw [hidx]; rfl
  have hix1 : aTree.index[1]? = some ⟨root1, cmp1⟩ := by rw [hidx]; rfl
  rcases hkey with ⟨hi, hk⟩ | ⟨hi, hk⟩
  · subst hi
    obtain ⟨aTree1, rooti, rootj, a0, b0, a1, b1, e1, e2, e3, e4, e5, e6, e7, e8, e9⟩ :=
      cascade_two aTree 0 1 _ _ key r s hlen (by decide) hix0 hix1 ht0 ht1 hm0 ho0 ho1
        hperm hr hk
    have hidx1 := index_eq_pair _ _ _ e4 e2 e3
    exact ⟨aTree1, rooti, rootj, e1, hidx1, e9,
      cascade_facts aTree1 cmp0 cmp1 root0 root1 rooti rootj r s a0 b0 a1 b1 hidx1 ht0 ht1
        hm0 hm1 ho0 ho1 hperm e5 e6 e7 e8⟩
  · subst hi
    obtain ⟨aTree1, rooti, rootj, a1, b1, a0, b0, e1, e2, e3, e4, e5, e6, e7, e8, e9⟩ :=
      cascade_two aTree 1 0 _ _ key r s hlen (by decide) hix1 hix0 ht1 ht0 hm1 ho1 ho0
        hperm.symm (hperm.subset hr) hk
    have hidx1 := index_eq_pair _ _ _ e4 e3 e2
    exact ⟨aTree1, rootj, rooti, e1, hidx1, e9,
      cascade_facts aTree1 cmp0 cmp1 root0 root1 rootj rooti r s a0 b0 a1 b1 hidx1 ht0 ht1
        hm0 hm1 ho0 ho1 hperm e7 e8 e5 e6⟩

theorem C11_cascade_removal_witness :
    StrictlyOrdered idCompare 1
      (Node.node false (⟨1, [98]⟩ : IdName) 8 .null (.node true ⟨2, [97]⟩ 8 .null .null)) ∧
    StrictlyOrdered nameCompare 1
      (Node.node false (⟨1, [98]⟩ : IdName) 8 (.node true ⟨2, [97]⟩ 8 .null .null) .null) ∧
    ∃ aTree1 root0' root1',
      TreeRemoveKeyIndex
        (⟨[⟨.node false ⟨1, [98]⟩ 8 .null (.node true ⟨2, [97]⟩ 8 .null .null), idCompare⟩,
           ⟨.node false ⟨1, [98]⟩ 8 (.node true ⟨2, [97]⟩ 8 .null .null) .null, nameCompare⟩],
          2, 16, true, false⟩ : Tree IdName) ⟨0, [98]⟩ 1 = .done (some ⟨1, [98]⟩, aTree1) ∧
      aTree1.index = [⟨root0', idCompare⟩, ⟨root1', nameCompare⟩] ∧
      aTree1.count = 2 - 1 ∧
      (∀ k, idCompare ⟨1, [98]⟩ k 0 = 0 → TreeFindIndex aTree1 k 0 = .done none) ∧
      (∀ k, nameCompare ⟨1, [98]⟩ k 0 = 0 → TreeFindIndex aTree1 k 1 = .done none) ∧
      (∀ x ∈ inorder
          (Node.node false (⟨1, [98]⟩ : IdName) 8 .null (.node true ⟨2, [97]⟩ 8 .null .null)),
        x ≠ (⟨1, [98]⟩, 8) →
        (∀ k, idCompare x.1 k 0 = 0 →
          ∃ loc, TreeFindIndex aTree1 k 0 = .done (some loc) ∧ loc.content? = some x.1) ∧
        (∀ k, nameCompare x.1 k 0 = 0 →
          ∃ loc, TreeFindIndex aTree1 k 1 = .done (some loc) ∧ loc.content? = some x.1)) :=
  have ho0 : StrictlyOrdered idCompare 1
      (Node.node false (⟨1, [98]⟩ : IdName) 8 .null (.node true ⟨2, [97]⟩ 8 .null .null)) := by
    simp [StrictlyOrdered, inorder, idCompare]
  have ho1 : StrictlyOrdered nameCompare 1
      (Node.node false (⟨1, [98]⟩ : IdName) 8 (.node true ⟨2, [97]⟩ 8 .null .null) .null) := by
    simp [StrictlyOrdered, inorder, nameCompare, strcmp]
  ⟨ho0, ho1,
    C11_cascade_removal _ idCompare nameCompare _ _ ⟨1, [98]⟩ 8 rfl (totalOrder_idCompare 1)
      (totalOrder_nameCompare 1) (fun _ _ => rfl) (fun _ _ => rfl) ho0 ho1
      (by simp only [inorder, List.nil_append, List.append_nil]; exact List.Perm.swap _ _ _)
      (by simp [inorder]) 1 ⟨0, [98]⟩ (Or.inr ⟨rfl, by decide⟩)⟩

/-! ## Where the embedding stops for a `NULL` pointer -/

/-- `TreeRotate` stops exactly when `curnode` or the pivot `curnode->child[!direction]` is
`NULL`. -/
theorem TreeRotate_eq_none (cur : Loc α) (direction : Bool) :
    TreeRotate cur direction = none ↔
      cur.focus = .null ∨ ∃ r c s lt rt, cur.focus = .node r c s lt rt ∧
        (if direction then lt else rt) = .null := by
  obtain ⟨focus, path⟩ := cur
  cases focus with
  | null => simp [TreeRotate]
  | node r c s lt rt =>
    cases direction
    · cases rt <;> simp [TreeRotate]
    · cases lt <;> simp [TreeRotate]

theorem setRed_eq_none (n : Node α) (v : Bool) : n.setRed v = none ↔ n = .null := by
  cases n <;> simp [Node.setRed]

theorem TreeBAASub_short (cur : Loc α) (which : Bool) (h : cur.path.length < 2) :
    TreeBAASub cur which = none := by
  obtain ⟨focus, path⟩ := cur
  match path, h with
  | [], _ => rfl
  | [_], _ => rfl

theorem TreeBalanceAfterAdd_loop_short (fuel : Nat) (cur : Loc α) (h : cur.path.length < 2) :
    TreeBalanceAfterAdd.loop fuel cur = some cur := by
  obtain ⟨focus, path⟩ := cur
  match path, h with
  | [], _ => unfold TreeBalanceAfterAdd.loop; rfl
  | [_], _ => unfold TreeBalanceAfterAdd.loop; rfl

/-! ## C21 -/

/-- C21.  No null dereference: the embedding stops (`none`, `undefined`) wherever `Tree.c`
would read or write a field through a `NULL` pointer, and for every index (red-black or
not; the links of a location are consistent by construction) `TreeAddByIndex` of a fresh key
and `TreeRemoveNodeIndex` of any node of the index return.  In detail: `TreeRotate` stops
exactly for a `NULL` node or a `NULL` pivot child, an assignment to `red` exactly for a `NULL`
node, `TreeBAASub` when the parent or the grandparent is missing; the loop of
`TreeBalanceAfterAdd` does not call `TreeBAASub` then, and the calls it does make return, so
that both rotations in them have a pivot; every call of `TreeBARSub` from the loop of
`TreeBalanceAfterRemove` returns, so that its rotations have a pivot and the children of the
sibling that it blackens exist, also when `curnode` is the unlinked node `temp` that stands
for a removed leaf (a location with an empty focus). -/
theorem C21_no_null_dereference (aTree : Tree α) (index : Nat) (ix : Index α)
    (hix : aTree.index[index]? = some ix) :
    (∀ content size, FreshOnPath ix.compare content ix.root →
      ∃ aTree1, TreeAddByIndex aTree content size index = .done (none, aTree1)) ∧
    (∀ curnode : Loc α, curnode.focus.isNull = false →
      ∃ c aTree1, TreeRemoveNodeIndex aTree curnode index = .done (c, aTree1)) ∧
    (∀ (cur : Loc α) (direction : Bool), TreeRotate cur direction = none ↔
      cur.focus = .null ∨ ∃ r c s lt rt, cur.focus = .node r c s lt rt ∧
        (if direction then lt else rt) = .null) ∧
    (∀ (n : Node α) (v : Bool), n.setRed v = none ↔ n = .null) ∧
    (∀ (cur : Loc α) (which : Bool), cur.path.length < 2 → TreeBAASub cur which = none) ∧
    (∀ (fuel : Nat) (cur : Loc α), cur.path.length < 2 →
      TreeBalanceAfterAdd.loop fuel cur = some cur) ∧
    (∀ (focus : Node α) (p g : Frame α) (rest : List (Frame α)), focus.isNull = false →
      ∃ cur', TreeBAASub ⟨focus, p :: g :: rest⟩ (!g.dir) = some cur') ∧
    (∀ (focus : Node α) (p : Frame α) (rest : List (Frame α)) (w : Bool),
      (w = (!p.dir) ∨ (focus = .null ∧ p.sib = .null ∧ w = p.dir)) →
      ∃ cur', TreeBARSub ⟨focus, p :: rest⟩ w = some cur') := by
  refine ⟨?_, ?_, TreeRotate_eq_none, setRed_eq_none, TreeBAASub_short,
    TreeBalanceAfterAdd_loop_short, ?_, ?_⟩
  · intro content size hfresh
    have hf := search_fresh ix.compare content ix.root [] hfresh
    generalize hloc : TreeAddByIndex.search ix.compare content ix.root [] = loc at hf
    obtain ⟨focus, path⟩ := loc
    simp only at hf
    subst hf
    obtain ⟨root, h1, _⟩ :=
      TreeBalanceAfterAdd_total ⟨.node true content size .null .null, path⟩ rfl
    refine ⟨(if index = 0 then
      { aTree with count := aTree.count + 1, size := aTree.size + size }
      else aTree).setRoot index root, ?_⟩
    simp only [TreeAddByIndex, hix, hloc, h1]
  · intro curnode hnn
    obtain ⟨focus, path⟩ := curnode
    cases focus with
    | null => cases hnn
    | node r c s lt rt =>
      obtain ⟨root, h1, _⟩ := unlink_total r c s lt rt path
      obtain ⟨aTree1, k, _⟩ := TreeRemoveNodeIndex_done aTree _ index ix c s root hix h1
      exact ⟨c, aTree1, k⟩
  · intro focus p g rest hnn
    obtain ⟨cur', h, _⟩ := TreeBAASub_total focus p g rest hnn
    exact ⟨cur', h⟩
  · intro focus p rest w hw
    obtain ⟨cur', h, _⟩ := TreeBARSub_total focus p rest w hw
    exact ⟨cur', h⟩

theorem C21_no_null_dereference_witness :
    sixStore.index[0]? = some ⟨sixTree, TreeIntCompare⟩ ∧
    FreshOnPath TreeIntCompare (rec 7) sixTree ∧
    (∃ aTree1, TreeAddByIndex sixStore (rec 7) 4 0 = .done (none, aTree1)) ∧
    ∃ c aTree1, TreeRemoveNodeIndex sixStore ⟨sixTree, []⟩ 0 = .done (c, aTree1) :=
  ⟨rfl, by simp [FreshOnPath, sixTree, TreeIntCompare, rec],
    (C21_no_null_dereference sixStore 0 ⟨sixTree, TreeIntCompare⟩ rfl).1 (rec 7) 4
      (by simp [FreshOnPath, sixTree, TreeIntCompare, rec]),
    (C21_no_null_dereference sixStore 0 ⟨sixTree, TreeIntCompare⟩ rfl).2.1 ⟨sixTree, []⟩ rfl⟩

/-! ## The number of iterations of the fix-up loops -/

theorem height_plug (f : Frame α) (n : Node α) : height n + 1 ≤ height (f.plug n) := by
  obtain ⟨d, r, c, s, sib⟩ := f
  cases d <;> simp only [Frame.plug, build, height, Bool.false_eq_true, ↓reduceIte] <;> omega

/-- A node has no more ancestors than the tree is high. -/
theorem length_le_height (path : List (Frame α)) :
    ∀ n : Node α, path.length + height n ≤ height (zip n path) := by
  induction path with
  | nil => intro n; simp [zip]
  | cons f fs ih =>
    intro n
    have h1 := ih (f.plug n)
    have h2 := height_plug f n
    simp only [zip, List.length_cons]
    omega

/-- The loop of `TreeBalanceAfterAdd` stops at a node whose parent is black or is the root. -/
theorem TreeBalanceAfterAdd_loop_exit (fuel : Nat) (cur : Loc α)
    (h : cur.path.length < 2 ∨ ∃ p rest, cur.path = p :: rest ∧ p.red = false) :
    TreeBalanceAfterAdd.loop fuel cur = some cur := by
  rcases h with h | ⟨p, rest, h1, h2⟩
  · exact TreeBalanceAfterAdd_loop_short fuel cur h
  · unfold TreeBalanceAfterAdd.loop
    cases rest with
    | nil => simp only [h1]
    | cons g rest => simp only [h1, h2, Bool.false_eq_true, ↓reduceIte]

/-- The loop of `TreeBalanceAfterRemove` stops at the root and at a red node. -/
theorem TreeBalanceAfterRemove_loop_exit (fuel : Nat) (cur : Loc α)
    (h : cur.path = [] ∨ isRed cur.focus = true) :
    TreeBalanceAfterRemove.loop fuel cur = some cur := by
  unfold TreeBalanceAfterRemove.loop
  rcases h with h | h
  · simp only [h]
  · cases hp : cur.path with
    | nil => rfl
    | cons p rest =>
      have hb : isBlack cur.focus = false := by
        cases hf : cur.focus with
        | null => rw [hf] at h; cases h
        | node r c s lt rt => rw [hf] at h; simp only [isRed_node] at h; simp [h]
      simp only [hb, Bool.false_eq_true, ↓reduceIte]

/-- One iteration of the loop of `TreeBalanceAfterAdd`: `curnode` moves two levels up (red
uncle), or its new parent is black. -/
theorem TreeBAASub_progress (focus : Node α) (p g : Frame α) (rest : List (Frame α))
    (hnn : focus.isNull = false) :
    ∃ cur', TreeBAASub ⟨focus, p :: g :: rest⟩ (!g.dir) = some cur' ∧
      cur'.focus.isNull = false ∧
      (cur'.path = rest ∨ ∃ p' rest', cur'.path = p' :: rest' ∧ p'.red = false) := by
  obtain ⟨pd, pr, pc, ps, psib⟩ := p
  obtain ⟨gd, gr, gc, gs, gsib⟩ := g
  cases focus with
  | null => cases hnn
  | node r c s lt rt =>
    generalize hres : TreeBAASub ⟨.node r c s lt rt, ⟨pd, pr, pc, ps, psib⟩ ::
      ⟨gd, gr, gc, gs, gsib⟩ :: rest⟩ (!(Frame.mk gd gr gc gs gsib).dir) = res
    rcases gsib with _ | ⟨_ | _, uc, us, ul, ur⟩ <;> cases gd <;> cases pd <;>
      simp [TreeBAASub] at hres <;> subst hres <;> refine ⟨_, rfl, ?_⟩ <;> simp

/-- An iteration of the loop of `TreeBalanceAfterAdd` is a call of `TreeBAASub` with the side
opposite to the parent. -/
theorem TreeBalanceAfterAdd_loop_step (fuel : Nat) (focus : Node α) (p g : Frame α)
    (rest : List (Frame α)) (hp : p.red = true) :
    TreeBalanceAfterAdd.loop (fuel + 1) ⟨focus, p :: g :: rest⟩ =
      (TreeBAASub ⟨focus, p :: g :: rest⟩ (!g.dir)).bind (TreeBalanceAfterAdd.loop fuel) := by
  rw [TreeBalanceAfterAdd.loop]
  simp only [hp, ↓reduceIte]
  cases g.dir <;> rfl

/-- The loop of `TreeBalanceAfterAdd` makes at most one iteration for every two ancestors of
`curnode`. -/
theorem TreeBalanceAfterAdd_loop_bound : ∀ (fuel : Nat) (cur : Loc α),
    cur.path.length ≤ 2 * fuel + 1 → cur.focus.isNull = false →
    ∃ cur', TreeBalanceAfterAdd.loop fuel cur = some cur' := by
  intro fuel
  induction fuel with
  | zero =>
    intro cur hlen _
    exact ⟨cur, TreeBalanceAfterAdd_loop_short 0 cur (by omega)⟩
  | succ fuel ih =>
    intro cur hlen hnn
    obtain ⟨focus, path⟩ := cur
    match path, hlen with
    | [], _ => exact ⟨_, TreeBalanceAfterAdd_loop_short _ _ (by simp)⟩
    | [p], _ => exact ⟨_, TreeBalanceAfterAdd_loop_short _ _ (by simp)⟩
    | p :: g :: rest, hlen =>
      cases hp : p.red
      · exact ⟨_, TreeBalanceAfterAdd_loop_exit _ _ (Or.inr ⟨p, _, rfl, hp⟩)⟩
      · rw [TreeBalanceAfterAdd_loop_step fuel focus p g rest hp]
        obtain ⟨cur', h1, h2, h3⟩ := TreeBAASub_progress focus p g rest hnn
        rw [h1]
        show ∃ cur'', TreeBalanceAfterAdd.loop fuel cur' = some cur''
        rcases h3 with h3 | h3
        · exact ih cur' (by rw [h3]; simp only [List.length_cons] at hlen; omega) h2
        · exact ⟨cur', TreeBalanceAfterAdd_loop_exit fuel cur' (Or.inr h3)⟩

/-- One iteration of the loop of `TreeBalanceAfterRemove`: `curnode` moves one level up, or
becomes the root or a red node. -/
theorem TreeBARSub_progress (focus : Node α) (p : Frame α) (rest : List (Frame α)) (w : Bool)
    (hw : w = (!p.dir) ∨ (focus = .null ∧ p.sib = .null ∧ w = p.dir)) :
    ∃ cur', TreeBARSub ⟨focus, p :: rest⟩ w = some cur' ∧ cur'.focus.isNull = false ∧
      (cur'.path = rest ∨ cur'.path = [] ∨ isRed cur'.focus = true) := by
  rcases hw with hw | ⟨h1, h2, h3⟩
  · subst hw
    cases hsr : isRed p.sib with
    | false =>
      rw [TreeBARSub_black focus p rest hsr]
      obtain ⟨cur', k1, k2, k3, _⟩ := TreeBARSub_cases_total focus p rest
      refine ⟨cur', k1, k3, ?_⟩
      rcases k2 with ⟨k, _⟩ | k
      · exact Or.inl k
      · exact Or.inr (Or.inl k)
    | true =>
      obtain ⟨d, r, c, s, sib⟩ := p
      cases sib with
      | null => cases hsr
      | node sr sc ss sl srt =>
        simp only [isRed_node] at hsr
        subst hsr
        simp only
        rw [TreeBARSub_red]
        obtain ⟨cur', k1, k2, k3, _⟩ := TreeBARSub_cases_total focus
          ⟨d, true, c, s, if d then srt else sl⟩ (⟨d, false, sc, ss, if d then sl else srt⟩ :: rest)
        refine ⟨cur', k1, k3, ?_⟩
        rcases k2 with ⟨_, k⟩ | k
        · exact Or.inr (Or.inr k)
        · exact Or.inr (Or.inl k)
  · obtain ⟨d, r, c, s, sib⟩ := p
    simp only at h2 h3
    subst h1 h2 h3
    exact ⟨⟨(Frame.mk w r c s .null).plug .null, rest⟩, by simp [TreeBARSub],
      by cases w <;> rfl, Or.inl rfl⟩

/-- An iteration of the loop of `TreeBalanceAfterRemove` is a call of `TreeBARSub` with the
side opposite to `curnode`, or, for the unlinked node `temp` below a parent without children,
with `RIGHT`. -/
theorem TreeBalanceAfterRemove_loop_step (fuel : Nat) (focus : Node α) (p : Frame α)
    (rest : List (Frame α)) (hb : isBlack focus = true) :
    ∃ w : Bool, (w = (!p.dir) ∨ (focus = .null ∧ p.sib = .null ∧ w = p.dir)) ∧
      TreeBalanceAfterRemove.loop (fuel + 1) ⟨focus, p :: rest⟩ =
        (TreeBARSub ⟨focus, p :: rest⟩ w).bind (TreeBalanceAfterRemove.loop fuel) := by
  rw [TreeBalanceAfterRemove.loop]
  simp only [hb, ↓reduceIte]
  cases focus with
  | null =>
    cases hd : p.dir with
    | false => exact ⟨true, Or.inl (by simp [hd]), by simp [hd]⟩
    | true =>
      cases hs : p.sib with
      | null => exact ⟨true, Or.inr ⟨rfl, rfl, rfl⟩, by simp [hd, hs, Node.isNull]⟩
      | node _ _ _ _ _ => exact ⟨false, Or.inl (by simp [hd]), by simp [hd, hs, Node.isNull]⟩
  | node _ _ _ _ _ =>
    cases hd : p.dir with
    | false => exact ⟨true, Or.inl (by simp [hd]), by simp [hd]⟩
    | true => exact ⟨false, Or.inl (by simp [hd]), by simp [hd]⟩

/-- The loop of `TreeBalanceAfterRemove` makes at most one iteration for every ancestor of
`curnode`. -/
theorem TreeBalanceAfterRemove_loop_bound : ∀ (fuel : Nat) (cur : Loc α),
    (cur.path.length ≤ fuel ∨ isRed cur.focus = true) →
    ∃ cur', TreeBalanceAfterRemove.loop fuel cur = some cur' := by
  intro fuel
  induction fuel with
  | zero =>
    intro cur h
    refine ⟨cur, TreeBalanceAfterRemove_loop_exit 0 cur ?_⟩
    rcases h with h | h
    · left
      exact List.length_eq_zero.1 (by omega)
    · exact Or.inr h
  | succ fuel ih =>
    intro cur h
    obtain ⟨focus, path⟩ := cur
    cases path with
    | nil => exact ⟨_, TreeBalanceAfterRemove_loop_exit _ _ (Or.inl rfl)⟩
    | cons p rest =>
      cases hb : isBlack focus with
      | false =>
        refine ⟨_, TreeBalanceAfterRemove_loop_exit _ _ (Or.inr ?_)⟩
        cases focus with
        | null => cases hb
        | node r c s lt rt => simpa using hb
      | true =>
        have hlen : (p :: rest).length ≤ fuel + 1 := by
          rcases h with h | h
          · exact h
          · cases focus with
            | null => cases h
            | node r c s lt rt => simp only [isRed_node] at h; subst h; cases hb
        obtain ⟨w, hw, hstep⟩ := TreeBalanceAfterRemove_loop_step fuel focus p rest hb
        rw [hstep]
        obtain ⟨cur', h1, _, h3⟩ := TreeBARSub_progress focus p rest w hw
        rw [h1]
        show ∃ cur'', TreeBalanceAfterRemove.loop fuel cur' = some cur''
        apply ih
        rcases h3 with h3 | h3 | h3
        · left; rw [h3]; simp only [List.length_cons] at hlen; omega
        · left; rw [h3]; simp
        · exact Or.inr h3

/-! ## C23 -/

/-- C23.  The fix-up loops terminate: run with a budget of as many iterations as the tree is
high (in nodes), the loop of `TreeBalanceAfterAdd` (from a node) and the loop of
`TreeBalanceAfterRemove` (from a node or from the unlinked node `temp`) finish; the first needs
no more than one iteration for every two ancestors of `curnode`, the second no more than one
for every ancestor.  This is because an iteration of the first loop, a call of `TreeBAASub`,
moves `curnode` two levels up (red uncle) or leaves it below a black parent, where the loop
stops whatever budget is left; and an iteration of the second, a call of `TreeBARSub`, moves
`curnode` one level up or leaves it at the root or red, where the loop stops. -/
theorem C23_fixup_loops_terminate :
    (∀ cur : Loc α, cur.focus.isNull = false →
      (∃ cur', TreeBalanceAfterAdd.loop (height cur.root) cur = some cur') ∧
      ∀ fuel, cur.path.length ≤ 2 * fuel + 1 →
        ∃ cur', TreeBalanceAfterAdd.loop fuel cur = some cur') ∧
    (∀ (fuel : Nat) (focus : Node α) (p g : Frame α) (rest : List (Frame α)),
      focus.isNull = false → p.red = true →
      ∃ cur', TreeBAASub ⟨focus, p :: g :: rest⟩ (!g.dir) = some cur' ∧
        TreeBalanceAfterAdd.loop (fuel + 1) ⟨focus, p :: g :: rest⟩ =
          TreeBalanceAfterAdd.loop fuel cur' ∧
        (cur'.path.length + 2 = (p :: g :: rest).length ∨
          ∀ k, TreeBalanceAfterAdd.loop k cur' = some cur')) ∧
    (∀ cur : Loc α,
      (∃ cur', TreeBalanceAfterRemove.loop (height cur.root) cur = some cur') ∧
      ∀ fuel, cur.path.length ≤ fuel →
        ∃ cur', TreeBalanceAfterRemove.loop fuel cur = some cur') ∧
    (∀ (fuel : Nat) (focus : Node α) (p : Frame α) (rest : List (Frame α)),
      isBlack focus = true →
      ∃ w cur', TreeBARSub ⟨focus, p :: rest⟩ w = some cur' ∧
        TreeBalanceAfterRemove.loop (fuel + 1) ⟨focus, p :: rest⟩ =
          TreeBalanceAfterRemove.loop fuel cur' ∧
        (cur'.path.length + 1 = (p :: rest).length ∨
          ∀ k, TreeBalanceAfterRemove.loop k cur' = some cur')) := by
  refine ⟨?_, ?_, ?_, ?_⟩
  · intro cur hnn
    have h := length_le_height cur.path cur.focus
    refine ⟨TreeBalanceAfterAdd_loop_bound _ cur ?_ hnn,
      fun fuel hlen => TreeBalanceAfterAdd_loop_bound fuel cur hlen hnn⟩
    show cur.path.length ≤ 2 * height (zip cur.focus cur.path) + 1
    omega
  · intro fuel focus p g rest hnn hp
    obtain ⟨cur', h1, _, h3⟩ := TreeBAASub_progress focus p g rest hnn
    refine ⟨cur', h1, ?_, ?_⟩
    · rw [TreeBalanceAfterAdd_loop_step fuel focus p g rest hp, h1]
      rfl
    · rcases h3 with h3 | h3
      · left; rw [h3]; simp
      · exact Or.inr fun k => TreeBalanceAfterAdd_loop_exit k cur' (Or.inr h3)
  · intro cur
    have h := length_le_height cur.path cur.focus
    refine ⟨TreeBalanceAfterRemove_loop_bound _ cur (Or.inl ?_),
      fun fuel hlen => TreeBalanceAfterRemove_loop_bound fuel cur (Or.inl hlen)⟩
    show cur.path.length ≤ height (zip cur.focus cur.path)
    omega
  · intro fuel focus p rest hb
    obtain ⟨w, hw, hstep⟩ := TreeBalanceAfterRemove_loop_step fuel focus p rest hb
    obtain ⟨cur', h1, _, h3⟩ := TreeBARSub_progress focus p rest w hw
    refine ⟨w, cur', h1, ?_, ?_⟩
    · rw [hstep, h1]
      rfl
    · rcases h3 with h3 | h3 | h3
      · left; rw [h3]; simp
      · exact Or.inr fun k => TreeBalanceAfterRemove_loop_exit k cur' (Or.inl h3)
      · exact Or.inr fun k => TreeBalanceAfterRemove_loop_exit k cur' (Or.inr h3)

theorem C23_fixup_loops_terminate_witness :
    (Node.node true (rec 7) 4 .null .null).isNull = false ∧
    ∃ cur', TreeBalanceAfterAdd.loop
      (height (Loc.mk (Node.node true (rec 7) 4 .null .null)
        (TreeAddByIndex.search TreeIntCompare (rec 7) sixTree []).path).root)
      ⟨.node true (rec 7) 4 .null .null,
        (TreeAddByIndex.search TreeIntCompare (rec 7) sixTree []).path⟩ = some cur' :=
  ⟨rfl, (C23_fixup_loops_terminate.1 ⟨.node true (rec 7) 4 .null .null,
    (TreeAddByIndex.search TreeIntCompare (rec 7) sixTree []).path⟩ rfl).1⟩

/-! ## The parent links: unfolding lemmas -/

@[simp] theorem lk_isRed_null : Lk.isRed (Lk.Node.null : Lk.Node α) = false := rfl

@[simp] theorem lk_isRed_node (a : Nat) (p : Option Nat) (r : Bool) (c : α) (s : Int)
    (lt rt : Lk.Node α) : Lk.isRed (.node a p r c s lt rt) = r := rfl

@[simp] theorem lk_isBlack_null : Lk.isBlack (Lk.Node.null : Lk.Node α) = true := rfl

@[simp] theorem lk_isBlack_node (a : Nat) (p : Option Nat) (r : Bool) (c : α) (s : Int)
    (lt rt : Lk.Node α) : Lk.isBlack (.node a p r c s lt rt) = !r := rfl

@[simp] theorem lk_isNull_null : (Lk.Node.null : Lk.Node α).isNull = true := rfl

@[simp] theorem lk_isNull_node (a : Nat) (p : Option Nat) (r : Bool) (c : α) (s : Int)
    (lt rt : Lk.Node α) : (Lk.Node.node a p r c s lt rt).isNull = false := rfl

@[simp] theorem lk_setRed_null (v : Bool) : (Lk.Node.null : Lk.Node α).setRed v = none := rfl

@[simp] theorem lk_setRed_node (a : Nat) (p : Option Nat) (r v : Bool) (c : α) (s : Int)
    (lt rt : Lk.Node α) :
    (Lk.Node.node a p r c s lt rt).setRed v = some (.node a p v c s lt rt) := rfl

@[simp] theorem lk_setParent_null (v : Option Nat) :
    (Lk.Node.null : Lk.Node α).setParent v = .null := rfl

@[simp] theorem lk_setParent_node (a : Nat) (p v : Option Nat) (r : Bool) (c : α) (s : Int)
    (lt rt : Lk.Node α) :
    (Lk.Node.node a p r c s lt rt).setParent v = .node a v r c s lt rt := rfl

@[simp] theorem lk_addr_null : (Lk.Node.null : Lk.Node α).addr? = none := rfl

@[simp] theorem lk_addr_node (a : Nat) (p : Option Nat) (r : Bool) (c : α) (s : Int)
    (lt rt : Lk.Node α) : (Lk.Node.node a p r c s lt rt).addr? = some a := rfl

@[simp] theorem lk_build_false (a : Nat) (p : Option Nat) (r : Bool) (c : α) (s : Int)
    (x y : Lk.Node α) : Lk.build a p r c s false x y = .node a p r c s x y := rfl

@[simp] theorem lk_build_true (a : Nat) (p : Option Nat) (r : Bool) (c : α) (s : Int)
    (x y : Lk.Node α) : Lk.build a p r c s true x y = .node a p r c s y x := rfl

@[simp] theorem lk_plug_false (a : Nat) (p : Option Nat) (r : Bool) (c : α) (s : Int)
    (sib n : Lk.Node α) : (Lk.Frame.mk false a p r c s sib).plug n = .node a p r c s n sib := rfl

@[simp] theorem lk_plug_true (a : Nat) (p : Option Nat) (r : Bool) (c : α) (s : Int)
    (sib n : Lk.Node α) : (Lk.Frame.mk true a p r c s sib).plug n = .node a p r c s sib n := rfl

@[simp] theorem lk_zip_nil (n : Lk.Node α) : Lk.zip n [] = n := rfl

@[simp] theorem lk_zip_cons (n : Lk.Node α) (f : Lk.Frame α) (fs : List (Lk.Frame α)) :
    Lk.zip n (f :: fs) = Lk.zip (f.plug n) fs := rfl

@[simp] theorem lk_root_mk (n : Lk.Node α) (path : List (Lk.Frame α)) :
    (Lk.Loc.mk n path).root = Lk.zip n path := rfl

@[simp] theorem lk_up_nil (n : Lk.Node α) : (Lk.Loc.mk n []).up = none := rfl

@[simp] theorem lk_up_cons (n : Lk.Node α) (f : Lk.Frame α) (fs : List (Lk.Frame α)) :
    (Lk.Loc.mk n (f :: fs)).up = some ⟨f.plug n, fs⟩ := rfl

@[simp] theorem lk_down_null (path : List (Lk.Frame α)) (d : Bool) :
    (Lk.Loc.mk Lk.Node.null path).down d = none := rfl

@[simp] theorem lk_down_false (a : Nat) (p : Option Nat) (r : Bool) (c : α) (s : Int)
    (lt rt : Lk.Node α) (path : List (Lk.Frame α)) :
    (Lk.Loc.mk (.node a p r c s lt rt) path).down false =
      some ⟨lt, ⟨false, a, p, r, c, s, rt⟩ :: path⟩ := rfl

@[simp] theorem lk_down_true (a : Nat) (p : Option Nat) (r : Bool) (c : α) (s : Int)
    (lt rt : Lk.Node α) (path : List (Lk.Frame α)) :
    (Lk.Loc.mk (.node a p r c s lt rt) path).down true =
      some ⟨rt, ⟨true, a, p, r, c, s, lt⟩ :: path⟩ := rfl

@[simp] theorem lk_parentOf_nil : Lk.parentOf ([] : List (Lk.Frame α)) = none := rfl

@[simp] theorem lk_parentOf_cons (f : Lk.Frame α) (fs : List (Lk.Frame α)) :
    Lk.parentOf (f :: fs) = some f.addr := rfl

@[simp] theorem lk_parentIs_null (par : Option Nat) :
    (Lk.Node.null : Lk.Node α).parentIs par := trivial

@[simp] theorem lk_parentIs_node (a : Nat) (p par : Option Nat) (r : Bool) (c : α) (s : Int)
    (lt rt : Lk.Node α) : (Lk.Node.node a p r c s lt rt).parentIs par ↔ p = par := Iff.rfl

@[simp] theorem lk_below_null : Lk.Below (Lk.Node.null : Lk.Node α) := trivial

@[simp] theorem lk_below_node (a : Nat) (p : Option Nat) (r : Bool) (c : α) (s : Int)
    (lt rt : Lk.Node α) :
    Lk.Below (.node a p r c s lt rt) ↔
      lt.parentIs (some a) ∧ rt.parentIs (some a) ∧ Lk.Below lt ∧ Lk.Below rt := Iff.rfl

@[simp] theorem lk_ctx_nil : Lk.CtxLinked ([] : List (Lk.Frame α)) := trivial

@[simp] theorem lk_ctx_cons (f : Lk.Frame α) (fs : List (Lk.Frame α)) :
    Lk.CtxLinked (f :: fs) ↔
      f.parent = Lk.parentOf fs ∧ f.sib.parentIs (some f.addr) ∧ Lk.Below f.sib ∧
        Lk.CtxLinked fs := Iff.rfl

@[simp] theorem lk_parentIs_setParent (n : Lk.Node α) (v : Option Nat) :
    (n.setParent v).parentIs v := by
  cases n <;> simp

@[simp] theorem lk_below_setParent (n : Lk.Node α) (v : Option Nat) :
    Lk.Below (n.setParent v) ↔ Lk.Below n := by
  cases n <;> simp

@[simp] theorem lk_isNull_setParent (n : Lk.Node α) (v : Option Nat) :
    (n.setParent v).isNull = n.isNull := by
  cases n <;> rfl

@[simp] theorem lk_isRed_setParent (n : Lk.Node α) (v : Option Nat) :
    Lk.isRed (n.setParent v) = Lk.isRed n := by
  cases n <;> rfl

@[simp] theorem lk_isBlack_setParent (n : Lk.Node α) (v : Option Nat) :
    Lk.isBlack (n.setParent v) = Lk.isBlack n := by
  cases n <;> rfl

@[simp] theorem lk_addr_setParent (n : Lk.Node α) (v : Option Nat) :
    (n.setParent v).addr? = n.addr? := by
  cases n <;> rfl

@[simp] theorem lk_addrs_null : Lk.addrs (Lk.Node.null : Lk.Node α) = [] := rfl

@[simp] theorem lk_addrs_node (a : Nat) (p : Option Nat) (r : Bool) (c : α) (s : Int)
    (lt rt : Lk.Node α) :
    Lk.addrs (.node a p r c s lt rt) = Lk.addrs lt ++ a :: Lk.addrs rt := rfl

@[simp] theorem lk_addrs_setParent (n : Lk.Node α) (v : Option Nat) :
    Lk.addrs (n.setParent v) = Lk.addrs n := by
  cases n <;> rfl

@[simp] theorem lk_before_nil : Lk.before ([] : List (Lk.Frame α)) = [] := rfl

@[simp] theorem lk_after_nil : Lk.after ([] : List (Lk.Frame α)) = [] := rfl

@[simp] theorem lk_before_cons_false (a : Nat) (p : Option Nat) (r : Bool) (c : α) (s : Int)
    (sib : Lk.Node α) (fs : List (Lk.Frame α)) :
    Lk.before (⟨false, a, p, r, c, s, sib⟩ :: fs) = Lk.before fs := by
  simp [Lk.before]

@[simp] theorem lk_before_cons_true (a : Nat) (p : Option Nat) (r : Bool) (c : α) (s : Int)
    (sib : Lk.Node α) (fs : List (Lk.Frame α)) :
    Lk.before (⟨true, a, p, r, c, s, sib⟩ :: fs) = Lk.before fs ++ (Lk.addrs sib ++ [a]) := by
  simp [Lk.before]

@[simp] theorem lk_after_cons_false (a : Nat) (p : Option Nat) (r : Bool) (c : α) (s : Int)
    (sib : Lk.Node α) (fs : List (Lk.Frame α)) :
    Lk.after (⟨false, a, p, r, c, s, sib⟩ :: fs) = a :: Lk.addrs sib ++ Lk.after fs := by
  simp [Lk.after]

@[simp] theorem lk_after_cons_true (a : Nat) (p : Option Nat) (r : Bool) (c : α) (s : Int)
    (sib : Lk.Node α) (fs : List (Lk.Frame α)) :
    Lk.after (⟨true, a, p, r, c, s, sib⟩ :: fs) = Lk.after fs := by
  simp [Lk.after]

@[simp] theorem lk_rotate_null (path : List (Lk.Frame α)) (d : Bool) :
    Lk.TreeRotate (Lk.Loc.mk Lk.Node.null path) d = none := rfl

@[simp] theorem lk_rotate_left (a a' : Nat) (p p' : Option Nat) (r r' : Bool) (c c' : α)
    (s s' : Int) (lt lt' rt' : Lk.Node α) (path : List (Lk.Frame α)) :
    Lk.TreeRotate ⟨.node a p r c s lt (.node a' p' r' c' s' lt' rt'), path⟩ false =
      some ⟨.node a (some a') r c s lt (lt'.setParent (some a)),
        ⟨false, a', p, r', c', s', rt'⟩ :: path⟩ := rfl

@[simp] theorem lk_rotate_right (a a' : Nat) (p p' : Option Nat) (r r' : Bool) (c c' : α)
    (s s' : Int) (rt lt' rt' : Lk.Node α) (path : List (Lk.Frame α)) :
    Lk.TreeRotate ⟨.node a p r c s (.node a' p' r' c' s' lt' rt') rt, path⟩ true =
      some ⟨.node a (some a') r c s (rt'.setParent (some a)) rt,
        ⟨true, a', p, r', c', s', lt'⟩ :: path⟩ := rfl

@[simp] theorem lk_rotate_left_null (a : Nat) (p : Option Nat) (r : Bool) (c : α) (s : Int)
    (lt : Lk.Node α) (path : List (Lk.Frame α)) :
    Lk.TreeRotate ⟨.node a p r c s lt .null, path⟩ false = none := rfl

@[simp] theorem lk_rotate_right_null (a : Nat) (p : Option Nat) (r : Bool) (c : α) (s : Int)
    (rt : Lk.Node α) (path : List (Lk.Frame α)) :
    Lk.TreeRotate ⟨.node a p r c s .null rt, path⟩ true = none := rfl

/-! ## The parent links of a tree, seen from one of its locations -/

/-- The links of a tree are consistent exactly when, at any of its locations, the links below
the location and along its path are, and the node at the location points to its parent. -/
theorem lk_wellLinked_zip (path : List (Lk.Frame α)) : ∀ (n : Lk.Node α),
    Lk.WellLinked (Lk.zip n path) ↔
      n.parentIs (Lk.parentOf path) ∧ Lk.Below n ∧ Lk.CtxLinked path := by
  induction path with
  | nil => intro n; simp [Lk.WellLinked]
  | cons f fs ih =>
    intro n
    obtain ⟨d, a, p, r, c, s, sib⟩ := f
    cases d <;> simp [ih] <;> tauto

/-- The in-order sequence of addresses of a tree, seen from one of its locations. -/
theorem lk_addrs_zip (path : List (Lk.Frame α)) : ∀ (n : Lk.Node α),
    Lk.addrs (Lk.zip n path) = Lk.before path ++ Lk.addrs n ++ Lk.after path := by
  induction path with
  | nil => intro n; simp
  | cons f fs ih =>
    intro n
    obtain ⟨d, a, p, r, c, s, sib⟩ := f
    cases d <;> simp [ih]

theorem lk_zip_isNull (n : Lk.Node α) (path : List (Lk.Frame α)) (h : n.isNull = false) :
    (Lk.zip n path).isNull = false := by
  induction path generalizing n with
  | nil => exact h
  | cons f fs ih =>
    apply ih
    obtain ⟨d, a, p, r, c, s, sib⟩ := f
    cases d <;> rfl

theorem lk_zip_append (n : Lk.Node α) (p q : List (Lk.Frame α)) :
    Lk.zip n (p ++ q) = Lk.zip (Lk.zip n p) q := by
  induction p generalizing n with
  | nil => rfl
  | cons f fs ih => exact ih _

/-! ## `TreeRotate` and the fix-up after an insertion keep the links consistent -/

/-- A rotation that returns keeps the links consistent and the in-order sequence of
addresses. -/
theorem lk_rotate_linked (cur cur' : Lk.Loc α) (d : Bool)
    (h : Lk.TreeRotate cur d = some cur') :
    (Lk.WellLinked cur.root → Lk.WellLinked cur'.root) ∧
      Lk.addrs cur'.root = Lk.addrs cur.root := by
  obtain ⟨focus, path⟩ := cur
  cases focus with
  | null => simp at h
  | node a p r c s lt rt =>
    cases d
    · cases rt with
      | null => simp at h
      | node a' p' r' c' s' lt' rt' =>
        simp only [lk_rotate_left, Option.some.injEq] at h
        subst h
        simp [lk_wellLinked_zip, lk_addrs_zip]
        intros
        simp_all
    · cases lt with
      | null => simp at h
      | node a' p' r' c' s' lt' rt' =>
        simp only [lk_rotate_right, Option.some.injEq] at h
        subst h
        simp [lk_wellLinked_zip, lk_addrs_zip]
        intros
        simp_all

/-- On any tree, a call of `TreeBAASub` from the loop of `TreeBalanceAfterAdd` returns, moves
`curnode` nearer to the root and keeps the in-order sequence of addresses. -/
theorem lk_TreeBAASub_total (focus : Lk.Node α) (p g : Lk.Frame α) (rest : List (Lk.Frame α))
    (hnn : focus.isNull = false) :
    ∃ cur', Lk.TreeBAASub ⟨focus, p :: g :: rest⟩ (!g.dir) = some cur' ∧
      cur'.path.length < (p :: g :: rest).length ∧ cur'.focus.isNull = false ∧
      Lk.addrs cur'.root = Lk.addrs (Lk.zip focus (p :: g :: rest)) := by
  obtain ⟨pd, pa, pp, pr, pc, ps, psib⟩ := p
  obtain ⟨gd, ga, gp, gr, gc, gs, gsib⟩ := g
  cases focus with
  | null => cases hnn
  | node a q r c s lt rt =>
    generalize hres : Lk.TreeBAASub ⟨.node a q r c s lt rt, ⟨pd, pa, pp, pr, pc, ps, psib⟩ ::
      ⟨gd, ga, gp, gr, gc, gs, gsib⟩ :: rest⟩ (!(Lk.Frame.mk gd ga gp gr gc gs gsib).dir) = res
    rcases gsib with _ | ⟨ua, up, _ | _, uc, us, ul, ur⟩ <;> cases gd <;> cases pd <;>
      simp [Lk.TreeBAASub] at hres <;> subst hres <;> refine ⟨_, rfl, ?_⟩ <;>
      simp [lk_addrs_zip] <;> omega

/-- A call of `TreeBAASub` from the loop of `TreeBalanceAfterAdd` keeps the links
consistent. -/
theorem lk_TreeBAASub_linked (focus : Lk.Node α) (p g : Lk.Frame α) (rest : List (Lk.Frame α))
    (cur' : Lk.Loc α) (h : Lk.TreeBAASub ⟨focus, p :: g :: rest⟩ (!g.dir) = some cur')
    (hl : Lk.WellLinked (Lk.zip focus (p :: g :: rest))) : Lk.WellLinked cur'.root := by
  obtain ⟨pd, pa, pp, pr, pc, ps, psib⟩ := p
  obtain ⟨gd, ga, gp, gr, gc, gs, gsib⟩ := g
  cases focus with
  | null =>
    rcases gsib with _ | ⟨ua, up, _ | _, uc, us, ul, ur⟩ <;> cases gd <;> cases pd <;>
      simp [Lk.TreeBAASub] at h <;> subst h <;>
      simp [lk_wellLinked_zip] at hl ⊢ <;> simp_all
  | node a q r c s lt rt =>
    rcases gsib with _ | ⟨ua, up, _ | _, uc, us, ul, ur⟩ <;> cases gd <;> cases pd <;>
      simp [Lk.TreeBAASub] at h <;> subst h <;>
      simp [lk_wellLinked_zip] at hl ⊢ <;> simp_all

theorem lk_TreeBalanceAfterAdd_loop_total : ∀ (fuel : Nat) (cur : Lk.Loc α),
    cur.path.length < fuel → cur.focus.isNull = false →
    ∃ cur', Lk.TreeBalanceAfterAdd.loop fuel cur = some cur' ∧ cur'.root.isNull = false ∧
      (Lk.WellLinked cur.root → Lk.WellLinked cur'.root) ∧
      Lk.addrs cur'.root = Lk.addrs cur.root := by
  intro fuel
  induction fuel with
  | zero => intro cur h; omega
  | succ fuel ih =>
    intro cur hlen hnn
    have hstop : cur.root.isNull = false := lk_zip_isNull _ _ hnn
    unfold Lk.TreeBalanceAfterAdd.loop
    match hpath : cur.path with
    | [] => exact ⟨cur, rfl, hstop, id, rfl⟩
    | [p] => exact ⟨cur, rfl, hstop, id, rfl⟩
    | p :: g :: rest =>
      cases hp : p.red
      · simp only [hp, Bool.false_eq_true, ↓reduceIte]
        exact ⟨cur, rfl, hstop, id, rfl⟩
      · simp only [hp, ↓reduceIte]
        obtain ⟨focus, path⟩ := cur
        simp only at hpath hlen hnn
        subst hpath
        obtain ⟨cur', h1, h2, h3, h4⟩ := lk_TreeBAASub_total focus p g rest hnn
        have h5 := lk_TreeBAASub_linked focus p g rest cur' h1
        have hsub : (if g.dir = false then Lk.TreeBAASub ⟨focus, p :: g :: rest⟩ true
            else Lk.TreeBAASub ⟨focus, p :: g :: rest⟩ false) = some cur' := by
          rw [← h1]
          cases g.dir <;> rfl
        rw [hsub]
        obtain ⟨cur'', k1, k2, k3, k4⟩ :=
          ih cur' (by simp only [List.length_cons] at h2 hlen; omega) h3
        exact ⟨cur'', k1, k2, fun hl => k3 (h5 hl), by rw [k4, h4]; rfl⟩

/-- On any tree, `TreeBalanceAfterAdd` called on a node returns and keeps the links
consistent. -/
theorem lk_TreeBalanceAfterAdd_total (cur : Lk.Loc α) (hnn : cur.focus.isNull = false) :
    ∃ root, Lk.TreeBalanceAfterAdd cur = some root ∧
      (Lk.WellLinked cur.root → Lk.WellLinked root) ∧ Lk.addrs root = Lk.addrs cur.root := by
  obtain ⟨cur', h1, h2, h3, h4⟩ :=
    lk_TreeBalanceAfterAdd_loop_total (cur.path.length + 1) cur (by omega) hnn
  cases hroot : cur'.root with
  | null => rw [hroot] at h2; cases h2
  | node a p r c s lt rt =>
    refine ⟨.node a p false c s lt rt, by simp [Lk.TreeBalanceAfterAdd, h1, hroot], ?_, ?_⟩
    · intro hl
      have := h3 hl
      rw [hroot] at this
      exact this
    · rw [← h4, hroot]
      rfl

/-- The search of `TreeAddByIndex` stays in the tree. -/
theorem lk_search_zip (compare : α → α → Int → Int) (content : α) :
    ∀ (n : Lk.Node α) (path : List (Lk.Frame α)),
      (Lk.TreeAddByIndex.search compare content n path).root = Lk.zip n path := by
  intro n
  induction n with
  | null => intro path; rfl
  | node a p r c s lt rt ihl ihr =>
    intro path
    simp only [Lk.TreeAddByIndex.search]
    split
    · rfl
    · split
      · rw [ihr]; rfl
      · rw [ihl]; rfl

/-- With duplicates disallowed, `TreeAddByIndex` on an index with consistent links returns and
leaves the links consistent; the addresses of the nodes are the same, or, when no record is
replaced, the same with the address of the new node put in. -/
theorem lk_TreeAddByIndex_linked (compare : α → α → Int → Int) (root : Lk.Node α)
    (content : α) (size : Int) (newel : Nat) (hl : Lk.WellLinked root) :
    ∃ rc root1, Lk.TreeAddByIndex compare false root content size newel = .done (rc, root1) ∧
      Lk.WellLinked root1 ∧
      ((rc = none ∧ ∃ a b, Lk.addrs root = a ++ b ∧ Lk.addrs root1 = a ++ newel :: b) ∨
       (rc ≠ none ∧ Lk.addrs root1 = Lk.addrs root)) := by
  have hz := lk_search_zip compare content root []
  generalize hloc : Lk.TreeAddByIndex.search compare content root [] = loc at hz
  obtain ⟨focus, path⟩ := loc
  simp only [lk_root_mk, lk_zip_nil] at hz
  cases focus with
  | null =>
    obtain ⟨root1, h1, h2, h3⟩ := lk_TreeBalanceAfterAdd_total
      ⟨.node newel (Lk.parentOf path) true content size .null .null, path⟩ rfl
    refine ⟨none, root1, by simp only [Lk.TreeAddByIndex, hloc, h1], h2 ?_,
      Or.inl ⟨rfl, Lk.before path, Lk.after path, ?_, ?_⟩⟩
    · rw [← hz, lk_wellLinked_zip] at hl
      simp only [lk_root_mk, lk_wellLinked_zip]
      simpa using hl.2.2
    · rw [← hz, lk_addrs_zip]
      simp
    · rw [h3, lk_root_mk, lk_addrs_zip]
      simp
  | node a p r c s lt rt =>
    obtain ⟨root1, h1, h2, h3⟩ := lk_TreeBalanceAfterAdd_total
      ⟨.node a p r content size lt rt, path⟩ rfl
    refine ⟨some c, root1, by simp [Lk.TreeAddByIndex, hloc, h1], h2 ?_,
      Or.inr ⟨by simp, ?_⟩⟩
    · rw [← hz, lk_wellLinked_zip] at hl
      simp only [lk_root_mk, lk_wellLinked_zip]
      exact hl
    · rw [h3, ← hz, lk_root_mk, lk_addrs_zip, lk_addrs_zip]
      rfl

/-! ## The fix-up after a removal keeps the links consistent -/

theorem lk_TreeBARSub_black (focus : Lk.Node α) (q : Lk.Frame α) (rest : List (Lk.Frame α))
    (hs : Lk.isRed q.sib = false) :
    Lk.TreeBARSub ⟨focus, q :: rest⟩ (!q.dir) =
      Lk.TreeBARSub.cases ⟨focus, q :: rest⟩ (!q.dir) := by
  obtain ⟨d, a, p, r, c, s, sib⟩ := q
  cases sib with
  | null => cases d <;> simp [Lk.TreeBARSub]
  | node sa sp sr sc ss sl srt =>
    simp only [lk_isRed_node] at hs
    subst hs
    cases d <;> simp [Lk.TreeBARSub]

theorem lk_TreeBARSub_red (focus : Lk.Node α) (d : Bool) (a : Nat) (p : Option Nat) (r : Bool)
    (c : α) (s : Int) (sa : Nat) (sp : Option Nat) (sc : α) (ss : Int) (sl srt : Lk.Node α)
    (rest : List (Lk.Frame α)) :
    Lk.TreeBARSub ⟨focus, ⟨d, a, p, r, c, s, .node sa sp true sc ss sl srt⟩ :: rest⟩ (!d) =
      Lk.TreeBARSub.cases ⟨focus, ⟨d, a, some sa, true, c, s,
          (if d then srt else sl).setParent (some a)⟩ ::
        ⟨d, sa, p, false, sc, ss, if d then sl else srt⟩ :: rest⟩ (!d) := by
  cases d <;> simp [Lk.TreeBARSub]

/-- On any tree, the cases of `TreeBARSub` return: `curnode` moves to its parent or becomes the
root, and the in-order sequence of addresses is kept. -/
theorem lk_TreeBARSub_cases_total (focus : Lk.Node α) (q : Lk.Frame α)
    (rest : List (Lk.Frame α)) :
    ∃ cur', Lk.TreeBARSub.cases ⟨focus, q :: rest⟩ (!q.dir) = some cur' ∧
      ((cur'.path = rest ∧ Lk.isRed cur'.focus = q.red) ∨ cur'.path = []) ∧
      cur'.focus.isNull = false ∧
      Lk.addrs cur'.root = Lk.addrs (Lk.zip focus (q :: rest)) := by
  obtain ⟨d, a, p, r, c, s, sib⟩ := q
  generalize hres : Lk.TreeBARSub.cases ⟨focus, ⟨d, a, p, r, c, s, sib⟩ :: rest⟩
    (!(Lk.Frame.mk d a p r c s sib).dir) = res
  rcases sib with _ | ⟨sa, sp, sr, sc, ss, _ | ⟨la, lp, _ | _, lc, ls, ll, lr⟩,
      _ | ⟨ra, rp, _ | _, rc, rs, rl, rr⟩⟩ <;>
    cases d <;> simp [Lk.TreeBARSub.cases] at hres <;> subst hres <;> refine ⟨_, rfl, ?_⟩ <;>
    simp [lk_addrs_zip, lk_zip_isNull]

/-- The cases of `TreeBARSub` keep the links consistent. -/
theorem lk_TreeBARSub_cases_linked (focus : Lk.Node α) (q : Lk.Frame α)
    (rest : List (Lk.Frame α)) (cur' : Lk.Loc α)
    (h : Lk.TreeBARSub.cases ⟨focus, q :: rest⟩ (!q.dir) = some cur')
    (hl : Lk.WellLinked (Lk.zip focus (q :: rest))) : Lk.WellLinked cur'.root := by
  obtain ⟨d, a, p, r, c, s, sib⟩ := q
  rcases sib with _ | ⟨sa, sp, sr, sc, ss, _ | ⟨la, lp, _ | _, lc, ls, ll, lr⟩,
      _ | ⟨ra, rp, _ | _, rc, rs, rl, rr⟩⟩ <;>
    cases d <;> simp [Lk.TreeBARSub.cases] at h <;> subst h <;>
    simp [lk_wellLinked_zip] at hl ⊢ <;> simp_all

/-- On any tree, a call of `TreeBARSub` from the loop of `TreeBalanceAfterRemove` returns:
`curnode` moves up, or becomes red or the root; the links stay consistent and the in-order
sequence of addresses is kept. -/
theorem lk_TreeBARSub_total (focus : Lk.Node α) (p : Lk.Frame α) (rest : List (Lk.Frame α))
    (w : Bool) (hw : w = (!p.dir) ∨ (focus = .null ∧ p.sib = .null ∧ w = p.dir)) :
    ∃ cur', Lk.TreeBARSub ⟨focus, p :: rest⟩ w = some cur' ∧
      (cur'.path.length < (p :: rest).length ∨ Lk.isRed cur'.focus = true) ∧
      cur'.focus.isNull = false ∧
      (Lk.WellLinked (Lk.zip focus (p :: rest)) → Lk.WellLinked cur'.root) ∧
      Lk.addrs cur'.root = Lk.addrs (Lk.zip focus (p :: rest)) := by
  rcases hw with hw | ⟨h1, h2, h3⟩
  · subst hw
    cases hsr : Lk.isRed p.sib with
    | false =>
      rw [lk_TreeBARSub_black focus p rest hsr]
      obtain ⟨cur', k1, k2, k3, k4⟩ := lk_TreeBARSub_cases_total focus p rest
      refine ⟨cur', k1, ?_, k3, lk_TreeBARSub_cases_linked focus p rest cur' k1, k4⟩
      rcases k2 with ⟨k, _⟩ | k <;> rw [k] <;> simp
    | true =>
      obtain ⟨d, a, q, r, c, s, sib⟩ := p
      cases sib with
      | null => cases hsr
      | node sa sp sr sc ss sl srt =>
        simp only [lk_isRed_node] at hsr
        subst hsr
        simp only
        rw [lk_TreeBARSub_red]
        obtain ⟨cur', k1, k2, k3, k4⟩ := lk_TreeBARSub_cases_total focus
          ⟨d, a, some sa, true, c, s, (if d then srt else sl).setParent (some a)⟩
          (⟨d, sa, q, false, sc, ss, if d then sl else srt⟩ :: rest)
        have k5 := lk_TreeBARSub_cases_linked focus
          ⟨d, a, some sa, true, c, s, (if d then srt else sl).setParent (some a)⟩
          (⟨d, sa, q, false, sc, ss, if d then sl else srt⟩ :: rest) cur' k1
        refine ⟨cur', k1, ?_, k3, ?_, ?_⟩
        · rcases k2 with ⟨_, k⟩ | k
          · exact Or.inr k
          · left; rw [k]; simp
        · intro hl
          apply k5
          cases d <;> simp [lk_wellLinked_zip] at hl ⊢ <;> simp_all
        · rw [k4]
          cases d <;> simp [lk_addrs_zip]
  · obtain ⟨d, a, q, r, c, s, sib⟩ := p
    simp only at h2 h3
    subst h1 h2 h3
    refine ⟨⟨(Lk.Frame.mk w a q r c s .null).plug .null, rest⟩, by simp [Lk.TreeBARSub],
      Or.inl (by simp), by cases w <;> rfl, fun hl => hl, rfl⟩

theorem lk_TreeBalanceAfterRemove_loop_total : ∀ (fuel : Nat) (cur : Lk.Loc α),
    (cur.path.length < fuel ∨ Lk.isRed cur.focus = true) →
    (cur.focus.isNull = false ∨ cur.path ≠ []) →
    ∃ cur', Lk.TreeBalanceAfterRemove.loop fuel cur = some cur' ∧
      (cur'.focus.isNull = false ∨ cur'.path ≠ []) ∧
      (Lk.WellLinked cur.root → Lk.WellLinked cur'.root) ∧
      Lk.addrs cur'.root = Lk.addrs cur.root := by
  intro fuel
  induction fuel with
  | zero =>
    intro cur hfuel hnn
    have hred : Lk.isRed cur.focus = true := by
      rcases hfuel with h | h
      · omega
      · exact h
    have hb : Lk.isBlack cur.focus = false := by
      cases hf : cur.focus with
      | null => rw [hf] at hred; cases hred
      | node a p r c s lt rt => rw [hf] at hred; simp only [lk_isRed_node] at hred; simp [hred]
    unfold Lk.TreeBalanceAfterRemove.loop
    match hpath : cur.path with
    | [] => exact ⟨cur, rfl, hnn, id, rfl⟩
    | p :: rest =>
      simp only [hb, Bool.false_eq_true, ↓reduceIte]
      exact ⟨cur, rfl, hnn, id, rfl⟩
  | succ fuel ih =>
    intro cur hfuel hnn
    unfold Lk.TreeBalanceAfterRemove.loop
    match hpath : cur.path with
    | [] => exact ⟨cur, rfl, hnn, id, rfl⟩
    | p :: rest =>
      cases hb : Lk.isBlack cur.focus with
      | false =>
        simp only [Bool.false_eq_true, ↓reduceIte]
        exact ⟨cur, rfl, hnn, id, rfl⟩
      | true =>
        simp only [↓reduceIte]
        obtain ⟨focus, path⟩ := cur
        simp only at hpath hfuel hb ⊢
        subst hpath
        have hnr : Lk.isRed focus = false := by
          cases focus with
          | null => rfl
          | node a q r c s lt rt => simpa using hb
        have key : ∀ (w : Bool) (x : Option (Lk.Loc α)),
            (w = (!p.dir) ∨ (focus = .null ∧ p.sib = .null ∧ w = p.dir)) →
            x = Lk.TreeBARSub ⟨focus, p :: rest⟩ w →
            ∃ cur'', x.bind (Lk.TreeBalanceAfterRemove.loop fuel) = some cur'' ∧
              (cur''.focus.isNull = false ∨ cur''.path ≠ []) ∧
              (Lk.WellLinked (Lk.Loc.mk focus (p :: rest)).root → Lk.WellLinked cur''.root) ∧
              Lk.addrs cur''.root = Lk.addrs (Lk.Loc.mk focus (p :: rest)).root := by
          intro w x hw hx
          obtain ⟨cur', h1, h2, h3, h4, h5⟩ := lk_TreeBARSub_total focus p rest w hw
          rw [h1] at hx
          subst hx
          show ∃ cur'', Lk.TreeBalanceAfterRemove.loop fuel cur' = some cur'' ∧ _
          obtain ⟨cur'', k1, k2, k3, k4⟩ := ih cur' (by
            rcases h2 with h | h
            · left
              rcases hfuel with h' | h'
              · simp only [List.length_cons] at h h'; omega
              · rw [hnr] at h'; cases h'
            · exact Or.inr h) (Or.inl h3)
          exact ⟨cur'', k1, k2, fun hl => k3 (h4 hl), by rw [k4, h5]; rfl⟩
        cases focus with
        | null =>
          cases hd : p.dir with
          | false => exact key true _ (Or.inl (by simp [hd])) (by simp [hd])
          | true =>
            cases hs : p.sib with
            | null => exact key true _ (Or.inr ⟨rfl, hs, hd.symm⟩) (by simp [hd, hs])
            | node _ _ _ _ _ _ _ =>
              exact key false _ (Or.inl (by simp [hd])) (by simp [hd, hs])
        | node _ _ _ _ _ _ _ =>
          cases hd : p.dir with
          | false => exact key true _ (Or.inl (by simp [hd])) (by simp [hd])
          | true => exact key false _ (Or.inl (by simp [hd])) (by simp [hd])

/-- On any tree, `TreeBalanceAfterRemove` returns and keeps the links consistent. -/
theorem lk_TreeBalanceAfterRemove_total (cur : Lk.Loc α)
    (hnn : cur.focus.isNull = false ∨ cur.path ≠ []) :
    ∃ root, Lk.TreeBalanceAfterRemove cur = some root ∧
      (Lk.WellLinked cur.root → Lk.WellLinked root) ∧ Lk.addrs root = Lk.addrs cur.root := by
  obtain ⟨cur', h1, _, h3, h4⟩ :=
    lk_TreeBalanceAfterRemove_loop_total (cur.path.length + 1) cur (Or.inl (by omega)) hnn
  simp only [Lk.TreeBalanceAfterRemove, h1, Option.map_some']
  obtain ⟨focus, path⟩ := cur'
  cases focus with
  | null => exact ⟨_, rfl, h3, h4⟩
  | node a p r c s lt rt =>
    refine ⟨_, rfl, ?_, ?_⟩
    · intro hl
      have := h3 hl
      simp only [lk_root_mk, lk_wellLinked_zip] at this ⊢
      simpa using this
    · rw [← h4]
      simp [lk_addrs_zip]

/-! ## `TreeRemoveNodeIndex` keeps the links consistent -/

theorem lk_descend_spec : ∀ (n : Lk.Node α) (path : List (Lk.Frame α)), n.isNull = false →
    ∃ ra rp rr rc rs rrt inner,
      Lk.TreeMinimum.descend n path = ⟨.node ra rp rr rc rs .null rrt, inner ++ path⟩ ∧
      Lk.zip (.node ra rp rr rc rs .null rrt) inner = n := by
  intro n
  induction n with
  | null => intro path h; cases h
  | node a p r c s lt rt ihl _ =>
    intro path _
    cases lt with
    | null => exact ⟨a, p, r, c, s, rt, [], rfl, rfl⟩
    | node a' p' r' c' s' lt' rt' =>
      obtain ⟨ra, rp, rr, rc, rs, rrt, inner, h1, h2⟩ :=
        ihl (⟨false, a, p, r, c, s, rt⟩ :: path) rfl
      refine ⟨ra, rp, rr, rc, rs, rrt, inner ++ [⟨false, a, p, r, c, s, rt⟩], ?_, ?_⟩
      · simp only [Lk.TreeMinimum.descend, h1, List.append_assoc, List.singleton_append]
      · rw [lk_zip_append, h2]; rfl

/-- The node unlinked by `TreeRemoveNodeIndex`: `curnode` itself when it lacks a child, else
the left-most node of its right subtree, which has no left child. -/
theorem lk_redundant_spec (a : Nat) (p : Option Nat) (r : Bool) (c : α) (s : Int)
    (lt rt : Lk.Node α) (path : List (Lk.Frame α)) :
    (Lk.TreeRemoveNodeIndex.redundant ⟨.node a p r c s lt rt, path⟩ =
        some ⟨.node a p r c s lt rt, path⟩ ∧ (lt = .null ∨ rt = .null)) ∨
    (∃ ra rp rr rc rs rrt inner,
      Lk.TreeRemoveNodeIndex.redundant ⟨.node a p r c s lt rt, path⟩ =
        some ⟨.node ra rp rr rc rs .null rrt, inner ++ ⟨true, a, p, r, c, s, lt⟩ :: path⟩ ∧
      Lk.zip (.node ra rp rr rc rs .null rrt) inner = rt) := by
  cases lt with
  | null => exact Or.inl ⟨rfl, Or.inl rfl⟩
  | node a1 p1 r1 c1 s1 l1 t1 =>
    cases rt with
    | null => exact Or.inl ⟨rfl, Or.inr rfl⟩
    | node a2 p2 r2 c2 s2 l2 t2 =>
      refine Or.inr ?_
      obtain ⟨ra, rp, rr, rc, rs, rrt, inner, h1, h2⟩ :=
        lk_descend_spec (.node a2 p2 r2 c2 s2 l2 t2)
          (⟨true, a, p, r, c, s, .node a1 p1 r1 c1 s1 l1 t1⟩ :: path) rfl
      exact ⟨ra, rp, rr, rc, rs, rrt, inner, by
        simp only [Lk.TreeRemoveNodeIndex.redundant, Lk.TreeSuccessor, h1], h2⟩

theorem lk_setAncestor_append (c : α) (s : Int) (f : Lk.Frame α) (path : List (Lk.Frame α)) :
    ∀ inner : List (Lk.Frame α), Lk.setAncestor c s inner.length (inner ++ f :: path) =
      inner ++ { f with content := c, size := s } :: path := by
  intro inner
  induction inner with
  | nil => rfl
  | cons g gs ih => simp [Lk.setAncestor, ih]

/-- Changing the record of an ancestor changes neither links nor addresses. -/
theorem lk_content_path (c : α) (s : Int) (f : Lk.Frame α) (path : List (Lk.Frame α)) :
    ∀ inner : List (Lk.Frame α),
      Lk.parentOf (inner ++ { f with content := c, size := s } :: path) =
        Lk.parentOf (inner ++ f :: path) ∧
      (Lk.CtxLinked (inner ++ { f with content := c, size := s } :: path) ↔
        Lk.CtxLinked (inner ++ f :: path)) ∧
      Lk.before (inner ++ { f with content := c, size := s } :: path) =
        Lk.before (inner ++ f :: path) ∧
      Lk.after (inner ++ { f with content := c, size := s } :: path) =
        Lk.after (inner ++ f :: path) := by
  intro inner
  induction inner with
  | nil => simp [Lk.before, Lk.after]
  | cons g gs ih =>
    obtain ⟨h1, h2, h3, h4⟩ := ih
    simp [Lk.before, Lk.after, h1, h2, h3, h4]

/-- On any tree, replacing a node that lacks a child by its other child returns; the links of
the new tree are consistent if those around the node were, and its addresses are those around
the path used, with the addresses of the child in the middle. -/
theorem lk_splice_total (cur : Lk.Loc α) (ra : Nat) (rp : Option Nat) (rr : Bool) (rc : α)
    (rs : Int) (rlt rrt : Lk.Node α) (rpath : List (Lk.Frame α))
    (hone : rlt = .null ∨ rrt = .null) :
    ∃ root, Lk.TreeRemoveNodeIndex.splice cur ⟨.node ra rp rr rc rs rlt rrt, rpath⟩ =
        some root ∧
      (rp = Lk.parentOf (if rpath.length = cur.path.length then rpath
          else Lk.setAncestor rc rs (rpath.length - cur.path.length - 1) rpath) →
        Lk.CtxLinked (if rpath.length = cur.path.length then rpath
          else Lk.setAncestor rc rs (rpath.length - cur.path.length - 1) rpath) →
        Lk.Below rlt → Lk.Below rrt → Lk.WellLinked root) ∧
      Lk.addrs root =
        Lk.before (if rpath.length = cur.path.length then rpath
          else Lk.setAncestor rc rs (rpath.length - cur.path.length - 1) rpath) ++
        (Lk.addrs rlt ++ Lk.addrs rrt) ++
        Lk.after (if rpath.length = cur.path.length then rpath
          else Lk.setAncestor rc rs (rpath.length - cur.path.length - 1) rpath) := by
  simp only [Lk.TreeRemoveNodeIndex.splice]
  generalize (if rpath.length = cur.path.length then rpath
    else Lk.setAncestor rc rs (rpath.length - cur.path.length - 1) rpath) = P
  cases rr with
  | true =>
    simp only [lk_isBlack_node, Bool.not_true, Bool.false_eq_true, ↓reduceIte,
      Option.some.injEq, exists_eq_left']
    rcases hone with h | h <;> subst h
    · simp [lk_addrs_zip, lk_wellLinked_zip]
      intro h1 h2 h3
      exact ⟨h1 ▸ lk_parentIs_setParent rrt rp, h3, h2⟩
    · cases rlt <;> simp [lk_addrs_zip, lk_wellLinked_zip]
      intros
      simp_all
  | false =>
    simp only [lk_isBlack_node, Bool.not_false, ↓reduceIte]
    cases rlt with
    | null =>
      cases rrt with
      | null =>
        cases P with
        | nil => exact ⟨.null, rfl, fun _ _ _ _ => ⟨trivial, trivial⟩, rfl⟩
        | cons f fs =>
          obtain ⟨root, h1, h2, h3⟩ :=
            lk_TreeBalanceAfterRemove_total ⟨.null, f :: fs⟩ (Or.inr (by simp))
          refine ⟨root, h1, ?_, by rw [h3, lk_root_mk, lk_addrs_zip]; simp⟩
          intro _ k2 _ _
          apply h2
          rw [lk_root_mk, lk_wellLinked_zip]
          exact ⟨trivial, trivial, k2⟩
      | node ta tp tr tc ts tl trt =>
        obtain ⟨root, h1, h2, h3⟩ :=
          lk_TreeBalanceAfterRemove_total ⟨.node ta rp tr tc ts tl trt, P⟩ (Or.inl rfl)
        refine ⟨root, h1, ?_, by rw [h3, lk_root_mk, lk_addrs_zip]; simp⟩
        intro k1 k2 _ k4
        apply h2
        rw [lk_root_mk, lk_wellLinked_zip]
        exact ⟨k1, k4, k2⟩
    | node la lp lr lc ls ll lrt =>
      have hr : rrt = .null := by
        rcases hone with h | h
        · cases h
        · exact h
      subst hr
      obtain ⟨root, h1, h2, h3⟩ :=
        lk_TreeBalanceAfterRemove_total ⟨.node la rp lr lc ls ll lrt, P⟩ (Or.inl rfl)
      refine ⟨root, h1, ?_, by rw [h3, lk_root_mk, lk_addrs_zip]; simp⟩
      intro k1 k2 k3 _
      apply h2
      rw [lk_root_mk, lk_wellLinked_zip]
      exact ⟨k1, k3, k2⟩

/-- On any tree, `TreeRemoveNodeIndex` on a node returns the record the node held; the links
stay consistent, and the addresses of the nodes are the same without the address freed. -/
theorem lk_unlink_total (a : Nat) (p : Option Nat) (r : Bool) (c : α) (s : Int)
    (lt rt : Lk.Node α) (path : List (Lk.Frame α)) :
    ∃ freed root, Lk.TreeRemoveNodeIndex ⟨.node a p r c s lt rt, path⟩ =
        some (c, freed, root) ∧
      (Lk.WellLinked (Lk.zip (.node a p r c s lt rt) path) → Lk.WellLinked root) ∧
      ∃ x y, Lk.addrs (Lk.zip (.node a p r c s lt rt) path) = x ++ freed :: y ∧
        Lk.addrs root = x ++ y := by
  rcases lk_redundant_spec a p r c s lt rt path with
    ⟨h1, h2⟩ | ⟨ra, rp, rr, rc, rs, rrt, inner, h1, hz⟩
  · obtain ⟨root, k1, k2, k3⟩ :=
      lk_splice_total ⟨.node a p r c s lt rt, path⟩ a p r c s lt rt path h2
    refine ⟨a, root, by simp [Lk.TreeRemoveNodeIndex, h1, k1], ?_,
      Lk.before path ++ Lk.addrs lt, Lk.addrs rt ++ Lk.after path, ?_, ?_⟩
    · intro hl
      rw [lk_wellLinked_zip] at hl
      simp only [↓reduceIte] at k2
      simp only [lk_parentIs_node, lk_below_node] at hl
      exact k2 hl.1 hl.2.2 hl.2.1.2.2.1 hl.2.1.2.2.2
    · simp [lk_addrs_zip]
    · rw [k3]
      simp
  · obtain ⟨root, k1, k2, k3⟩ := lk_splice_total ⟨.node a p r c s lt rt, path⟩ ra rp rr rc rs
      .null rrt (inner ++ ⟨true, a, p, r, c, s, lt⟩ :: path) (Or.inl rfl)
    have hlen : ¬ (inner ++ (⟨true, a, p, r, c, s, lt⟩ : Lk.Frame α) :: path).length =
        path.length := by
      simp only [List.length_append, List.length_cons]; omega
    have hk : (inner ++ (⟨true, a, p, r, c, s, lt⟩ : Lk.Frame α) :: path).length -
        path.length - 1 = inner.length := by
      simp only [List.length_append, List.length_cons]; omega
    simp only [hlen, ↓reduceIte, hk, lk_setAncestor_append] at k2 k3
    obtain ⟨e1, e2, e3, e4⟩ := lk_content_path rc rs ⟨true, a, p, r, c, s, lt⟩ path inner
    have hzip : Lk.zip (.node a p r c s lt rt) path =
        Lk.zip (.node ra rp rr rc rs .null rrt)
          (inner ++ ⟨true, a, p, r, c, s, lt⟩ :: path) := by
      rw [lk_zip_append, hz]
      rfl
    refine ⟨ra, root, by simp [Lk.TreeRemoveNodeIndex, h1, k1], ?_,
      Lk.before (inner ++ ⟨true, a, p, r, c, s, lt⟩ :: path),
      Lk.addrs rrt ++ Lk.after (inner ++ ⟨true, a, p, r, c, s, lt⟩ :: path), ?_, ?_⟩
    · intro hl
      rw [hzip, lk_wellLinked_zip] at hl
      simp only [lk_parentIs_node, lk_below_node] at hl
      exact k2 (by rw [e1]; exact hl.1) (e2.2 hl.2.2) trivial hl.2.1.2.2.2
    · rw [hzip, lk_addrs_zip]
      simp
    · rw [k3, e3, e4]
      simp

/-! ## What the fields of an index refer to -/

theorem lk_addr_mem (n : Lk.Node α) (x : Nat) (h : n.addr? = some x) : x ∈ Lk.addrs n := by
  cases n with
  | null => cases h
  | node a p r c s lt rt =>
    simp only [lk_addr_node, Option.some.injEq] at h
    subst h
    simp

/-- With consistent links, every address held in a `parent` or `child` field of a subtree is
the address of a node of the subtree, or the parent of its root. -/
theorem lk_refs_subset : ∀ (n : Lk.Node α) (par : Option Nat), n.parentIs par → Lk.Below n →
    ∀ x ∈ Lk.refs n, some x = par ∨ x ∈ Lk.addrs n := by
  intro n
  induction n with
  | null => intro par _ _ x hx; cases hx
  | node a p r c s lt rt ihl ihr =>
    intro par hp hb x hx
    simp only [lk_parentIs_node] at hp
    simp only [lk_below_node] at hb
    obtain ⟨b1, b2, b3, b4⟩ := hb
    simp only [Lk.refs, List.mem_append, Option.mem_toList, Option.mem_def] at hx
    simp only [lk_addrs_node, List.mem_append, List.mem_cons]
    rcases hx with (((hx | hx) | hx) | hx) | hx
    · left; rw [← hp, hx]
    · exact Or.inr (Or.inl (lk_addr_mem lt x hx))
    · exact Or.inr (Or.inr (Or.inr (lk_addr_mem rt x hx)))
    · rcases ihl (some a) b1 b3 x hx with h | h
      · right; right; left; exact (Option.some.inj h)
      · exact Or.inr (Or.inl h)
    · rcases ihr (some a) b2 b4 x hx with h | h
      · right; right; left; exact (Option.some.inj h)
      · exact Or.inr (Or.inr (Or.inr h))

theorem lk_refs_wellLinked (root : Lk.Node α) (h : Lk.WellLinked root) :
    ∀ x ∈ Lk.refs root, x ∈ Lk.addrs root := by
  intro x hx
  rcases lk_refs_subset root none h.1 h.2 x hx with h1 | h1
  · cases h1
  · exact h1

/-! ## C22 -/

theorem lk_rotate_some (cur : Lk.Loc α) (d : Bool)
    (h : ∃ a p r c s lt rt, cur.focus = .node a p r c s lt rt ∧
      (if d then lt else rt).isNull = false) :
    ∃ cur', Lk.TreeRotate cur d = some cur' := by
  obtain ⟨a, p, r, c, s, lt, rt, hf, hp⟩ := h
  obtain ⟨focus, path⟩ := cur
  simp only at hf
  subst hf
  cases d
  · cases rt with
    | null => cases hp
    | node a' p' r' c' s' lt' rt' => exact ⟨_, lk_rotate_left ..⟩
  · cases lt with
    | null => cases hp
    | node a' p' r' c' s' lt' rt' => exact ⟨_, lk_rotate_right ..⟩

theorem lk_add_done (compare : α → α → Int → Int) (dup : Bool) (root : Lk.Node α)
    (content : α) (size : Int) (newel : Nat) (rc : Option α) (root1 : Lk.Node α)
    (h : Lk.TreeAddByIndex compare dup root content size newel = .done (rc, root1)) :
    Lk.TreeAddByIndex compare false root content size newel = .done (rc, root1) := by
  cases dup with
  | false => exact h
  | true =>
    simp only [Lk.TreeAddByIndex] at h ⊢
    split at h
    · simp only [↓reduceIte] at h
      cases h
    · exact h

/-- C22.  Parent links stay consistent: in an index whose nodes carry their address and their
`parent` field, if the root has a `NULL` parent and every child `c` of every node `p` has
`c->parent == p`, then the same holds after `TreeRotate` on a node with a pivot child (which
returns), after `TreeAddByIndex` (which returns when duplicates are disallowed) and after
`TreeRemoveNodeIndex` on a node of the index (which returns).  After `TreeRemoveNodeIndex`
every address held in a `parent` or `child` field, and the root pointer, is the address of a
node of the index; when the addresses of the nodes are distinct, none is the address of the
node freed, and none is the address of the unlinked node `temp` of the fix-up, which is no
node of the index. -/
theorem C22_parent_links_stay_consistent :
    (∀ (cur : Lk.Loc α) (d : Bool), Lk.WellLinked cur.root →
      (∃ a p r c s lt rt, cur.focus = .node a p r c s lt rt ∧
        (if d then lt else rt).isNull = false) →
      ∃ cur', Lk.TreeRotate cur d = some cur' ∧ Lk.WellLinked cur'.root ∧
        Lk.addrs cur'.root = Lk.addrs cur.root) ∧
    (∀ (compare : α → α → Int → Int) (root : Lk.Node α) (content : α) (size : Int)
        (newel : Nat), Lk.WellLinked root →
      (∃ rc root1,
        Lk.TreeAddByIndex compare false root content size newel = .done (rc, root1)) ∧
      ∀ dup rc root1,
        Lk.TreeAddByIndex compare dup root content size newel = .done (rc, root1) →
        Lk.WellLinked root1) ∧
    (∀ curnode : Lk.Loc α, curnode.focus.isNull = false → Lk.WellLinked curnode.root →
      ∃ c freed root1, Lk.TreeRemoveNodeIndex curnode = some (c, freed, root1) ∧
        Lk.WellLinked root1 ∧
        (∀ x ∈ Lk.refs root1, x ∈ Lk.addrs root1) ∧
        (∀ x, root1.addr? = some x → x ∈ Lk.addrs root1) ∧
        (∀ x ∈ Lk.addrs root1, x ∈ Lk.addrs curnode.root) ∧
        freed ∈ Lk.addrs curnode.root ∧
        ((Lk.addrs curnode.root).Nodup →
          freed ∉ Lk.addrs root1 ∧ freed ∉ Lk.refs root1 ∧ root1.addr? ≠ some freed) ∧
        ∀ temp, temp ∉ Lk.addrs curnode.root →
          temp ∉ Lk.addrs root1 ∧ temp ∉ Lk.refs root1 ∧ root1.addr? ≠ some temp) := by
  refine ⟨?_, ?_, ?_⟩
  · intro cur d hl hp
    obtain ⟨cur', h⟩ := lk_rotate_some cur d hp
    obtain ⟨h1, h2⟩ := lk_rotate_linked cur cur' d h
    exact ⟨cur', h, h1 hl, h2⟩
  · intro compare root content size newel hl
    obtain ⟨rc, root1, h1, h2, _⟩ := lk_TreeAddByIndex_linked compare root content size newel hl
    refine ⟨⟨rc, root1, h1⟩, ?_⟩
    intro dup rc' root1' h
    have h' := lk_add_done compare dup root content size newel rc' root1' h
    rw [h1] at h'
    cases h'
    exact h2
  · intro curnode hnn hl
    obtain ⟨focus, path⟩ := curnode
    cases focus with
    | null => cases hnn
    | node a p r c s lt rt =>
      obtain ⟨freed, root1, h1, h2, x, y, e1, e2⟩ := lk_unlink_total a p r c s lt rt path
      have hl1 := h2 hl
      simp only [lk_root_mk] at hl ⊢
      refine ⟨c, freed, root1, h1, hl1, lk_refs_wellLinked root1 hl1,
        fun z hz => lk_addr_mem root1 z hz, ?_, ?_, ?_, ?_⟩
      · intro z hz
        rw [e2] at hz
        rw [e1]
        simp only [List.mem_append, List.mem_cons] at hz ⊢
        tauto
      · rw [e1]
        simp
      · intro hnd
        have h4 : freed ∉ Lk.addrs root1 := by
          rw [e1] at hnd
          rw [e2]
          have h3 := List.nodup_middle.1 hnd
          exact (List.nodup_cons.1 h3).1
        exact ⟨h4, fun hz => h4 (lk_refs_wellLinked root1 hl1 freed hz),
          fun hz => h4 (lk_addr_mem root1 freed hz)⟩
      · intro temp ht
        have h4 : temp ∉ Lk.addrs root1 := by
          intro hz
          apply ht
          rw [e2] at hz
          rw [e1]
          simp only [List.mem_append, List.mem_cons] at hz ⊢
          tauto
        exact ⟨h4, fun hz => h4 (lk_refs_wellLinked root1 hl1 temp hz),
          fun hz => h4 (lk_addr_mem root1 temp hz)⟩

theorem C22_parent_links_stay_consistent_witness :
    (Lk.Node.isNull Lk.three = false) ∧ Lk.WellLinked Lk.three ∧
    ∃ c freed root1, Lk.TreeRemoveNodeIndex ⟨Lk.three, []⟩ = some (c, freed, root1) ∧
      Lk.WellLinked root1 ∧
      (∀ x ∈ Lk.refs root1, x ∈ Lk.addrs root1) ∧
      (∀ x, root1.addr? = some x → x ∈ Lk.addrs root1) ∧
      (∀ x ∈ Lk.addrs root1, x ∈ Lk.addrs (Lk.Loc.mk Lk.three []).root) ∧
      freed ∈ Lk.addrs (Lk.Loc.mk Lk.three []).root ∧
      ((Lk.addrs (Lk.Loc.mk Lk.three []).root).Nodup →
        freed ∉ Lk.addrs root1 ∧ freed ∉ Lk.refs root1 ∧ root1.addr? ≠ some freed) ∧
      ∀ temp, temp ∉ Lk.addrs (Lk.Loc.mk Lk.three []).root →
        temp ∉ Lk.addrs root1 ∧ temp ∉ Lk.refs root1 ∧ root1.addr? ≠ some temp :=
  ⟨rfl, by simp [Lk.WellLinked, Lk.three],
    C22_parent_links_stay_consistent.2.2 ⟨Lk.three, []⟩ rfl
      (by simp [Lk.WellLinked, Lk.three])⟩

end PahoTree
